import Mathlib

/-
Verification of the order-book matching engine in `orderbook.py`
( `OrderBook.submit_order`, `OrderBook._match`, `OrderBook._trigger_stop_orders`,
`OrderBook._add_limit_order_to_book`, `OrderBook._remove_order_from_book` ).

Modelling conventions (shallow embedding):

* Python `float` prices are modelled as `Int`.  The engine never does arithmetic
  on prices (they are only compared, stored as dict keys, and copied into
  trades), so any linearly ordered carrier is faithful; the concrete scenarios
  in the spec use integral prices.  A price that is Python `None` is `none`,
  so prices (and the book's dict keys, which are order prices) are `Option Int`.
* Python `int` quantities are `Int` (they can go negative in the unchecked
  iceberg path, which matters for claim C4).
* Python comparisons `x >= y` / `x <= y` / `x < y` raise `TypeError` when one
  side is `None`; they are modelled as `Except`-valued comparisons on
  `Option Int` (`cmpGe`, `cmpLe`, `cmpLt`).
* The mutable `OrderBook` object is modelled as a value `OrderBook` threaded
  through every operation.  Python dicts keyed by price (`self.buys`,
  `self.sells`) and by id (`self.orders`) are association lists; `deque`s are
  `List Order`.  Python's in-place mutation of a shared `Order` object (the
  same object sits in a price queue and in `self.orders`) is modelled by
  updating both entries at the point of mutation, and by re-reading the queue
  from the state wherever Python reads through a live alias.  The only
  divergence from CPython this allows concerns stale deque aliases after a
  nested cascade deletes and re-creates the same price key, a path on which
  CPython raises (`KeyError` / deque `ValueError`); these paths are modelled
  as engine errors.
* The two `raise ValueError(...)` statements in `submit_order` are the errors
  `invalidQuantity` ("Quantity must be positive") and `invalidIceberg`
  ("Iceberg order requires display_size>0"); together they are the spec's
  `InvalidOrder`.  `list.remove` / `deque.remove` on a missing element is
  `valueError`, a missing dict key is `keyError`, a `None` comparison is
  `typeError`.
* The recursion `submit_order -> _match -> _trigger_stop_orders ->
  submit_order` and the two matching loops are run by a single fuel-indexed
  interpreter `runF`; `fuelOut` is an artifact of the embedding, never of the
  source.  Theorems quantify over the fuel or condition on a non-`fuelOut`
  result.
* The global counter `_seq` only matters for the timestamps of freshly created
  `Trade`s (orders arrive with caller-chosen ids and timestamps); it is the
  `seq` field of the state.  The write-only derived field `sort_index` of
  `Order` is omitted (nothing in the engine reads it).
-/

inductive Side where
  | BUY
  | SELL
deriving DecidableEq, Repr

def Side.flip : Side → Side
  | .BUY => .SELL
  | .SELL => .BUY

inductive OrderType where
  | LIMIT
  | MARKET
  | IOC
  | FOK
  | STOP
  | STOP_LIMIT
  | ICEBERG
deriving DecidableEq, Repr

/-- The `Order` dataclass of `orderbook.py` (minus the write-only `sort_index`). -/
structure Order where
  id : Nat
  side : Side
  quantity : Int
  price : Option Int
  type : OrderType
  timestamp : Nat
  filled : Int
  user : Option String
  stop_price : Option Int
  display_size : Option Int
  reserve : Int
deriving DecidableEq, Repr

/-- `Order.remaining`: `max(0, quantity - filled)`. -/
def Order.remaining (o : Order) : Int := max 0 (o.quantity - o.filled)

/-- `Order.fill`: `qty = min(qty, remaining); filled += qty`. -/
def Order.fill (o : Order) (qty : Int) : Order :=
  { o with filled := o.filled + min qty o.remaining }

/-- The `Trade` dataclass; `timestamp` is drawn from the engine's sequence. -/
structure Trade where
  buy_order_id : Nat
  sell_order_id : Nat
  price : Option Int
  quantity : Int
  timestamp : Nat
deriving DecidableEq, Repr

/-- The mutable state of an `OrderBook` instance. -/
structure OrderBook where
  buys : List (Option Int × List Order)
  sells : List (Option Int × List Order)
  buy_prices : List (Option Int)
  sell_prices : List (Option Int)
  orders : List (Nat × Order)
  trades : List Trade
  stop_orders : List Order
  seq : Nat
deriving DecidableEq, Repr

def OrderBook.empty : OrderBook :=
  { buys := [], sells := [], buy_prices := [], sell_prices := []
  , orders := [], trades := [], stop_orders := [], seq := 0 }

inductive EngineError where
  | invalidQuantity
  | invalidIceberg
  | typeError
  | keyError
  | valueError
  | fuelOut
deriving DecidableEq, Repr

/-- Association-list lookup (Python `d[k]` / `k in d`). -/
def alookup {α β : Type} [DecidableEq α] : List (α × β) → α → Option β
  | [], _ => none
  | (k0, v) :: rest, k => if k0 = k then some v else alookup rest k

/-- Association-list write `d[k] = v` (replace in place, append if absent). -/
def aset {α β : Type} [DecidableEq α] : List (α × β) → α → β → List (α × β)
  | [], k, v => [(k, v)]
  | (k0, v0) :: rest, k, v =>
      if k0 = k then (k0, v) :: rest else (k0, v0) :: aset rest k v

/-- Association-list delete `del d[k]` / `d.pop(k, None)` (first matching key). -/
def adel {α β : Type} [DecidableEq α] : List (α × β) → α → List (α × β)
  | [], _ => []
  | (k0, v0) :: rest, k => if k0 = k then rest else (k0, v0) :: adel rest k

/-- Python `a < b` on possibly-`None` floats: `TypeError` when a side is `None`. -/
def cmpLt (a b : Option Int) : Except EngineError Bool :=
  match a, b with
  | some x, some y => .ok (decide (x < y))
  | _, _ => .error .typeError

/-- Python `a <= b` on possibly-`None` floats. -/
def cmpLe (a b : Option Int) : Except EngineError Bool :=
  match a, b with
  | some x, some y => .ok (decide (x ≤ y))
  | _, _ => .error .typeError

/-- Python `a >= b` on possibly-`None` floats. -/
def cmpGe (a b : Option Int) : Except EngineError Bool :=
  match a, b with
  | some x, some y => .ok (decide (x ≥ y))
  | _, _ => .error .typeError

/-- `bisect.insort(price_list, x)`: keeps the list ascending; like CPython it
performs no comparison when the list is empty and raises `TypeError` on a
`None`-vs-number comparison. -/
def insortE (x : Option Int) : List (Option Int) → Except EngineError (List (Option Int))
  | [] => .ok [x]
  | y :: ys =>
    match cmpLt x y with
    | .error e => .error e
    | .ok true => .ok (x :: y :: ys)
    | .ok false =>
      match insortE x ys with
      | .error e => .error e
      | .ok r => .ok (y :: r)

/-- `list.remove(x)`: drops the first occurrence, `ValueError` if absent. -/
def removeFirstE (x : Option Int) : List (Option Int) → Except EngineError (List (Option Int))
  | [] => .error .valueError
  | y :: ys =>
    if y = x then .ok ys
    else
      match removeFirstE x ys with
      | .error e => .error e
      | .ok r => .ok (y :: r)

/-- Total first-occurrence removal (used by the spec-modelled `cancel`). -/
def removeFirst (x : Option Int) : List (Option Int) → List (Option Int)
  | [] => []
  | y :: ys => if y = x then ys else y :: removeFirst x ys

/-- One insertion step of `sorted(l, reverse=True)` (descending). -/
def insertDescE (x : Option Int) : List (Option Int) → Except EngineError (List (Option Int))
  | [] => .ok [x]
  | y :: ys =>
    match cmpLt x y with
    | .error e => .error e
    | .ok true =>
      match insertDescE x ys with
      | .error e => .error e
      | .ok r => .ok (y :: r)
    | .ok false => .ok (x :: y :: ys)

/-- `sorted(l, reverse=True)`: like CPython it performs no comparison on lists
of length at most one and raises `TypeError` on a `None`-vs-number comparison. -/
def sortedDescE : List (Option Int) → Except EngineError (List (Option Int))
  | [] => .ok []
  | y :: ys =>
    match sortedDescE ys with
    | .error e => .error e
    | .ok r => insertDescE y r

/-- First queue entry with the given id (`deque` scan). -/
def findId (oid : Nat) : List Order → Option Order
  | [] => none
  | o :: rest => if o.id = oid then some o else findId oid rest

/-- `deque.remove(order)`: drop the first entry equal to the order; orders are
identified by their unique `id`. -/
def eraseFirstId (oid : Nat) : List Order → List Order
  | [] => []
  | o :: rest => if o.id = oid then rest else o :: eraseFirstId oid rest

/-- The side's own book dict (`self.buys` / `self.sells`). -/
def sideQueues (st : OrderBook) : Side → List (Option Int × List Order)
  | .BUY => st.buys
  | .SELL => st.sells

def setSideQueues (st : OrderBook) : Side → List (Option Int × List Order) → OrderBook
  | .BUY, b => { st with buys := b }
  | .SELL, b => { st with sells := b }

/-- The side's own sorted price list (`self.buy_prices` / `self.sell_prices`). -/
def sidePriceList (st : OrderBook) : Side → List (Option Int)
  | .BUY => st.buy_prices
  | .SELL => st.sell_prices

def setSidePriceList (st : OrderBook) : Side → List (Option Int) → OrderBook
  | .BUY, l => { st with buy_prices := l }
  | .SELL, l => { st with sell_prices := l }

/-- `OrderBook._add_limit_order_to_book` (fallible through `bisect.insort`). -/
def addLimitE (st : OrderBook) (o : Order) : Except EngineError OrderBook :=
  let book := sideQueues st o.side
  let plist := sidePriceList st o.side
  match alookup book o.price with
  | none =>
    match insortE o.price plist with
    | .error e => .error e
    | .ok pl =>
      let st1 := setSideQueues st o.side (aset book o.price [o])
      let st2 := setSidePriceList st1 o.side pl
      .ok { st2 with orders := aset st2.orders o.id o }
  | some q =>
    let st1 := setSideQueues st o.side (aset book o.price (q ++ [o]))
    .ok { st1 with orders := aset st1.orders o.id o }

/-- The trigger test in `_trigger_stop_orders`: a BUY compares
`last_price >= stop_price`, a SELL compares `last_price <= stop_price`
(short-circuit: only the order's own side's comparison is evaluated). -/
def checkTrigger (last : Option Int) (o : Order) : Except EngineError Bool :=
  match o.side with
  | .BUY => cmpGe last o.stop_price
  | .SELL => cmpLe last o.stop_price

/-- Conversion of a triggered order: STOP becomes MARKET with price cleared,
STOP_LIMIT becomes LIMIT keeping its price; other types are left unchanged. -/
def convertTriggered (o : Order) : Order :=
  if o.type = .STOP then { o with type := .MARKET, price := none }
  else if o.type = .STOP_LIMIT then { o with type := .LIMIT }
  else o

/-- The partition loop of `_trigger_stop_orders`: returns
(converted triggered orders, remaining parked orders), both in original order. -/
def triggerPartitionE (last : Option Int) :
    List Order → Except EngineError (List Order × List Order)
  | [] => .ok ([], [])
  | o :: rest =>
    match checkTrigger last o with
    | .error e => .error e
    | .ok true =>
      match triggerPartitionE last rest with
      | .error e => .error e
      | .ok (t, r) => .ok (convertTriggered o :: t, r)
    | .ok false =>
      match triggerPartitionE last rest with
      | .error e => .error e
      | .ok (t, r) => .ok (t, o :: r)

/-- The shapes of the engine's internal calls: `submit_order`, the two parts of
`_trigger_stop_orders`, the price-level loop of `_match`, and the inner
while-loop of `_match` (with its explicit index `i`). -/
inductive Call where
  | submit (st : OrderBook) (o : Order)
  | triggerStops (st : OrderBook) (last : Option Int)
  | triggerLoop (st : OrderBook) (pending : List Order)
  | matchLevels (st : OrderBook) (inc : Order) (prices : List (Option Int))
  | matchInner (st : OrderBook) (inc : Order) (key : Option Int) (i : Nat)

/-- Uniform result: (trades produced by this call and returned by it,
the incoming order's final fill state, the final book state).  The order slot
is meaningless for trigger calls and filled with `Order.dummy`. -/
def Order.dummy : Order :=
  { id := 0, side := .BUY, quantity := 0, price := none, type := .LIMIT
  , timestamp := 0, filled := 0, user := none, stop_price := none
  , display_size := none, reserve := 0 }

abbrev RunResult := List Trade × Order × OrderBook

/-- Body of `submit_order` (lines 189-211), parametrized by the interpreter. -/
def submitBody (rec : Call → Except EngineError RunResult)
    (st : OrderBook) (o : Order) : Except EngineError RunResult :=
  if o.quantity ≤ 0 then .error .invalidQuantity
  else if o.type = .STOP ∨ o.type = .STOP_LIMIT then
    .ok ([], o, { st with stop_orders := st.stop_orders ++ [o] })
  else
    let oE : Except EngineError Order :=
      if o.type = .ICEBERG then
        match o.display_size with
        | none => .error .invalidIceberg
        | some ds =>
          if ds ≤ 0 then .error .invalidIceberg
          else .ok { o with reserve := o.quantity - ds, quantity := ds }
      else .ok o
    match oE with
    | .error e => .error e
    | .ok o1 =>
      let pricesE : Except EngineError (List (Option Int)) :=
        if o1.side = .BUY then .ok st.sell_prices else sortedDescE st.buy_prices
      match pricesE with
      | .error e => .error e
      | .ok prices =>
        match rec (.matchLevels st o1 prices) with
        | .error e => .error e
        | .ok (tr, o2, st2) =>
          if o2.type = .IOC ∨ o2.type = .MARKET then .ok (tr, o2, st2)
          else if o2.type = .FOK ∧ (tr.map (·.quantity)).sum < o2.quantity then
            .ok ([], o2, st2)
          else if o2.remaining > 0 then
            match addLimitE st2 o2 with
            | .error e => .error e
            | .ok st3 => .ok (tr, o2, st3)
          else .ok (tr, o2, { st2 with orders := aset st2.orders o2.id o2 })

/-- Body of `_trigger_stop_orders` (partition, store the remainder, then
re-submit each triggered order in order). -/
def triggerBody (rec : Call → Except EngineError RunResult)
    (st : OrderBook) (last : Option Int) : Except EngineError RunResult :=
  match triggerPartitionE last st.stop_orders with
  | .error e => .error e
  | .ok (trig, remain) => rec (.triggerLoop { st with stop_orders := remain } trig)

/-- The re-submission loop of `_trigger_stop_orders`; the trades of each
recursive `submit_order` are discarded, exactly as in line 137 of the source. -/
def triggerLoopBody (rec : Call → Except EngineError RunResult)
    (st : OrderBook) (pending : List Order) : Except EngineError RunResult :=
  match pending with
  | [] => .ok ([], Order.dummy, st)
  | o :: rest =>
    match rec (.submit st o) with
    | .error e => .error e
    | .ok (_, _, st1) => rec (.triggerLoop st1 rest)

/-- The state mutation of one fill step of `_match`: write the filled resting
order back into its queue slot and into the id table, append the new trade to
the log and advance the sequence. -/
def tradeUpd (st : OrderBook) (s : Side) (key : Option Int) (q : List Order)
    (i : Nat) (resting2 : Order) (t : Trade) : OrderBook :=
  let st2 := setSideQueues st s (aset (sideQueues st s) key (q.set i resting2))
  let st2 := { st2 with orders := aset st2.orders resting2.id resting2 }
  { st2 with trades := st2.trades ++ [t], seq := st2.seq + 1 }

/-- The state mutation of `q.remove(resting); self.orders.pop(resting.id)`. -/
def eraseUpd (st : OrderBook) (s : Side) (key : Option Int) (q4 : List Order)
    (rid : Nat) : OrderBook :=
  let st5 := setSideQueues st s (aset (sideQueues st s) key (eraseFirstId rid q4))
  { st5 with orders := adel st5.orders rid }

/-- Body of the inner while-loop of `_match` (lines 156-180) at index `i`;
the queue is re-read from the state wherever Python reads the live alias `q`. -/
def matchInnerBody (rec : Call → Except EngineError RunResult)
    (st : OrderBook) (inc : Order) (key : Option Int) (i : Nat) :
    Except EngineError RunResult :=
  let book := sideQueues st inc.side.flip
  match alookup book key with
  | none => .error .keyError
  | some q =>
    if hq : i < q.length then
      if inc.remaining ≤ 0 then .ok ([], inc, st)
      else
        let resting := q.get ⟨i, hq⟩
        if resting.remaining ≤ 0 then rec (.matchInner st inc key (i + 1))
        else
          let qty := min inc.remaining resting.remaining
          let tprice := resting.price
          let inc2 := inc.fill qty
          let resting2 := resting.fill qty
          let t : Trade :=
            { buy_order_id := if inc.side = .BUY then inc.id else resting.id
            , sell_order_id := if inc.side = .BUY then resting.id else inc.id
            , price := tprice, quantity := qty, timestamp := st.seq }
          let st3 := tradeUpd st inc.side.flip key q i resting2 t
          match rec (.triggerStops st3 tprice) with
          | .error e => .error e
          | .ok (_, _, st4) =>
            let book4 := sideQueues st4 inc.side.flip
            match alookup book4 key with
            | none => .error .valueError
            | some q4 =>
              match findId resting.id q4 with
              | none => .error .valueError
              | some r4 =>
                if r4.remaining = 0 then
                  match rec (.matchInner (eraseUpd st4 inc.side.flip key q4 resting.id) inc2 key i) with
                  | .error e => .error e
                  | .ok (tr, incF, stF) => .ok (t :: tr, incF, stF)
                else
                  match rec (.matchInner st4 inc2 key (i + 1)) with
                  | .error e => .error e
                  | .ok (tr, incF, stF) => .ok (t :: tr, incF, stF)
    else .ok ([], inc, st)

/-- End of one iteration of the price-level loop (lines 181-186):
`if not q: del opp_book[price]; price_list.remove(price)`.  The queue is
re-read from the state (Python reads the live alias `q`); a vanished key is a
`KeyError`, as in CPython when the stale alias is empty and `del` re-fires. -/
def levelCleanupE (st : OrderBook) (s : Side) (key : Option Int) :
    Except EngineError OrderBook :=
  match alookup (sideQueues st s) key with
  | none => .error .keyError
  | some q =>
    if q.isEmpty then
      match removeFirstE key (sidePriceList st s) with
      | .error e => .error e
      | .ok pl =>
        .ok (setSidePriceList (setSideQueues st s (adel (sideQueues st s) key)) s pl)
    else .ok st

/-- Body of the price-level loop of `_match` (lines 144-186) over the snapshot
of opposing prices taken at entry. -/
def matchLevelsBody (rec : Call → Except EngineError RunResult)
    (st : OrderBook) (inc : Order) (prices : List (Option Int)) :
    Except EngineError RunResult :=
  match prices with
  | [] => .ok ([], inc, st)
  | key :: rest =>
    if inc.remaining ≤ 0 then .ok ([], inc, st)
    else
      let priceOkE : Except EngineError Bool :=
        if inc.type = .MARKET ∨ inc.type = .IOC ∨ inc.type = .FOK then .ok true
        else if inc.side = .BUY then cmpLe key inc.price
        else cmpGe key inc.price
      match priceOkE with
      | .error e => .error e
      | .ok pok =>
        if pok = false then .ok ([], inc, st)
        else
          match rec (.matchInner st inc key 0) with
          | .error e => .error e
          | .ok (tr1, inc1, st1) =>
            match levelCleanupE st1 inc.side.flip key with
            | .error e => .error e
            | .ok st2 =>
              match rec (.matchLevels st2 inc1 rest) with
              | .error e => .error e
              | .ok (tr2, inc2, st3) => .ok (tr1 ++ tr2, inc2, st3)

/-- The fuel-indexed interpreter tying the mutually recursive pieces together. -/
def runF : Nat → Call → Except EngineError RunResult
  | 0, _ => .error .fuelOut
  | n + 1, .submit st o => submitBody (runF n) st o
  | n + 1, .triggerStops st last => triggerBody (runF n) st last
  | n + 1, .triggerLoop st pending => triggerLoopBody (runF n) st pending
  | n + 1, .matchLevels st inc prices => matchLevelsBody (runF n) st inc prices
  | n + 1, .matchInner st inc key i => matchInnerBody (runF n) st inc key i

/-- `OrderBook.submit_order`, the public entry point. -/
def submit_order (fuel : Nat) (st : OrderBook) (o : Order) :
    Except EngineError (List Trade × OrderBook) :=
  match runF fuel (.submit st o) with
  | .error e => .error e
  | .ok (tr, _, st1) => .ok (tr, st1)

instance {ε α : Type} [DecidableEq ε] [DecidableEq α] : DecidableEq (Except ε α) := fun a b =>
  match a, b with
  | .error e, .error f =>
    match decEq e f with
    | isTrue h => isTrue (h ▸ rfl)
    | isFalse h => isFalse fun hh => h (by cases hh; rfl)
  | .ok x, .ok y =>
    match decEq x y with
    | isTrue h => isTrue (h ▸ rfl)
    | isFalse h => isFalse fun hh => h (by cases hh; rfl)
  | .error _, .ok _ => isFalse fun hh => Except.noConfusion hh
  | .ok _, .error _ => isFalse fun hh => Except.noConfusion hh

/-- `OrderBook._remove_order_from_book` (lines 97-109): rebuild the queue
without the order, drop the price level if it became empty, pop the order
from the id table.  Silently returns when the price key is absent. -/
def removeOrderFromBook (st : OrderBook) (o : Order) : Except EngineError OrderBook :=
  let book := sideQueues st o.side
  let plist := sidePriceList st o.side
  match alookup book o.price with
  | none => .ok st
  | some q =>
    let q2 := q.filter (fun x => x.id ≠ o.id)
    if q2.isEmpty then
      match removeFirstE o.price plist with
      | .error e => .error e
      | .ok pl =>
        let st1 := setSidePriceList (setSideQueues st o.side (adel book o.price)) o.side pl
        .ok { st1 with orders := adel st1.orders o.id }
    else
      let st1 := setSideQueues st o.side (aset book o.price q2)
      .ok { st1 with orders := adel st1.orders o.id }

inductive CancelError where
  | orderNotFound
deriving DecidableEq, Repr

/-- First order with the given id in any price queue of one book side. -/
def findInQueues (b : List (Option Int × List Order)) (oid : Nat) : Option Order :=
  match b with
  | [] => none
  | (_, q) :: rest =>
    match findId oid q with
    | some o => some o
    | none => findInQueues rest oid

/-- An order id is currently held by the engine: resting in a price queue or
parked in the stop manager.  (A fully filled or cancelled order has been
removed from both, per the lifecycle in the data model.) -/
def heldBy (st : OrderBook) (oid : Nat) : Prop :=
  (findInQueues st.buys oid).isSome ∨ (findInQueues st.sells oid).isSome ∨
    ∃ o ∈ st.stop_orders, o.id = oid

instance (st : OrderBook) (oid : Nat) : Decidable (heldBy st oid) := by
  unfold heldBy; infer_instance

/-- Modelled from the spec: the source has no cancel entry point (the helper
`_remove_order_from_book` is never called), so `Cancel(order_id)` is built
from section 4.4: remove the order from whichever structure currently holds it
(price queue, mirroring `_remove_order_from_book`: rebuild the queue without
the order, drop the price level when it empties; or the stop manager), and
fail with `OrderNotFound` when the id is unknown or already fully
filled/cancelled (hence held nowhere). -/
def cancel (st : OrderBook) (oid : Nat) : Except CancelError OrderBook :=
  match findInQueues st.buys oid with
  | some o =>
    let q := (alookup st.buys o.price).getD []
    let q2 := q.filter (fun x => x.id ≠ oid)
    if q2.isEmpty then
      .ok { st with buys := adel st.buys o.price,
                    buy_prices := removeFirst o.price st.buy_prices,
                    orders := adel st.orders oid }
    else
      .ok { st with buys := aset st.buys o.price q2, orders := adel st.orders oid }
  | none =>
    match findInQueues st.sells oid with
    | some o =>
      let q := (alookup st.sells o.price).getD []
      let q2 := q.filter (fun x => x.id ≠ oid)
      if q2.isEmpty then
        .ok { st with sells := adel st.sells o.price,
                      sell_prices := removeFirst o.price st.sell_prices,
                      orders := adel st.orders oid }
      else
        .ok { st with sells := aset st.sells o.price q2, orders := adel st.orders oid }
    | none =>
      if st.stop_orders.any (fun o => o.id = oid) then
        .ok { st with stop_orders := st.stop_orders.filter (fun o => o.id ≠ oid) }
      else .error .orderNotFound

/-- All order ids resting in the price queues of one book side. -/
def queueIds (b : List (Option Int × List Order)) : List Nat :=
  (b.map (fun kv => kv.2.map Order.id)).flatten

def bookIds (st : OrderBook) : List Nat := queueIds st.buys ++ queueIds st.sells

def stopIds (st : OrderBook) : List Nat := st.stop_orders.map Order.id

/-- Key/price-list bookkeeping: association keys and price lists are
duplicate-free. -/
def wfKeys (st : OrderBook) : Prop :=
  (st.buys.map Prod.fst).Nodup ∧ (st.sells.map Prod.fst).Nodup ∧
    st.buy_prices.Nodup ∧ st.sell_prices.Nodup

/-- A price is listed exactly when its key is present in the side's dict. -/
def wfSync (st : OrderBook) : Prop :=
  (∀ p ∈ st.buy_prices, (alookup st.buys p).isSome) ∧
    (∀ kv ∈ st.buys, kv.1 ∈ st.buy_prices) ∧
    (∀ p ∈ st.sell_prices, (alookup st.sells p).isSome) ∧
    (∀ kv ∈ st.sells, kv.1 ∈ st.sell_prices)

/-- Every present queue is non-empty and holds orders keyed by their own price. -/
def wfQueues (st : OrderBook) : Prop :=
  (∀ kv ∈ st.buys, kv.2 ≠ [] ∧ ∀ o ∈ kv.2, o.price = kv.1) ∧
    (∀ kv ∈ st.sells, kv.2 ≠ [] ∧ ∀ o ∈ kv.2, o.price = kv.1)

/-- Order ids across the two book sides and the stop manager are distinct. -/
def wfIds (st : OrderBook) : Prop := (bookIds st ++ stopIds st).Nodup

/-- Parked stop orders have positive quantity and a stop type (the only way
`submit_order` parks an order). -/
def wfStops (st : OrderBook) : Prop :=
  ∀ o ∈ st.stop_orders, 0 < o.quantity ∧ (o.type = .STOP ∨ o.type = .STOP_LIMIT)

/-- Every resting order has positive remaining quantity (holds between engine
operations; transiently violated inside a match step until the filled order is
removed). -/
def wfPos (st : OrderBook) : Prop :=
  (∀ kv ∈ st.buys, ∀ o ∈ kv.2, 0 < o.remaining) ∧
    (∀ kv ∈ st.sells, ∀ o ∈ kv.2, 0 < o.remaining)

/-- Structural well-formedness of a book state. -/
def WFState (st : OrderBook) : Prop :=
  wfKeys st ∧ wfSync st ∧ wfQueues st ∧ wfIds st ∧ wfStops st

/-- The book-side invariant exactly as claimed: a price appears in a side's
sorted list iff its queue is non-empty, and every queued order has positive
remaining quantity. -/
def BookInv (st : OrderBook) : Prop :=
  (∀ p, p ∈ st.buy_prices ↔ ∃ q, alookup st.buys p = some q ∧ q ≠ []) ∧
    (∀ p, p ∈ st.sell_prices ↔ ∃ q, alookup st.sells p = some q ∧ q ≠ []) ∧
    wfPos st

instance (st : OrderBook) : Decidable (wfKeys st) := by unfold wfKeys; infer_instance

instance (st : OrderBook) : Decidable (wfSync st) := by unfold wfSync; infer_instance

instance (st : OrderBook) : Decidable (wfQueues st) := by unfold wfQueues; infer_instance

instance (st : OrderBook) : Decidable (wfIds st) := by unfold wfIds; infer_instance

instance (st : OrderBook) : Decidable (wfStops st) := by unfold wfStops; infer_instance

instance (st : OrderBook) : Decidable (wfPos st) := by unfold wfPos; infer_instance

instance (st : OrderBook) : Decidable (WFState st) := by unfold WFState; infer_instance

/-- Convenience constructor for caller-made orders (defaults as in the
dataclass: `filled = 0`, no user, no stop price, no display size, reserve 0). -/
def mkOrder (id : Nat) (side : Side) (qty : Int) (price : Option Int)
    (ty : OrderType) (ts : Nat) : Order :=
  { id := id, side := side, quantity := qty, price := price, type := ty
  , timestamp := ts, filled := 0, user := none, stop_price := none
  , display_size := none, reserve := 0 }

/-! Concrete scenarios.  Book states are written out literally; each equals the
state produced by submitting the listed resting/parked orders into an empty
book (checked by the corresponding theorems below). -/

def fokRest : Order := mkOrder 1 .SELL 30 (some 100) .LIMIT 1

/-- Book holding a single resting Sell Limit 30 at 100. -/
def fokBook : OrderBook :=
  { OrderBook.empty with
    sells := [(some 100, [fokRest])], sell_prices := [some 100]
  , orders := [(1, fokRest)] }

def fokBuy : Order := mkOrder 2 .BUY 50 (some 100) .FOK 2

def cscSell1 : Order := mkOrder 51 .SELL 5 (some 101) .LIMIT 1

def cscSell2 : Order := mkOrder 52 .SELL 5 (some 102) .LIMIT 2

def cscStop : Order := { mkOrder 53 .BUY 3 none .STOP 3 with stop_price := some 101 }

def cscBuy : Order := mkOrder 54 .BUY 10 (some 102) .LIMIT 4

/-- Book with asks 5@101 and 5@102 and a parked Buy Stop (qty 3, stop 101). -/
def cscBook : OrderBook :=
  { OrderBook.empty with
    sells := [(some 101, [cscSell1]), (some 102, [cscSell2])]
  , sell_prices := [some 101, some 102]
  , orders := [(51, cscSell1), (52, cscSell2)]
  , stop_orders := [cscStop] }

def iceOrder : Order := { mkOrder 21 .SELL 10 (some 101) .ICEBERG 1 with display_size := some 4 }

def iceRested : Order := { iceOrder with quantity := 4, reserve := 6 }

/-- Book holding the iceberg's displayed slice (4 of 10, reserve 6) at 101. -/
def iceBook : OrderBook :=
  { OrderBook.empty with
    sells := [(some 101, [iceRested])], sell_prices := [some 101]
  , orders := [(21, iceRested)] }

def iceBuy : Order := mkOrder 22 .BUY 4 (some 101) .LIMIT 2

def bigIceberg : Order := { mkOrder 31 .SELL 5 (some 101) .ICEBERG 1 with display_size := some 10 }

def ptSell1 : Order := mkOrder 1 .SELL 10 (some 101) .LIMIT 1

def ptSell2 : Order := mkOrder 2 .SELL 5 (some 101) .LIMIT 2

def ptBuy : Order := mkOrder 3 .BUY 12 (some 101) .LIMIT 3

/-- Book with two resting asks at 101: 10 (earlier) then 5 (later). -/
def ptBook : OrderBook :=
  { OrderBook.empty with
    sells := [(some 101, [ptSell1, ptSell2])], sell_prices := [some 101]
  , orders := [(1, ptSell1), (2, ptSell2)] }

def stopCascAsk : Order := mkOrder 71 .SELL 5 (some 101) .LIMIT 1

def stopCascBid : Order := mkOrder 72 .BUY 5 (some 100) .LIMIT 2

def stopCascStop : Order := { mkOrder 73 .BUY 3 none .STOP 3 with stop_price := some 100 }

def stopCascSellMkt : Order := mkOrder 74 .SELL 5 none .MARKET 4

/-- Book with best ask 5@101, a bid 5@100, and a parked Buy Stop (stop 100). -/
def stopCascBook : OrderBook :=
  { OrderBook.empty with
    buys := [(some 100, [stopCascBid])], buy_prices := [some 100]
  , sells := [(some 101, [stopCascAsk])], sell_prices := [some 101]
  , orders := [(71, stopCascAsk), (72, stopCascBid)]
  , stop_orders := [stopCascStop] }

def nsSell : Order := mkOrder 61 .SELL 5 (some 101) .LIMIT 1

def nsStop : Order := mkOrder 62 .BUY 4 none .STOP 2

def nsBuy : Order := mkOrder 63 .BUY 5 (some 101) .LIMIT 3

/-- Book with one ask 5@101 and a parked Buy Stop whose stop price is None. -/
def nsBook : OrderBook :=
  { OrderBook.empty with
    sells := [(some 101, [nsSell])], sell_prices := [some 101]
  , orders := [(61, nsSell)]
  , stop_orders := [nsStop] }

/-- The state argument of an internal call. -/
def Call.state : Call → OrderBook
  | .submit st _ => st
  | .triggerStops st _ => st
  | .triggerLoop st _ => st
  | .matchLevels st _ _ => st
  | .matchInner st _ _ _ => st

/-- A parked stop order with an absent stop price. -/
def hasNoneStop (st : OrderBook) : Prop :=
  ∃ o ∈ st.stop_orders, o.stop_price = none

def nsBuy99 : Order := mkOrder 64 .BUY 5 (some 99) .LIMIT 4

/-- State of `nsBook` after additionally resting a Buy Limit 5@99. -/
def nsBookAfter : OrderBook :=
  { nsBook with
    buys := [(some 99, [nsBuy99])], buy_prices := [some 99]
  , orders := [(61, nsSell), (64, nsBuy99)] }

def cscT1 : Trade :=
  { buy_order_id := 54, sell_order_id := 51, price := some 101, quantity := 5, timestamp := 0 }

def cscT2 : Trade :=
  { buy_order_id := 53, sell_order_id := 52, price := some 102, quantity := 3, timestamp := 1 }

def cscT3 : Trade :=
  { buy_order_id := 54, sell_order_id := 52, price := some 102, quantity := 2, timestamp := 2 }

/-- Final state of the cascade scenario `cscBook` after submitting `cscBuy`. -/
def cscAfter : OrderBook :=
  { buys := [(some 102, [{ cscBuy with filled := 7 }])]
  , sells := [], buy_prices := [some 102], sell_prices := []
  , orders := [(54, { cscBuy with filled := 7 })]
  , trades := [cscT1, cscT2, cscT3]
  , stop_orders := [], seq := 3 }

/-- Validity obligations for an internal call: parked stops are well-formed
and incoming orders satisfy the two entry checks of `submit_order`. -/
def callValid : Call → Prop
  | .submit st o =>
      wfStops st ∧ 0 < o.quantity ∧
        (o.type = .ICEBERG → ∃ d, o.display_size = some d ∧ 0 < d)
  | .triggerStops st _ => wfStops st
  | .triggerLoop st pend =>
      wfStops st ∧ ∀ o ∈ pend, 0 < o.quantity ∧ o.type ≠ .ICEBERG
  | .matchLevels st _ _ => wfStops st
  | .matchInner st _ _ _ => wfStops st

/-- Result classification for the no-`InvalidOrder` induction. -/
def okErrProp (r : Except EngineError RunResult) : Prop :=
  (∀ e, r = .error e → e ≠ .invalidQuantity ∧ e ≠ .invalidIceberg) ∧
  (∀ tr o2 st', r = .ok (tr, o2, st') → wfStops st')

def c4BadQty : Order := mkOrder 81 .BUY 0 none .LIMIT 1

def c4BadIce : Order := { mkOrder 82 .SELL 5 (some 101) .ICEBERG 2 with display_size := none }

def c4Good : Order := mkOrder 83 .BUY 5 (some 100) .LIMIT 3

/-! Side-parametric well-formedness used by the preservation induction. -/

/-- The queue resting at a price on a side (empty when the key is absent). -/
def queueAt (st : OrderBook) (s : Side) (p : Option Int) : List Order :=
  (alookup (sideQueues st s) p).getD []

/-- One side's key and price-list duplicate-freedom. -/
def sideKeysWF (st : OrderBook) (s : Side) : Prop :=
  ((sideQueues st s).map Prod.fst).Nodup ∧ (sidePriceList st s).Nodup

/-- One side's dict keys and sorted price list list the same prices. -/
def sideSyncWF (st : OrderBook) (s : Side) : Prop :=
  (∀ p ∈ sidePriceList st s, (alookup (sideQueues st s) p).isSome) ∧
    ∀ kv ∈ sideQueues st s, kv.1 ∈ sidePriceList st s

/-- One side's queues hold orders keyed by their own price and are non-empty,
except possibly at the single excused level `exc` (the level the inner match
loop is currently draining). -/
def sideQX (st : OrderBook) (exc : Option (Side × Option Int)) (s : Side) : Prop :=
  ∀ kv ∈ sideQueues st s, (kv.2 = [] → exc = some (s, kv.1)) ∧ ∀ o ∈ kv.2, o.price = kv.1

/-- Structural invariant carried through the interpreter: key/price-list
bookkeeping, sync, queue shape with one excused level, and global id
uniqueness. -/
def SWX (st : OrderBook) (exc : Option (Side × Option Int)) : Prop :=
  (sideKeysWF st .BUY ∧ sideKeysWF st .SELL) ∧
    (sideSyncWF st .BUY ∧ sideSyncWF st .SELL) ∧
    (sideQX st exc .BUY ∧ sideQX st exc .SELL) ∧ wfIds st

instance (st : OrderBook) (s : Side) : Decidable (sideKeysWF st s) := by
  unfold sideKeysWF; infer_instance

instance (st : OrderBook) (s : Side) : Decidable (sideSyncWF st s) := by
  unfold sideSyncWF; infer_instance

instance (st : OrderBook) (exc : Option (Side × Option Int)) (s : Side) :
    Decidable (sideQX st exc s) := by
  unfold sideQX; infer_instance

instance (st : OrderBook) (exc : Option (Side × Option Int)) : Decidable (SWX st exc) := by
  unfold SWX; infer_instance

/-- The excused (possibly transiently empty) level of an internal call. -/
def Call.exc : Call → Option (Side × Option Int)
  | .matchInner _ inc key _ => some (inc.side.flip, key)
  | _ => none

/-- Freshness of the ids an internal call may introduce into the book. -/
def Call.fresh : Call → Prop
  | .submit st o => o.id ∉ bookIds st ∧ o.id ∉ stopIds st
  | .triggerStops _ _ => True
  | .triggerLoop st pend =>
      (pend.map Order.id).Nodup ∧ ∀ o ∈ pend, o.id ∉ bookIds st ∧ o.id ∉ stopIds st
  | .matchLevels st inc _ => inc.id ∉ bookIds st ∧ inc.id ∉ stopIds st
  | .matchInner st inc _ _ => inc.id ∉ bookIds st ∧ inc.id ∉ stopIds st

/-- Every fully-filled queue entry of the second state descends from an
equally dead entry (same id) already in the first state. -/
def zeroRespect (st st' : OrderBook) : Prop :=
  ∀ s p o, o ∈ queueAt st' s p → o.remaining ≤ 0 →
    ∃ s0 p0 o0, o0 ∈ queueAt st s0 p0 ∧ o0.id = o.id ∧ o0.remaining ≤ 0

/-- Where the ids of the final state's resting and parked orders come from. -/
def idsPost : Call → OrderBook → Prop
  | .submit st o, st' =>
      (∀ x ∈ bookIds st', x ∈ bookIds st ∨ x ∈ stopIds st ∨ x = o.id) ∧
        ∀ x ∈ stopIds st', x ∈ stopIds st ∨ x = o.id
  | .triggerStops st _, st' =>
      (∀ x ∈ bookIds st', x ∈ bookIds st ∨ x ∈ stopIds st) ∧
        ∀ x ∈ stopIds st', x ∈ stopIds st
  | .triggerLoop st pend, st' =>
      (∀ x ∈ bookIds st', x ∈ bookIds st ∨ x ∈ stopIds st ∨ x ∈ pend.map Order.id) ∧
        ∀ x ∈ stopIds st', x ∈ stopIds st ∨ x ∈ pend.map Order.id
  | .matchLevels st _ _, st' =>
      (∀ x ∈ bookIds st', x ∈ bookIds st ∨ x ∈ stopIds st) ∧
        ∀ x ∈ stopIds st', x ∈ stopIds st
  | .matchInner st _ _ _, st' =>
      (∀ x ∈ bookIds st', x ∈ bookIds st ∨ x ∈ stopIds st) ∧
        ∀ x ∈ stopIds st', x ∈ stopIds st

/-- The returned order is the incoming order up to fill bookkeeping. -/
def incPost : Call → Order → Prop
  | .matchLevels _ inc _, o2 =>
      o2.id = inc.id ∧ o2.price = inc.price ∧ o2.side = inc.side ∧ o2.type = inc.type
  | .matchInner _ inc _ _, o2 =>
      o2.id = inc.id ∧ o2.price = inc.price ∧ o2.side = inc.side ∧ o2.type = inc.type
  | _, _ => True

/-- Price discipline of the trades returned by a call. -/
def pricePost : Call → List Trade → Prop
  | .submit st o, tr =>
      (o.type ≠ .MARKET ∧ o.type ≠ .IOC ∧ o.type ≠ .FOK) →
        ∀ t ∈ tr, t.price ∈ sidePriceList st o.side.flip ∧
          ∀ w, o.price = some w →
            ∃ v, t.price = some v ∧ (o.side = .BUY → v ≤ w) ∧ (o.side = .SELL → w ≤ v)
  | .triggerStops _ _, tr => tr = []
  | .triggerLoop _ _, tr => tr = []
  | .matchLevels _ inc prices, tr =>
      ∀ t ∈ tr, t.price ∈ prices ∧
        ((inc.type ≠ .MARKET ∧ inc.type ≠ .IOC ∧ inc.type ≠ .FOK) →
          ∀ w, inc.price = some w →
            ∃ v, t.price = some v ∧ (inc.side = .BUY → v ≤ w) ∧ (inc.side = .SELL → w ≤ v))
  | .matchInner _ _ key _, tr => ∀ t ∈ tr, t.price = key

def c9Order : Order := mkOrder 901 .BUY 5 (some 100) .LIMIT 1

/-- The book after submitting `c9Order` into an empty book. -/
def c9After : OrderBook :=
  { OrderBook.empty with
    buys := [(some 100, [c9Order])], buy_prices := [some 100]
  , orders := [(901, c9Order)] }

def c7Buy : Order := mkOrder 902 .BUY 40 (some 105) .LIMIT 7

def c7BuyF : Order := { c7Buy with filled := 30 }

def c7T : Trade :=
  { buy_order_id := 902, sell_order_id := 1, price := some 100, quantity := 30
  , timestamp := 0 }

/-- The book after submitting `c7Buy` into `fokBook`: the resting sell is
fully filled and its level removed; the remainder of the buy rests at 105. -/
def c7After : OrderBook :=
  { OrderBook.empty with
    buys := [(some 105, [c7BuyF])], buy_prices := [some 105]
  , orders := [(902, c7BuyF)], trades := [c7T], seq := 1 }

/-! ## Price-time priority (C6): FIFO consumption of a price level

`FillOf x y` says `y` is the queue entry `x` after some extra fills: identity
and static fields unchanged, fill counter advanced.  `QRes q q'` says `q'` is
obtained from `q` by consuming a prefix and at most partially filling the
first survivor — exactly the shape a FIFO-drained deque can take. -/

def FillOf (x y : Order) : Prop :=
  y.id = x.id ∧ y.side = x.side ∧ y.quantity = x.quantity ∧ y.price = x.price ∧
    y.timestamp = x.timestamp ∧ x.filled ≤ y.filled

def QRes (q q' : List Order) : Prop :=
  ∃ m, q.drop m = q' ∨
    ∃ x xs y, q.drop m = x :: xs ∧ q' = y :: xs ∧ FillOf x y

/-- Per-queue id duplicate-freedom (weaker than `wfIds`, closed under the
stopless match loop). -/
def queuesIdNodup (st : OrderBook) : Prop :=
  ∀ s p, ((queueAt st s p).map Order.id).Nodup

/-- Side-dict key duplicate-freedom on both sides. -/
def keysNodup (st : OrderBook) : Prop :=
  ∀ s, ((sideQueues st s).map Prod.fst).Nodup

/-- Every queue entry is live. -/
def posQ (st : OrderBook) : Prop :=
  ∀ s p o, o ∈ queueAt st s p → 0 < o.remaining

/-- The stopless-matching invariant: no parked stops, live queues, unique ids
per queue, unique dict keys. -/
def SL (st : OrderBook) : Prop :=
  st.stop_orders = [] ∧ posQ st ∧ queuesIdNodup st ∧ keysNodup st

/-- Conclusion of the stopless induction for an inner-loop call: the stopless
invariant persists, the aggressor keeps its side, every other queue is
untouched, and the drained level keeps its first `i` entries and FIFO-consumes
the rest. -/
def MIC (st : OrderBook) (inc : Order) (key : Option Int) (i : Nat)
    (o2 : Order) (st' : OrderBook) : Prop :=
  SL st' ∧ o2.side = inc.side ∧
    (∀ s p, s ≠ inc.side.flip ∨ p ≠ key → queueAt st' s p = queueAt st s p) ∧
    ∃ q2, queueAt st' inc.side.flip key = (queueAt st inc.side.flip key).take i ++ q2 ∧
      QRes ((queueAt st inc.side.flip key).drop i) q2

/-- Conclusion of the stopless induction for a level-loop call: the stopless
invariant persists, the aggressor keeps its side, the aggressor's own side is
untouched and every opposing queue is FIFO-consumed. -/
def MLC (st : OrderBook) (inc : Order) (o2 : Order) (st' : OrderBook) : Prop :=
  SL st' ∧ o2.side = inc.side ∧
    (∀ s p, s ≠ inc.side.flip → queueAt st' s p = queueAt st s p) ∧
    ∀ p, QRes (queueAt st inc.side.flip p) (queueAt st' inc.side.flip p)

/-- Book after submitting `ptSell1` into the empty book. -/
def ptBook1 : OrderBook :=
  { OrderBook.empty with
    sells := [(some 101, [ptSell1])], sell_prices := [some 101]
  , orders := [(1, ptSell1)] }

def ptT1 : Trade :=
  { buy_order_id := 3, sell_order_id := 1, price := some 101, quantity := 10, timestamp := 0 }

def ptT2 : Trade :=
  { buy_order_id := 3, sell_order_id := 2, price := some 101, quantity := 2, timestamp := 1 }

/-- Book after the aggressor `ptBuy` has swept `ptBook`: the first resting
sell is gone, the second remains with `filled = 2` (so `remaining = 3`). -/
def ptAfter : OrderBook :=
  { buys := [], sells := [(some 101, [{ ptSell2 with filled := 2 }])]
  , buy_prices := [], sell_prices := [some 101]
  , orders := [(2, { ptSell2 with filled := 2 }), (3, { ptBuy with filled := 12 })]
  , trades := [ptT1, ptT2], stop_orders := [], seq := 2 }

/-- C1: the claim fails on the code.  Submitting a FOK Buy for 50 against a
book whose total opposing liquidity is 30 returns an empty trade list, but the
book is mutated: the resting sell has been fully filled and removed, its price
level deleted, and the trade appended to the trade log.  `_match` commits its
fills before `submit_order` checks the FOK shortfall, so there is no rollback
and no dry-run. -/
theorem C1_fok_shortfall_commits_fills :
    fokBook.sells = [(some 100, [fokRest])] ∧
    fokRest.remaining = 30 ∧ fokBuy.quantity = 50 ∧ fokBuy.type = .FOK ∧
    submit_order 20 fokBook fokBuy =
      .ok ([],
        { buys := [], sells := [], buy_prices := [], sell_prices := [], orders := []
        , trades := [{ buy_order_id := 2, sell_order_id := 1, price := some 100
                     , quantity := 30, timestamp := 0 }]
        , stop_orders := [], seq := 1 }) :=
  ⟨rfl, by decide, by decide, by decide, by decide⟩

/-- C2: counterexample.  Submitting Buy Limit 10@102 against asks 5@101 and
5@102 with a parked Buy Stop (qty 3, stop 101): the first trade 5@101 triggers
the stop, whose recursive submission trades 3@102; that cascaded trade is
appended to the book's trade log but is missing from the list returned by
`submit_order` (which holds only the primary trades 5@101 and 2@102), and in
the log it sits between the two primary trades rather than after them. -/
theorem C2_cascaded_trades_missing_from_return :
    submit_order 40 cscBook cscBuy =
      .ok ([{ buy_order_id := 54, sell_order_id := 51, price := some 101
            , quantity := 5, timestamp := 0 }
          , { buy_order_id := 54, sell_order_id := 52, price := some 102
            , quantity := 2, timestamp := 2 }],
        { buys := [(some 102, [{ cscBuy with filled := 7 }])]
        , sells := [], buy_prices := [some 102], sell_prices := []
        , orders := [(54, { cscBuy with filled := 7 })]
        , trades :=
            [{ buy_order_id := 54, sell_order_id := 51, price := some 101
             , quantity := 5, timestamp := 0 }
            , { buy_order_id := 53, sell_order_id := 52, price := some 102
              , quantity := 3, timestamp := 1 }
            , { buy_order_id := 54, sell_order_id := 52, price := some 102
              , quantity := 2, timestamp := 2 }]
        , stop_orders := [], seq := 3 }) ∧
    ({ buy_order_id := 53, sell_order_id := 52, price := some 102
     , quantity := 3, timestamp := 1 } : Trade) ∉
      [({ buy_order_id := 54, sell_order_id := 51, price := some 101
        , quantity := 5, timestamp := 0 } : Trade)
      , { buy_order_id := 54, sell_order_id := 52, price := some 102
        , quantity := 2, timestamp := 2 }] :=
  ⟨by decide, by decide⟩

/-- C3: the claim fails on the code (the spec itself flags this divergence in
section 9).  A resting Iceberg (quantity 10, display 4, reserve 6) whose
displayed slice is fully filled by a Buy 4@101 is removed from the book
entirely: no replenishment from the reserve, no re-insertion; the remaining
6 units are lost. -/
theorem C3_iceberg_reserve_not_replenished :
    submit_order 20 OrderBook.empty iceOrder = .ok ([], iceBook) ∧
    iceRested.reserve = 6 ∧
    submit_order 20 iceBook iceBuy =
      .ok ([{ buy_order_id := 22, sell_order_id := 21, price := some 101
            , quantity := 4, timestamp := 0 }],
        { buys := [], sells := [], buy_prices := [], sell_prices := []
        , orders := [(22, { iceBuy with filled := 4 })]
        , trades := [{ buy_order_id := 22, sell_order_id := 21, price := some 101
                     , quantity := 4, timestamp := 0 }]
        , stop_orders := [], seq := 1 }) :=
  ⟨by decide, by decide, by decide⟩

/-- C4: counterexample.  An Iceberg order whose `display_size` (10) exceeds its
`quantity` (5) is not rejected: `submit_order` accepts it, rests it with the
inflated displayed quantity 10 and a negative reserve, and raises nothing. -/
theorem C4_oversized_display_accepted :
    bigIceberg.display_size = some 10 ∧ bigIceberg.quantity = 5 ∧
    submit_order 20 OrderBook.empty bigIceberg =
      .ok ([],
        { OrderBook.empty with
          sells := [(some 101, [{ bigIceberg with quantity := 10, reserve := -5 }])]
        , sell_prices := [some 101]
        , orders := [(31, { bigIceberg with quantity := 10, reserve := -5 })] }) :=
  ⟨by decide, by decide, by decide⟩

/-! Small state-projection lemmas used throughout the proofs. -/

theorem setSideQueues_trades (st : OrderBook) (s : Side) (b : List (Option Int × List Order)) :
    (setSideQueues st s b).trades = st.trades := by cases s <;> rfl

theorem setSideQueues_stops (st : OrderBook) (s : Side) (b : List (Option Int × List Order)) :
    (setSideQueues st s b).stop_orders = st.stop_orders := by cases s <;> rfl

theorem tradeUpd_trades (st : OrderBook) (s : Side) (key : Option Int) (q : List Order)
    (i : Nat) (r2 : Order) (t : Trade) :
    (tradeUpd st s key q i r2 t).trades = st.trades ++ [t] := by cases s <;> rfl

theorem tradeUpd_stops (st : OrderBook) (s : Side) (key : Option Int) (q : List Order)
    (i : Nat) (r2 : Order) (t : Trade) :
    (tradeUpd st s key q i r2 t).stop_orders = st.stop_orders := by cases s <;> rfl

theorem eraseUpd_trades (st : OrderBook) (s : Side) (key : Option Int) (q4 : List Order)
    (rid : Nat) : (eraseUpd st s key q4 rid).trades = st.trades := by cases s <;> rfl

theorem eraseUpd_stops (st : OrderBook) (s : Side) (key : Option Int) (q4 : List Order)
    (rid : Nat) : (eraseUpd st s key q4 rid).stop_orders = st.stop_orders := by cases s <;> rfl

theorem setSidePriceList_trades (st : OrderBook) (s : Side) (l : List (Option Int)) :
    (setSidePriceList st s l).trades = st.trades := by cases s <;> rfl

theorem setSidePriceList_stops (st : OrderBook) (s : Side) (l : List (Option Int)) :
    (setSidePriceList st s l).stop_orders = st.stop_orders := by cases s <;> rfl

theorem addLimitE_trades_stops (st : OrderBook) (o : Order) (st1 : OrderBook)
    (h : addLimitE st o = .ok st1) :
    st1.trades = st.trades ∧ st1.stop_orders = st.stop_orders := by
  unfold addLimitE at h
  dsimp only at h
  split at h
  · split at h
    · cases h
    · cases h
      simp [setSidePriceList_trades, setSidePriceList_stops,
        setSideQueues_trades, setSideQueues_stops]
  · cases h
    simp [setSideQueues_trades, setSideQueues_stops]

/-- C8: stop-order semantics.  (1) Submitting a Stop or StopLimit order parks
it: the trade list is empty and the state changes only by appending the order
to the stop manager (in particular it is never matched directly).  (2) The
trigger test of `_trigger_stop_orders`: a trade at price `t` activates a
parked Buy order exactly when `t` is at least its stop price, and a parked
Sell order exactly when `t` is at most its stop price.  (3) An activated Stop
converts to Market with its price cleared, an activated StopLimit converts to
Limit keeping its pre-set limit price.  (4) One pass of the trigger partition
removes exactly the activated orders from the parked set (converting them) and
keeps the rest.  (5) End-to-end cascade: a Sell Market trading at 100
activates a parked Buy Stop (stop 100), which is removed from the parked set,
converted to Market and re-submitted, producing a second trade in the log. -/
theorem C8_stop_order_semantics :
    (∀ (fuel : Nat) (st : OrderBook) (o : Order), 0 < o.quantity →
      (o.type = .STOP ∨ o.type = .STOP_LIMIT) →
      submit_order (fuel + 1) st o =
        .ok ([], { st with stop_orders := st.stop_orders ++ [o] })) ∧
    (∀ (t v : Int) (o : Order), o.stop_price = some v →
      (o.side = .BUY → (checkTrigger (some t) o = .ok true ↔ v ≤ t)) ∧
      (o.side = .SELL → (checkTrigger (some t) o = .ok true ↔ t ≤ v))) ∧
    (∀ o : Order,
      (o.type = .STOP → convertTriggered o = { o with type := .MARKET, price := none }) ∧
      (o.type = .STOP_LIMIT → convertTriggered o = { o with type := .LIMIT })) ∧
    (∀ (last : Option Int) (stops trig remain : List Order),
      triggerPartitionE last stops = .ok (trig, remain) →
      trig = (stops.filter
                (fun o => decide (checkTrigger last o = .ok true))).map convertTriggered ∧
      remain = stops.filter (fun o => decide (checkTrigger last o = .ok false))) ∧
    submit_order 40 stopCascBook stopCascSellMkt =
      .ok ([{ buy_order_id := 72, sell_order_id := 74, price := some 100
            , quantity := 5, timestamp := 0 }],
        { buys := []
        , sells := [(some 101, [{ stopCascAsk with filled := 3 }])]
        , buy_prices := [], sell_prices := [some 101]
        , orders := [(71, { stopCascAsk with filled := 3 })]
        , trades := [{ buy_order_id := 72, sell_order_id := 74, price := some 100
                     , quantity := 5, timestamp := 0 }
                    , { buy_order_id := 73, sell_order_id := 71, price := some 101
                      , quantity := 3, timestamp := 1 }]
        , stop_orders := [], seq := 2 }) := by
  refine ⟨?_, ?_, ?_, ?_, by decide⟩
  · intro fuel st o hq ht
    have h1 : runF (fuel + 1) (.submit st o) =
        .ok ([], o, { st with stop_orders := st.stop_orders ++ [o] }) := by
      show submitBody (runF fuel) st o = _
      unfold submitBody
      rw [if_neg (by omega : ¬ o.quantity ≤ 0), if_pos ht]
    unfold submit_order
    rw [h1]
  · intro t v o h
    constructor <;> intro hside <;>
      simp [checkTrigger, hside, cmpGe, cmpLe, h, ge_iff_le]
  · intro o
    constructor <;> intro h <;> simp [convertTriggered, h]
  · intro last stops
    induction stops with
    | nil =>
      intro trig remain h
      unfold triggerPartitionE at h
      cases h
      simp
    | cons o rest ih =>
      intro trig remain h
      unfold triggerPartitionE at h
      cases hc : checkTrigger last o with
      | error e => rw [hc] at h; cases h
      | ok b =>
        rw [hc] at h
        cases hr : triggerPartitionE last rest with
        | error e => rw [hr] at h; cases b <;> simp at h
        | ok pr =>
          obtain ⟨t0, r0⟩ := pr
          rw [hr] at h
          obtain ⟨ht0, hr0⟩ := ih t0 r0 hr
          cases b with
          | false =>
            simp at h
            obtain ⟨h1, h2⟩ := h
            subst h1; subst h2
            simp [List.filter_cons, hc, ht0, hr0]
          | true =>
            simp at h
            obtain ⟨h1, h2⟩ := h
            subst h1; subst h2
            simp [List.filter_cons, hc, ht0, hr0]

/-- C8 witness: the parking equality, the trigger test and the conversions
evaluated at concrete inputs. -/
theorem C8_stop_order_semantics_witness :
    submit_order 3 OrderBook.empty cscStop =
      .ok ([], { OrderBook.empty with stop_orders := [cscStop] }) ∧
    (checkTrigger (some 101) cscStop = .ok true ↔ (101 : Int) ≤ 101) ∧
    convertTriggered cscStop = { cscStop with type := .MARKET, price := none } :=
  ⟨C8_stop_order_semantics.1 2 OrderBook.empty cscStop (by decide) (Or.inl rfl),
   (C8_stop_order_semantics.2.1 101 101 cscStop (by decide)).1 rfl,
   (C8_stop_order_semantics.2.2.1 cscStop).1 rfl⟩

/-! Unfolding lemmas for one interpreter step, and further projection lemmas. -/

theorem runF_submit (n : Nat) (st : OrderBook) (o : Order) :
    runF (n + 1) (.submit st o) = submitBody (runF n) st o := rfl

theorem runF_triggerStops (n : Nat) (st : OrderBook) (last : Option Int) :
    runF (n + 1) (.triggerStops st last) = triggerBody (runF n) st last := rfl

theorem runF_triggerLoop (n : Nat) (st : OrderBook) (pending : List Order) :
    runF (n + 1) (.triggerLoop st pending) = triggerLoopBody (runF n) st pending := rfl

theorem runF_matchLevels (n : Nat) (st : OrderBook) (inc : Order)
    (prices : List (Option Int)) :
    runF (n + 1) (.matchLevels st inc prices) = matchLevelsBody (runF n) st inc prices := rfl

theorem runF_matchInner (n : Nat) (st : OrderBook) (inc : Order) (key : Option Int)
    (i : Nat) :
    runF (n + 1) (.matchInner st inc key i) = matchInnerBody (runF n) st inc key i := rfl

theorem levelCleanupE_trades_stops (st : OrderBook) (s : Side) (key : Option Int)
    (st2 : OrderBook) (h : levelCleanupE st s key = .ok st2) :
    st2.trades = st.trades ∧ st2.stop_orders = st.stop_orders := by
  unfold levelCleanupE at h
  split at h
  · cases h
  · split at h
    · split at h
      · cases h
      · cases h
        simp [setSidePriceList_trades, setSidePriceList_stops,
          setSideQueues_trades, setSideQueues_stops]
    · cases h
      exact ⟨rfl, rfl⟩

theorem checkTrigger_noneStop (last : Option Int) (o : Order)
    (h : o.stop_price = none) : checkTrigger last o = .error .typeError := by
  unfold checkTrigger
  cases ho : o.side <;> cases last <;> simp [cmpGe, cmpLe, h]

theorem triggerPartitionE_noneStop (last : Option Int) (stops : List Order)
    (h : ∃ o ∈ stops, o.stop_price = none) :
    ∃ e, triggerPartitionE last stops = .error e := by
  induction stops with
  | nil => obtain ⟨o, ho, _⟩ := h; cases ho
  | cons o rest ih =>
    obtain ⟨po, hpo, hnone⟩ := h
    rcases List.mem_cons.mp hpo with hhd | htl
    · subst hhd
      exact ⟨.typeError, by unfold triggerPartitionE; rw [checkTrigger_noneStop last po hnone]⟩
    · cases hc : checkTrigger last o with
      | error e => exact ⟨e, by unfold triggerPartitionE; rw [hc]⟩
      | ok b =>
        obtain ⟨e, he⟩ := ih ⟨po, htl, hnone⟩
        refine ⟨e, ?_⟩
        unfold triggerPartitionE
        rw [hc, he]
        cases b <;> rfl

theorem triggerStops_noneStop_errors (n : Nat) (st : OrderBook) (last : Option Int)
    (h : hasNoneStop st) : ∃ e, runF n (.triggerStops st last) = .error e := by
  cases n with
  | zero => exact ⟨.fuelOut, rfl⟩
  | succ m =>
    obtain ⟨e, he⟩ := triggerPartitionE_noneStop last st.stop_orders h
    exact ⟨e, by rw [runF_triggerStops]; unfold triggerBody; rw [he]⟩

theorem triggerStops_ok_noNoneStop (n : Nat) (st2 : OrderBook) (last : Option Int)
    (r : RunResult) (h : runF n (.triggerStops st2 last) = .ok r) : ¬ hasNoneStop st2 := by
  intro hns
  obtain ⟨e, he⟩ := triggerStops_noneStop_errors n st2 last hns
  rw [he] at h
  cases h

/-- While a stop order with an absent stop price is parked, no internal call
can complete while producing a trade: the first trade's trigger pass raises. -/
theorem noneStop_blocks_trades : ∀ (n : Nat) (c : Call) (tr : List Trade)
    (o2 : Order) (st' : OrderBook),
    runF n c = .ok (tr, o2, st') → hasNoneStop c.state →
    tr = [] ∧ st'.trades = c.state.trades ∧ hasNoneStop st' := by
  intro n
  induction n with
  | zero => intro c tr o2 st' h _; cases h
  | succ m ih =>
    intro c tr o2 st' h hns
    cases c with
    | submit st o =>
      rw [runF_submit] at h
      unfold submitBody at h
      split at h
      · cases h
      · split at h
        · cases h
          obtain ⟨po, hpo, hnone⟩ := hns
          exact ⟨rfl, rfl, po, List.mem_append_left _ hpo, hnone⟩
        · dsimp only at h
          split at h
          · cases h
          · split at h
            · cases h
            · cases hml : runF m (.matchLevels st _ _) with
              | error e => rw [hml] at h; cases h
              | ok r =>
                obtain ⟨tr0, o20, st2⟩ := r
                rw [hml] at h
                dsimp only at h
                obtain ⟨htr0, htrades, hns2⟩ := ih _ _ _ _ hml hns
                split at h
                · cases h; exact ⟨htr0, htrades, hns2⟩
                · split at h
                  · cases h; exact ⟨rfl, htrades, hns2⟩
                  · split at h
                    · split at h
                      · cases h
                      · rename_i st3 hadd
                        cases h
                        obtain ⟨ht3, hs3⟩ := addLimitE_trades_stops _ _ _ hadd
                        refine ⟨htr0, ht3.trans htrades, ?_⟩
                        obtain ⟨po, hpo, hnone⟩ := hns2
                        exact ⟨po, hs3 ▸ hpo, hnone⟩
                    · cases h
                      exact ⟨htr0, htrades, hns2⟩
    | triggerStops st last =>
      obtain ⟨e, he⟩ := triggerStops_noneStop_errors (m + 1) st last hns
      rw [he] at h
      cases h
    | triggerLoop st pending =>
      cases pending with
      | nil =>
        rw [runF_triggerLoop] at h
        unfold triggerLoopBody at h
        cases h; exact ⟨rfl, rfl, hns⟩
      | cons o rest =>
        rw [runF_triggerLoop] at h
        unfold triggerLoopBody at h
        dsimp only at h
        cases hsub : runF m (.submit st o) with
        | error e => rw [hsub] at h; cases h
        | ok r =>
          obtain ⟨a, b, st1⟩ := r
          rw [hsub] at h
          dsimp only at h
          obtain ⟨_, htrades1, hns1⟩ := ih _ _ _ _ hsub hns
          obtain ⟨htr, htrades2, hns2⟩ := ih _ _ _ _ h hns1
          exact ⟨htr, htrades2.trans htrades1, hns2⟩
    | matchLevels st inc prices =>
      cases prices with
      | nil =>
        rw [runF_matchLevels] at h
        unfold matchLevelsBody at h
        cases h; exact ⟨rfl, rfl, hns⟩
      | cons key rest =>
        rw [runF_matchLevels] at h
        simp only [matchLevelsBody] at h
        split at h
        · cases h; exact ⟨rfl, rfl, hns⟩
        · try dsimp only at h
          split at h
          · cases h
          · split at h
            · cases h; exact ⟨rfl, rfl, hns⟩
            · cases hmi : runF m (.matchInner st inc key 0) with
              | error e => rw [hmi] at h; cases h
              | ok r =>
                obtain ⟨tr1, inc1, st1⟩ := r
                rw [hmi] at h
                try dsimp only at h
                obtain ⟨htr1, htrades1, hns1⟩ := ih _ _ _ _ hmi hns
                cases hcl : levelCleanupE st1 inc.side.flip key with
                | error e => rw [hcl] at h; cases h
                | ok st2 =>
                  rw [hcl] at h
                  try dsimp only at h
                  obtain ⟨ht2, hs2⟩ := levelCleanupE_trades_stops st1 _ key st2 hcl
                  have hns2 : hasNoneStop st2 := by
                    obtain ⟨po, hpo, hnone⟩ := hns1
                    exact ⟨po, hs2 ▸ hpo, hnone⟩
                  cases hml2 : runF m (.matchLevels st2 inc1 rest) with
                  | error e => rw [hml2] at h; cases h
                  | ok r2 =>
                    obtain ⟨tr2, inc2, st3⟩ := r2
                    rw [hml2] at h
                    try dsimp only at h
                    obtain ⟨htr2, htrades3, hns3⟩ := ih _ _ _ _ hml2 hns2
                    cases h
                    refine ⟨by simp [htr1, htr2], ?_, hns3⟩
                    exact (htrades3.trans ht2).trans htrades1
    | matchInner st inc key i =>
      rw [runF_matchInner] at h
      unfold matchInnerBody at h
      dsimp only at h
      split at h
      · cases h
      · split at h
        · split at h
          · cases h; exact ⟨rfl, rfl, hns⟩
          · split at h
            · exact ih (.matchInner st inc key (i + 1)) _ _ _ h hns
            · split at h
              · cases h
              · rename_i r heq
                refine absurd ?_ (triggerStops_ok_noNoneStop _ _ _ _ heq)
                simpa [hasNoneStop, tradeUpd_stops] using hns
        · cases h; exact ⟨rfl, rfl, hns⟩

/-- C10: a Stop/StopLimit order with absent stop price and positive quantity
is accepted and parked without error.  Thereafter, while such an order is
parked, no submission can complete while producing a trade: the first trade's
trigger comparison against the absent stop price raises (typeError), aborting
the submission part-way through its match, as the concrete run
`submit_order nsBook nsBuy = typeError` shows. -/
theorem C10_none_stop_price_parked_then_fatal :
    (∀ (fuel : Nat) (st : OrderBook) (o : Order), 0 < o.quantity →
      (o.type = .STOP ∨ o.type = .STOP_LIMIT) → o.stop_price = none →
      submit_order (fuel + 1) st o =
        .ok ([], { st with stop_orders := st.stop_orders ++ [o] })) ∧
    (∀ (fuel : Nat) (st : OrderBook) (o : Order) (tr : List Trade) (st' : OrderBook),
      hasNoneStop st → submit_order fuel st o = .ok (tr, st') →
      tr = [] ∧ st'.trades = st.trades) ∧
    submit_order 30 nsBook nsBuy = .error .typeError := by
  refine ⟨?_, ?_, by decide⟩
  · intro fuel st o hq ht _
    have h1 : runF (fuel + 1) (.submit st o) =
        .ok ([], o, { st with stop_orders := st.stop_orders ++ [o] }) := by
      show submitBody (runF fuel) st o = _
      unfold submitBody
      rw [if_neg (by omega : ¬ o.quantity ≤ 0), if_pos ht]
    unfold submit_order
    rw [h1]
  · intro fuel st o tr st' hns h
    unfold submit_order at h
    cases hr : runF fuel (.submit st o) with
    | error e => rw [hr] at h; cases h
    | ok r =>
      obtain ⟨a, b, c⟩ := r
      rw [hr] at h
      cases h
      obtain ⟨h1, h2, _⟩ := noneStop_blocks_trades fuel _ _ _ _ hr hns
      exact ⟨h1, h2⟩

/-- C10 witness: parking a None-stop order into the empty book, and a
trade-free submission into `nsBook` that completes with no new trades. -/
theorem C10_none_stop_price_parked_then_fatal_witness :
    submit_order 3 OrderBook.empty nsStop =
      .ok ([], { OrderBook.empty with stop_orders := [nsStop] }) ∧
    (([] : List Trade) = [] ∧ nsBookAfter.trades = nsBook.trades) :=
  ⟨C10_none_stop_price_parked_then_fatal.1 2 OrderBook.empty nsStop (by decide)
      (Or.inl rfl) rfl,
   C10_none_stop_price_parked_then_fatal.2.1 20 nsBook nsBuy99 [] nsBookAfter
      (⟨nsStop, by decide, rfl⟩) (by decide)⟩

/-- Every completed internal call appends some `delta` to the trade log and
returns a subsequence of `delta` (cascade trades stay in the log only). -/
theorem trades_append_sublist : ∀ (n : Nat) (c : Call) (tr : List Trade)
    (o2 : Order) (st' : OrderBook),
    runF n c = .ok (tr, o2, st') →
    ∃ delta, st'.trades = c.state.trades ++ delta ∧ tr.Sublist delta := by
  intro n
  induction n with
  | zero => intro c tr o2 st' h; cases h
  | succ m ih =>
    intro c tr o2 st' h
    cases c with
    | submit st o =>
      rw [runF_submit] at h
      unfold submitBody at h
      split at h
      · cases h
      · split at h
        · cases h
          exact ⟨[], by simp [Call.state], by simp⟩
        · dsimp only at h
          split at h
          · cases h
          · split at h
            · cases h
            · cases hml : runF m (.matchLevels st _ _) with
              | error e => rw [hml] at h; cases h
              | ok r =>
                obtain ⟨tr0, o20, st2⟩ := r
                rw [hml] at h
                dsimp only at h
                obtain ⟨d0, hd0, hs0⟩ := ih _ _ _ _ hml
                split at h
                · cases h; exact ⟨d0, hd0, hs0⟩
                · split at h
                  · cases h; exact ⟨d0, hd0, List.nil_sublist _⟩
                  · split at h
                    · split at h
                      · cases h
                      · rename_i st3 hadd
                        cases h
                        obtain ⟨ht3, _⟩ := addLimitE_trades_stops _ _ _ hadd
                        exact ⟨d0, ht3.trans hd0, hs0⟩
                    · cases h
                      exact ⟨d0, hd0, hs0⟩
    | triggerStops st last =>
      rw [runF_triggerStops] at h
      unfold triggerBody at h
      split at h
      · cases h
      · rename_i trig remain hpart
        obtain ⟨d, hd, hs⟩ := ih _ _ _ _ h
        simp only [Call.state] at hd ⊢
        exact ⟨d, hd, hs⟩
    | triggerLoop st pending =>
      cases pending with
      | nil =>
        rw [runF_triggerLoop] at h
        unfold triggerLoopBody at h
        cases h; exact ⟨[], by simp [Call.state], by simp⟩
      | cons o rest =>
        rw [runF_triggerLoop] at h
        unfold triggerLoopBody at h
        dsimp only at h
        cases hsub : runF m (.submit st o) with
        | error e => rw [hsub] at h; cases h
        | ok r =>
          obtain ⟨a, b, st1⟩ := r
          rw [hsub] at h
          dsimp only at h
          obtain ⟨d1, hd1, _⟩ := ih _ _ _ _ hsub
          obtain ⟨d2, hd2, hs2⟩ := ih _ _ _ _ h
          simp only [Call.state] at hd1 hd2 ⊢
          refine ⟨d1 ++ d2, ?_, hs2.trans (List.sublist_append_right d1 d2)⟩
          rw [hd2, hd1]
          exact (List.append_assoc _ _ _)
    | matchLevels st inc prices =>
      cases prices with
      | nil =>
        rw [runF_matchLevels] at h
        unfold matchLevelsBody at h
        cases h; exact ⟨[], by simp [Call.state], by simp⟩
      | cons key rest =>
        rw [runF_matchLevels] at h
        simp only [matchLevelsBody] at h
        split at h
        · cases h; exact ⟨[], by simp [Call.state], by simp⟩
        · try dsimp only at h
          split at h
          · cases h
          · split at h
            · cases h; exact ⟨[], by simp [Call.state], by simp⟩
            · cases hmi : runF m (.matchInner st inc key 0) with
              | error e => rw [hmi] at h; cases h
              | ok r =>
                obtain ⟨tr1, inc1, st1⟩ := r
                rw [hmi] at h
                try dsimp only at h
                obtain ⟨d1, hd1, hs1⟩ := ih _ _ _ _ hmi
                cases hcl : levelCleanupE st1 inc.side.flip key with
                | error e => rw [hcl] at h; cases h
                | ok st2 =>
                  rw [hcl] at h
                  try dsimp only at h
                  obtain ⟨ht2, _⟩ := levelCleanupE_trades_stops st1 _ key st2 hcl
                  cases hml2 : runF m (.matchLevels st2 inc1 rest) with
                  | error e => rw [hml2] at h; cases h
                  | ok r2 =>
                    obtain ⟨tr2, inc2, st3⟩ := r2
                    rw [hml2] at h
                    try dsimp only at h
                    obtain ⟨d2, hd2, hs2⟩ := ih _ _ _ _ hml2
                    cases h
                    simp only [Call.state] at hd1 hd2 ⊢
                    refine ⟨d1 ++ d2, ?_, List.Sublist.append hs1 hs2⟩
                    rw [hd2, ht2, hd1]
                    exact (List.append_assoc _ _ _)
    | matchInner st inc key i =>
      rw [runF_matchInner] at h
      unfold matchInnerBody at h
      dsimp only at h
      split at h
      · cases h
      · split at h
        · split at h
          · cases h; exact ⟨[], by simp [Call.state], by simp⟩
          · split at h
            · exact ih (.matchInner st inc key (i + 1)) _ _ _ h
            · split at h
              · cases h
              · rename_i rT heqT
                obtain ⟨rT1, rT2, st4⟩ := rT
                split at h
                · cases h
                · split at h
                  · cases h
                  · split at h
                    · split at h
                      · cases h
                      · rename_i rR heqR
                        obtain ⟨trR, incR, stR⟩ := rR
                        cases h
                        obtain ⟨dT, hdT, _⟩ := ih _ _ _ _ heqT
                        obtain ⟨dR, hdR, hsR⟩ := ih _ _ _ _ heqR
                        simp only [Call.state, tradeUpd_trades, eraseUpd_trades] at hdT hdR ⊢
                        refine ⟨_ :: (dT ++ dR), ?_,
                          List.Sublist.cons₂ _ (hsR.trans (List.sublist_append_right dT dR))⟩
                        rw [hdR, hdT]
                        simp
                    · split at h
                      · cases h
                      · rename_i rR heqR
                        obtain ⟨trR, incR, stR⟩ := rR
                        cases h
                        obtain ⟨dT, hdT, _⟩ := ih _ _ _ _ heqT
                        obtain ⟨dR, hdR, hsR⟩ := ih _ _ _ _ heqR
                        simp only [Call.state, tradeUpd_trades, eraseUpd_trades] at hdT hdR ⊢
                        refine ⟨_ :: (dT ++ dR), ?_,
                          List.Sublist.cons₂ _ (hsR.trans (List.sublist_append_right dT dR))⟩
                        rw [hdR, hdT]
                        simp
        · cases h; exact ⟨[], by simp [Call.state], by simp⟩

/-- C2 (amended): a completed `submit_order` appends some block `delta` of
trades to the book's trade log, and the returned list is a subsequence of
`delta`: it holds the primary match's own trades in order, while trades of
recursively re-submitted stop orders are recorded in the log only (each is
appended immediately after the trade that triggered it, so the log interleaves
them with the primary trades rather than placing them after). -/
theorem C2_return_is_subsequence_of_log_delta :
    ∀ (fuel : Nat) (st : OrderBook) (o : Order) (tr : List Trade) (st' : OrderBook),
      submit_order fuel st o = .ok (tr, st') →
      ∃ delta, st'.trades = st.trades ++ delta ∧ tr.Sublist delta := by
  intro fuel st o tr st' h
  unfold submit_order at h
  cases hr : runF fuel (.submit st o) with
  | error e => rw [hr] at h; cases h
  | ok r =>
    obtain ⟨a, b, c⟩ := r
    rw [hr] at h
    cases h
    simpa [Call.state] using trades_append_sublist fuel _ _ _ _ hr

/-- C2 witness: the subsequence property evaluated on the cascade scenario. -/
theorem C2_return_is_subsequence_of_log_delta_witness :
    ∃ delta, cscAfter.trades = cscBook.trades ++ delta ∧
      ([cscT1, cscT3] : List Trade).Sublist delta :=
  C2_return_is_subsequence_of_log_delta 40 cscBook cscBuy [cscT1, cscT3] cscAfter
    (by decide)

/-! Error classification: every propagated helper error is a comparison
`typeError`, a dict `keyError` or a list-removal `valueError` — never one of
the two explicit `InvalidOrder` raises of `submit_order`. -/

theorem cmpLt_error (a b : Option Int) (e : EngineError) (h : cmpLt a b = .error e) :
    e = .typeError := by
  unfold cmpLt at h
  split at h
  · cases h
  · cases h; rfl

theorem cmpLe_error (a b : Option Int) (e : EngineError) (h : cmpLe a b = .error e) :
    e = .typeError := by
  unfold cmpLe at h
  split at h
  · cases h
  · cases h; rfl

theorem cmpGe_error (a b : Option Int) (e : EngineError) (h : cmpGe a b = .error e) :
    e = .typeError := by
  unfold cmpGe at h
  split at h
  · cases h
  · cases h; rfl

theorem checkTrigger_error (last : Option Int) (o : Order) (e : EngineError)
    (h : checkTrigger last o = .error e) : e = .typeError := by
  unfold checkTrigger at h
  split at h
  · exact cmpGe_error _ _ _ h
  · exact cmpLe_error _ _ _ h

theorem insortE_error (x : Option Int) (l : List (Option Int)) (e : EngineError)
    (h : insortE x l = .error e) : e = .typeError := by
  induction l with
  | nil => cases h
  | cons y ys ih =>
    unfold insortE at h
    split at h
    · rename_i e0 hc
      cases h
      exact cmpLt_error _ _ _ hc
    · cases h
    · split at h
      · rename_i e0 hr
        cases h
        exact ih hr
      · cases h

theorem insertDescE_error (x : Option Int) (l : List (Option Int)) (e : EngineError)
    (h : insertDescE x l = .error e) : e = .typeError := by
  induction l with
  | nil => cases h
  | cons y ys ih =>
    unfold insertDescE at h
    split at h
    · rename_i e0 hc
      cases h
      exact cmpLt_error _ _ _ hc
    · split at h
      · rename_i e0 hr
        cases h
        exact ih hr
      · cases h
    · cases h

theorem sortedDescE_error (l : List (Option Int)) (e : EngineError)
    (h : sortedDescE l = .error e) : e = .typeError := by
  induction l with
  | nil => cases h
  | cons y ys ih =>
    unfold sortedDescE at h
    split at h
    · rename_i e0 hr
      cases h
      exact ih hr
    · rename_i r hr
      exact insertDescE_error _ _ _ h

theorem removeFirstE_error (x : Option Int) (l : List (Option Int)) (e : EngineError)
    (h : removeFirstE x l = .error e) : e = .valueError := by
  induction l with
  | nil => cases h; rfl
  | cons y ys ih =>
    unfold removeFirstE at h
    split at h
    · cases h
    · split at h
      · rename_i e0 hr
        cases h
        exact ih hr
      · cases h

theorem triggerPartitionE_error (last : Option Int) (stops : List Order)
    (e : EngineError) (h : triggerPartitionE last stops = .error e) :
    e = .typeError := by
  induction stops with
  | nil => cases h
  | cons o rest ih =>
    unfold triggerPartitionE at h
    split at h
    · rename_i e0 hc
      cases h
      exact checkTrigger_error _ _ _ hc
    · split at h
      · rename_i e0 hr
        cases h
        exact ih hr
      · cases h
    · split at h
      · rename_i e0 hr
        cases h
        exact ih hr
      · cases h

theorem addLimitE_error (st : OrderBook) (o : Order) (e : EngineError)
    (h : addLimitE st o = .error e) : e = .typeError := by
  unfold addLimitE at h
  dsimp only at h
  split at h
  · split at h
    · rename_i e0 hr
      cases h
      exact insortE_error _ _ _ hr
    · cases h
  · cases h

theorem levelCleanupE_error (st : OrderBook) (s : Side) (key : Option Int)
    (e : EngineError) (h : levelCleanupE st s key = .error e) :
    e = .keyError ∨ e = .valueError := by
  unfold levelCleanupE at h
  split at h
  · cases h; exact Or.inl rfl
  · split at h
    · split at h
      · rename_i e0 hr
        cases h
        exact Or.inr (removeFirstE_error _ _ _ hr)
      · cases h
    · cases h

theorem convertTriggered_quantity (o : Order) :
    (convertTriggered o).quantity = o.quantity := by
  unfold convertTriggered
  split <;> try rfl
  split <;> rfl

theorem convertTriggered_not_iceberg (o : Order)
    (h : o.type = .STOP ∨ o.type = .STOP_LIMIT) :
    (convertTriggered o).type ≠ .ICEBERG := by
  unfold convertTriggered
  rcases h with h | h <;> simp [h]

theorem triggerPartitionE_mem (last : Option Int) :
    ∀ (stops trig remain : List Order),
    triggerPartitionE last stops = .ok (trig, remain) →
    (∀ o ∈ remain, o ∈ stops) ∧
    (∀ o ∈ trig, ∃ o0 ∈ stops, o = convertTriggered o0) := by
  intro stops
  induction stops with
  | nil =>
    intro trig remain h
    cases h
    exact ⟨fun o ho => absurd ho (List.not_mem_nil o), fun o ho => absurd ho (List.not_mem_nil o)⟩
  | cons o rest ih =>
    intro trig remain h
    unfold triggerPartitionE at h
    split at h
    · cases h
    · split at h
      · cases h
      · rename_i t0 r0 hr
        cases h
        obtain ⟨h1, h2⟩ := ih _ _ hr
        refine ⟨fun x hx => List.mem_cons_of_mem _ (h1 x hx), fun x hx => ?_⟩
        rcases List.mem_cons.mp hx with hx | hx
        · exact ⟨o, List.mem_cons_self o rest, hx⟩
        · obtain ⟨o0, ho0, he⟩ := h2 x hx
          exact ⟨o0, List.mem_cons_of_mem _ ho0, he⟩
    · split at h
      · cases h
      · rename_i t0 r0 hr
        cases h
        obtain ⟨h1, h2⟩ := ih _ _ hr
        refine ⟨fun x hx => ?_, fun x hx => ?_⟩
        · rcases List.mem_cons.mp hx with hx | hx
          · exact hx ▸ List.mem_cons_self o rest
          · exact List.mem_cons_of_mem _ (h1 x hx)
        · obtain ⟨o0, ho0, he⟩ := h2 x hx
          exact ⟨o0, List.mem_cons_of_mem _ ho0, he⟩

theorem okErrProp_error (e : EngineError)
    (h : e ≠ .invalidQuantity ∧ e ≠ .invalidIceberg) : okErrProp (.error e) :=
  ⟨fun _ he' => (by cases he'; exact h), fun _ _ _ hh => (by cases hh)⟩

theorem okErrProp_ok (tr : List Trade) (o2 : Order) (st' : OrderBook)
    (h : wfStops st') : okErrProp (.ok (tr, o2, st')) :=
  ⟨fun _ he' => (by cases he'), fun _ _ _ hh => (by cases hh; exact h)⟩

/-- Under the entry preconditions and well-formed parked stops, no internal
call can produce either `InvalidOrder` error, and completed calls keep the
parked stops well-formed. -/
theorem valid_no_invalid : ∀ (n : Nat) (c : Call), callValid c →
    okErrProp (runF n c) := by
  intro n
  induction n with
  | zero => intro c _; exact okErrProp_error .fuelOut (by decide)
  | succ m ih =>
    intro c hv
    cases c with
    | submit st o =>
      obtain ⟨hstops, hq, hice⟩ := hv
      rw [runF_submit]
      unfold submitBody
      rw [if_neg (by omega : ¬ o.quantity ≤ 0)]
      split
      · rename_i htype
        refine okErrProp_ok _ _ _ ?_
        intro x hx
        rcases List.mem_append.mp hx with hx | hx
        · exact hstops x hx
        · rcases List.mem_singleton.mp hx with rfl
          exact ⟨hq, htype⟩
      · rename_i htype
        dsimp only
        split
        · rename_i e0 hoE
          exfalso
          split at hoE
          · rename_i hicet
            split at hoE
            · rename_i hnone
              obtain ⟨d, hd, _⟩ := hice hicet
              rw [hd] at hnone
              cases hnone
            · rename_i ds hds
              split at hoE
              · rename_i hle
                obtain ⟨d, hd, hdpos⟩ := hice hicet
                rw [hds] at hd
                injection hd with hdd
                omega
              · cases hoE
          · cases hoE
        · rename_i o1 hoE
          have ho1q : 0 < o1.quantity := by
            split at hoE
            · rename_i hicet
              split at hoE
              · cases hoE
              · rename_i ds hds
                split at hoE
                · cases hoE
                · cases hoE
                  obtain ⟨d, hd, hdpos⟩ := hice hicet
                  rw [hds] at hd
                  injection hd with hdd
                  subst hdd
                  exact hdpos
            · cases hoE
              exact hq
          split
          · rename_i e0 hpr
            have he : e0 = .typeError := by
              split at hpr
              · cases hpr
              · exact sortedDescE_error _ _ hpr
            subst he
            exact okErrProp_error _ (by decide)
          · rename_i prices hpr
            cases hml : runF m (.matchLevels st o1 prices) with
            | error e =>
              have hprop := ih (.matchLevels st o1 prices) hstops
              rw [hml] at hprop
              exact hprop
            | ok r =>
              obtain ⟨tr0, o20, st2⟩ := r
              have hst2 : wfStops st2 :=
                (ih (.matchLevels st o1 prices) hstops).2 _ _ _ hml
              try dsimp only
              split
              · exact okErrProp_ok _ _ _ hst2
              · split
                · exact okErrProp_ok _ _ _ hst2
                · split
                  · cases hadd : addLimitE st2 o20 with
                    | error e =>
                      have he := addLimitE_error _ _ _ hadd
                      subst he
                      exact okErrProp_error _ (by decide)
                    | ok st3 =>
                      refine okErrProp_ok _ _ _ ?_
                      obtain ⟨_, hs3⟩ := addLimitE_trades_stops _ _ _ hadd
                      intro x hx
                      exact hst2 x (hs3 ▸ hx)
                  · exact okErrProp_ok _ _ _ hst2
    | triggerStops st last =>
      rw [runF_triggerStops]
      unfold triggerBody
      cases hpart : triggerPartitionE last st.stop_orders with
      | error e =>
        have he := triggerPartitionE_error _ _ _ hpart
        subst he
        exact okErrProp_error _ (by decide)
      | ok pr =>
        obtain ⟨trig, remain⟩ := pr
        obtain ⟨hrem, htrig⟩ := triggerPartitionE_mem last _ _ _ hpart
        refine ih (.triggerLoop { st with stop_orders := remain } trig) ⟨?_, ?_⟩
        · intro x hx
          exact hv x (hrem x hx)
        · intro x hx
          obtain ⟨o0, ho0, rfl⟩ := htrig x hx
          obtain ⟨hq0, ht0⟩ := hv o0 ho0
          exact ⟨by rw [convertTriggered_quantity]; exact hq0,
            convertTriggered_not_iceberg o0 ht0⟩
    | triggerLoop st pending =>
      obtain ⟨hstops, hpend⟩ := hv
      rw [runF_triggerLoop]
      unfold triggerLoopBody
      cases pending with
      | nil => exact okErrProp_ok _ _ _ hstops
      | cons o rest =>
        dsimp only
        cases hsub : runF m (.submit st o) with
        | error e =>
          have hprop := ih (.submit st o)
            ⟨hstops, (hpend o (List.mem_cons_self o rest)).1,
              fun hi => absurd hi (hpend o (List.mem_cons_self o rest)).2⟩
          rw [hsub] at hprop
          exact hprop
        | ok r =>
          obtain ⟨a, b, st1⟩ := r
          have hst1 : wfStops st1 :=
            (ih (.submit st o)
              ⟨hstops, (hpend o (List.mem_cons_self o rest)).1,
                fun hi => absurd hi (hpend o (List.mem_cons_self o rest)).2⟩).2 _ _ _ hsub
          exact ih (.triggerLoop st1 rest)
            ⟨hst1, fun x hx => hpend x (List.mem_cons_of_mem _ hx)⟩
    | matchLevels st inc prices =>
      rw [runF_matchLevels]
      unfold matchLevelsBody
      cases prices with
      | nil => exact okErrProp_ok _ _ _ hv
      | cons key rest =>
        dsimp only
        split
        · exact okErrProp_ok _ _ _ hv
        · split
          · rename_i e0 hpok
            have he : e0 = .typeError := by
              split at hpok
              · cases hpok
              · split at hpok
                · exact cmpLe_error _ _ _ hpok
                · exact cmpGe_error _ _ _ hpok
            subst he
            exact okErrProp_error _ (by decide)
          · split
            · exact okErrProp_ok _ _ _ hv
            · cases hmi : runF m (.matchInner st inc key 0) with
              | error e =>
                have hprop := ih (.matchInner st inc key 0) hv
                rw [hmi] at hprop
                exact hprop
              | ok r =>
                obtain ⟨tr1, inc1, st1⟩ := r
                have hst1 : wfStops st1 :=
                  (ih (.matchInner st inc key 0) hv).2 _ _ _ hmi
                try dsimp only
                cases hcl : levelCleanupE st1 inc.side.flip key with
                | error e =>
                  rcases levelCleanupE_error _ _ _ _ hcl with he | he <;>
                    · subst he
                      exact okErrProp_error _ (by decide)
                | ok st2 =>
                  have hst2 : wfStops st2 := by
                    obtain ⟨_, hs2⟩ := levelCleanupE_trades_stops _ _ _ _ hcl
                    intro x hx
                    exact hst1 x (hs2 ▸ hx)
                  try dsimp only
                  cases hml2 : runF m (.matchLevels st2 inc1 rest) with
                  | error e =>
                    have hprop := ih (.matchLevels st2 inc1 rest) hst2
                    rw [hml2] at hprop
                    exact hprop
                  | ok r2 =>
                    obtain ⟨tr2, inc2, st3⟩ := r2
                    have hst3 : wfStops st3 :=
                      (ih (.matchLevels st2 inc1 rest) hst2).2 _ _ _ hml2
                    exact okErrProp_ok _ _ _ hst3
    | matchInner st inc key i =>
      rw [runF_matchInner]
      unfold matchInnerBody
      dsimp only
      split
      · exact okErrProp_error _ (by decide)
      · split
        · split
          · exact okErrProp_ok _ _ _ hv
          · split
            · exact ih (.matchInner st inc key (i + 1)) hv
            · split
              · rename_i e htrg
                exact okErrProp_error e
                  ((ih (.triggerStops _ _)
                    (by simp only [callValid, wfStops, tradeUpd_stops]; exact hv)).1 e htrg)
              · rename_i x4 y4 st4 htrg
                have hst4 : wfStops st4 :=
                  (ih (.triggerStops _ _)
                    (by simp only [callValid, wfStops, tradeUpd_stops]; exact hv)).2 _ _ _ htrg
                split
                · exact okErrProp_error .valueError (by decide)
                · split
                  · exact okErrProp_error .valueError (by decide)
                  · split
                    · split
                      · rename_i e hrec
                        exact okErrProp_error e
                          ((ih (.matchInner _ _ _ _)
                            (by simp only [callValid, wfStops, eraseUpd_stops]; exact hst4)).1 e hrec)
                      · rename_i trR incR stR hrec
                        exact okErrProp_ok _ _ _
                          ((ih (.matchInner _ _ _ _)
                            (by simp only [callValid, wfStops, eraseUpd_stops]; exact hst4)).2 _ _ _ hrec)
                    · split
                      · rename_i e hrec
                        exact okErrProp_error e
                          ((ih (.matchInner _ _ _ _) hst4).1 e hrec)
                      · rename_i trR incR stR hrec
                        exact okErrProp_ok _ _ _
                          ((ih (.matchInner _ _ _ _) hst4).2 _ _ _ hrec)
        · exact okErrProp_ok _ _ _ hv

/-- C4 (amended): `submit_order` rejects, before any mutation, every order
with non-positive quantity (`InvalidOrder`: "Quantity must be positive") and
every Iceberg order whose `display_size` is absent or not strictly positive
(`InvalidOrder`: "Iceberg order requires display_size>0").  The check
`display_size ≤ quantity` claimed by the spec is absent: an Iceberg whose
display size exceeds its quantity is accepted (see the counterexample).
Under the preconditions quantity > 0 and, for Iceberg, a strictly positive
display size — with well-formed parked stops — no submission returns either
`InvalidOrder` error. -/
theorem C4_validation_as_implemented :
    (∀ (fuel : Nat) (st : OrderBook) (o : Order), o.quantity ≤ 0 →
      submit_order (fuel + 1) st o = .error .invalidQuantity) ∧
    (∀ (fuel : Nat) (st : OrderBook) (o : Order), 0 < o.quantity →
      o.type = .ICEBERG →
      (o.display_size = none ∨ ∃ d, o.display_size = some d ∧ d ≤ 0) →
      submit_order (fuel + 1) st o = .error .invalidIceberg) ∧
    (∀ (fuel : Nat) (st : OrderBook) (o : Order), wfStops st → 0 < o.quantity →
      (o.type = .ICEBERG → ∃ d, o.display_size = some d ∧ 0 < d) →
      submit_order fuel st o ≠ .error .invalidQuantity ∧
      submit_order fuel st o ≠ .error .invalidIceberg) := by
  refine ⟨?_, ?_, ?_⟩
  · intro fuel st o hq
    have h1 : runF (fuel + 1) (.submit st o) = .error .invalidQuantity := by
      show submitBody (runF fuel) st o = _
      unfold submitBody
      rw [if_pos hq]
    unfold submit_order
    rw [h1]
  · intro fuel st o hq hty hdisp
    have h1 : runF (fuel + 1) (.submit st o) = .error .invalidIceberg := by
      show submitBody (runF fuel) st o = _
      unfold submitBody
      rw [if_neg (show ¬ o.quantity ≤ 0 by omega)]
      rw [if_neg (show ¬ (o.type = .STOP ∨ o.type = .STOP_LIMIT) by simp [hty])]
      dsimp only
      rcases hdisp with hnone | ⟨d, hd, hle⟩
      · simp [hty, hnone]
      · simp [hty, hd, hle]
    unfold submit_order
    rw [h1]
  · intro fuel st o hst hq hice
    have hprop := valid_no_invalid fuel (.submit st o) ⟨hst, hq, hice⟩
    refine ⟨fun h => ?_, fun h => ?_⟩
    · unfold submit_order at h
      cases hr : runF fuel (.submit st o) with
      | error e =>
        rw [hr] at h
        cases h
        exact (hprop.1 _ hr).1 rfl
      | ok r =>
        obtain ⟨a, b, c⟩ := r
        rw [hr] at h
        cases h
    · unfold submit_order at h
      cases hr : runF fuel (.submit st o) with
      | error e =>
        rw [hr] at h
        cases h
        exact (hprop.1 _ hr).2 rfl
      | ok r =>
        obtain ⟨a, b, c⟩ := r
        rw [hr] at h
        cases h

/-- C4 witness: both rejections and the no-error guarantee at concrete inputs. -/
theorem C4_validation_as_implemented_witness :
    submit_order 3 OrderBook.empty c4BadQty = .error .invalidQuantity ∧
    submit_order 3 OrderBook.empty c4BadIce = .error .invalidIceberg ∧
    (submit_order 5 OrderBook.empty c4Good ≠ .error .invalidQuantity ∧
      submit_order 5 OrderBook.empty c4Good ≠ .error .invalidIceberg) :=
  ⟨C4_validation_as_implemented.1 2 OrderBook.empty c4BadQty (by decide),
   C4_validation_as_implemented.2.1 2 OrderBook.empty c4BadIce (by decide) rfl
     (Or.inl rfl),
   C4_validation_as_implemented.2.2 5 OrderBook.empty c4Good
     (fun o ho => absurd ho (List.not_mem_nil o)) (by decide)
     (fun h => absurd h (by decide))⟩

/-! Association-list and queue-search lemmas for the cancel and invariant
proofs. -/

theorem alookup_split {α β : Type} [DecidableEq α] :
    ∀ (b : List (α × β)) (k : α) (v : β), alookup b k = some v →
    ∃ b1 b2, b = b1 ++ (k, v) :: b2 ∧ (∀ kv ∈ b1, kv.1 ≠ k) ∧
      adel b k = b1 ++ b2 ∧ ∀ w, aset b k w = b1 ++ (k, w) :: b2 := by
  intro b
  induction b with
  | nil => intro k v h; cases h
  | cons kv0 rest ih =>
    intro k v h
    obtain ⟨k0, v0⟩ := kv0
    by_cases hk : k0 = k
    · subst hk
      rw [show alookup ((k0, v0) :: rest) k0 = some v0 by simp [alookup]] at h
      cases h
      refine ⟨[], rest, by simp, by simp, ?_, ?_⟩
      · simp [adel]
      · intro w; simp [aset]
    · have h' : alookup rest k = some v := by
        simpa [alookup, hk] using h
      obtain ⟨b1, b2, hb, hb1, hdel, hset⟩ := ih k v h'
      refine ⟨(k0, v0) :: b1, b2, by simp [hb], ?_, ?_, ?_⟩
      · intro kv hm
        rcases List.mem_cons.mp hm with rfl | hm
        · exact hk
        · exact hb1 kv hm
      · simp [adel, hk, hdel]
      · intro w; simp [aset, hk, hset w]

theorem alookup_mem {α β : Type} [DecidableEq α] :
    ∀ (b : List (α × β)) (k : α) (v : β), alookup b k = some v → (k, v) ∈ b := by
  intro b
  induction b with
  | nil => intro k v h; cases h
  | cons kv0 rest ih =>
    intro k v h
    obtain ⟨k0, v0⟩ := kv0
    by_cases hk : k0 = k
    · subst hk
      rw [show alookup ((k0, v0) :: rest) k0 = some v0 by simp [alookup]] at h
      cases h
      exact List.mem_cons_self _ _
    · have h' : alookup rest k = some v := by simpa [alookup, hk] using h
      exact List.mem_cons_of_mem _ (ih k v h')

theorem alookup_of_mem_nodup {α β : Type} [DecidableEq α] :
    ∀ (b : List (α × β)), (b.map Prod.fst).Nodup →
    ∀ kv ∈ b, alookup b kv.1 = some kv.2 := by
  intro b
  induction b with
  | nil => intro _ kv hm; cases hm
  | cons kv0 rest ih =>
    intro hnd kv hm
    obtain ⟨k0, v0⟩ := kv0
    rcases List.mem_cons.mp hm with rfl | hm
    · simp [alookup]
    · have hne : k0 ≠ kv.1 := by
        intro he
        have : kv.1 ∈ rest.map Prod.fst := List.mem_map_of_mem Prod.fst hm
        rw [← he] at this
        exact (List.nodup_cons.mp (by simpa using hnd)).1 this
      simp only [alookup, if_neg hne]
      exact ih (List.nodup_cons.mp (by simpa using hnd)).2 kv hm

theorem findId_eq_some : ∀ (q : List Order) (oid : Nat) (o : Order),
    findId oid q = some o → o ∈ q ∧ o.id = oid := by
  intro q
  induction q with
  | nil => intro oid o h; cases h
  | cons x rest ih =>
    intro oid o h
    unfold findId at h
    split at h
    · cases h
      exact ⟨List.mem_cons_self _ _, by assumption⟩
    · obtain ⟨hm, hid⟩ := ih oid o h
      exact ⟨List.mem_cons_of_mem _ hm, hid⟩

theorem findId_eq_none : ∀ (q : List Order) (oid : Nat),
    findId oid q = none ↔ ∀ o ∈ q, o.id ≠ oid := by
  intro q
  induction q with
  | nil => intro oid; simp [findId]
  | cons x rest ih =>
    intro oid
    unfold findId
    split
    · rename_i hx
      simp only [iff_false_intro (Option.some_ne_none x)]
      constructor
      · intro h; cases h
      · intro h
        exact absurd hx (h x (List.mem_cons_self _ _))
    · rename_i hx
      rw [ih]
      constructor
      · intro h o hm
        rcases List.mem_cons.mp hm with rfl | hm
        · exact hx
        · exact h o hm
      · intro h o hm
        exact h o (List.mem_cons_of_mem _ hm)

theorem findInQueues_eq_some : ∀ (b : List (Option Int × List Order)) (oid : Nat)
    (o : Order), findInQueues b oid = some o →
    ∃ kv ∈ b, o ∈ kv.2 ∧ o.id = oid := by
  intro b
  induction b with
  | nil => intro oid o h; cases h
  | cons kv0 rest ih =>
    intro oid o h
    obtain ⟨k0, v0⟩ := kv0
    unfold findInQueues at h
    split at h
    · rename_i o0 hfind
      cases h
      obtain ⟨hm, hid⟩ := findId_eq_some v0 oid o hfind
      exact ⟨(k0, v0), List.mem_cons_self _ _, hm, hid⟩
    · obtain ⟨kv, hkv, hm, hid⟩ := ih oid o h
      exact ⟨kv, List.mem_cons_of_mem _ hkv, hm, hid⟩

theorem findInQueues_eq_none : ∀ (b : List (Option Int × List Order)) (oid : Nat),
    findInQueues b oid = none ↔ ∀ kv ∈ b, ∀ o ∈ kv.2, o.id ≠ oid := by
  intro b
  induction b with
  | nil => intro oid; simp [findInQueues]
  | cons kv0 rest ih =>
    intro oid
    obtain ⟨k0, v0⟩ := kv0
    unfold findInQueues
    split
    · rename_i o0 hfind
      obtain ⟨hm, hid⟩ := findId_eq_some v0 oid o0 hfind
      simp only [iff_false_intro (Option.some_ne_none o0)]
      constructor
      · intro h; cases h
      · intro h
        exact absurd hid (h (k0, v0) (List.mem_cons_self _ _) o0 hm)
    · rename_i hfind
      rw [ih]
      constructor
      · intro h kv hkv o hm
        rcases List.mem_cons.mp hkv with rfl | hkv
        · exact (findId_eq_none v0 oid).mp hfind o hm
        · exact h kv hkv o hm
      · intro h kv hkv o hm
        exact h kv (List.mem_cons_of_mem _ hkv) o hm

theorem mem_queueIds (b : List (Option Int × List Order)) (oid : Nat) :
    oid ∈ queueIds b ↔ ∃ kv ∈ b, ∃ o ∈ kv.2, o.id = oid := by
  unfold queueIds
  induction b with
  | nil => simp
  | cons kv rest ih =>
    simp only [List.map_cons, List.flatten_cons, List.mem_append, ih,
      List.mem_cons, List.mem_map]
    constructor
    · rintro (⟨o, hm, rfl⟩ | ⟨kv2, hkv2, o, hm, rfl⟩)
      · exact ⟨kv, Or.inl rfl, o, hm, rfl⟩
      · exact ⟨kv2, Or.inr hkv2, o, hm, rfl⟩
    · rintro ⟨kv2, (rfl | hkv2), o, hm, rfl⟩
      · exact Or.inl ⟨o, hm, rfl⟩
      · exact Or.inr ⟨kv2, hkv2, o, hm, rfl⟩

theorem queueIds_append (b1 b2 : List (Option Int × List Order)) :
    queueIds (b1 ++ b2) = queueIds b1 ++ queueIds b2 := by
  simp [queueIds]

theorem queueIds_cons (kv : Option Int × List Order) (rest : List (Option Int × List Order)) :
    queueIds (kv :: rest) = kv.2.map Order.id ++ queueIds rest := by
  simp [queueIds]

/-- C5: on a well-formed book, the spec-modelled `cancel` fails with
`OrderNotFound` exactly when the id is held nowhere (unknown, or already fully
filled/cancelled and hence removed from every structure); when it succeeds it
removes the identified order from whichever structure held it, leaving the id
held nowhere.  On failure no state is produced, so nothing is mutated. -/
theorem C5_cancel_removes_or_not_found :
    ∀ (st : OrderBook) (oid : Nat), WFState st →
      (cancel st oid = .error .orderNotFound ↔ ¬ heldBy st oid) ∧
      (∀ st', cancel st oid = .ok st' → ¬ heldBy st' oid) := by
  intro st oid hwf
  obtain ⟨hkeys, hsync, hqueues, hids, hstops⟩ := hwf
  have hidsBS : ((queueIds st.buys ++ queueIds st.sells) ++ stopIds st).Nodup := hids
  rw [List.append_assoc] at hidsBS
  rw [List.nodup_append] at hidsBS
  obtain ⟨hnqb, hrest, hdisjb⟩ := hidsBS
  rw [List.nodup_append] at hrest
  obtain ⟨hnqs, hnst, hdisjs⟩ := hrest
  unfold cancel
  cases hfb : findInQueues st.buys oid with
  | some o =>
    obtain ⟨kv, hkv, hmo, hido⟩ := findInQueues_eq_some _ _ _ hfb
    have hop : o.price = kv.1 := (hqueues.1 kv hkv).2 o hmo
    have halk : alookup st.buys o.price = some kv.2 := by
      rw [hop]; exact alookup_of_mem_nodup _ hkeys.1 kv hkv
    obtain ⟨b1, b2, hsplit, hb1k, hdel, hset⟩ := alookup_split st.buys o.price kv.2 halk
    have hheldb : heldBy st oid := Or.inl (by rw [hfb]; rfl)
    have hoidb : oid ∈ queueIds st.buys :=
      (mem_queueIds _ _).mpr ⟨kv, hkv, o, hmo, hido⟩
    have hnos : oid ∉ queueIds st.sells := fun hmem =>
      hdisjb hoidb (List.mem_append_left _ hmem)
    have hnostp : oid ∉ stopIds st := fun hmem =>
      hdisjb hoidb (List.mem_append_right _ hmem)
    have hqbsplit : (queueIds b1 ++ (kv.2.map Order.id ++ queueIds b2)).Nodup := by
      have := hnqb
      rw [hsplit, queueIds_append, queueIds_cons] at this
      exact this
    have hoidmid : oid ∈ kv.2.map Order.id :=
      List.mem_map.mpr ⟨o, hmo, hido⟩
    have hnob1 : oid ∉ queueIds b1 := by
      rw [List.nodup_append] at hqbsplit
      exact fun hmem => hqbsplit.2.2 hmem (List.mem_append_left _ hoidmid)
    have hnob2 : oid ∉ queueIds b2 := by
      rw [List.nodup_append] at hqbsplit
      have hmid := hqbsplit.2.1
      rw [List.nodup_append] at hmid
      exact fun hmem => hmid.2.2 hoidmid hmem
    try dsimp only
    rw [halk]
    dsimp only [Option.getD]
    constructor
    · constructor
      · intro h
        split at h <;> cases h
      · intro hnh
        exact absurd hheldb hnh
    · intro st' hok
      intro hheld
      split at hok <;>
        cases hok <;>
        rcases hheld with h | h | h
      · obtain ⟨o', ho'⟩ := Option.isSome_iff_exists.mp h
        obtain ⟨kv', hkv', hm', hid'⟩ := findInQueues_eq_some _ _ _ ho'
        rw [hdel] at hkv'
        have : oid ∈ queueIds (b1 ++ b2) :=
          (mem_queueIds _ _).mpr ⟨kv', hkv', o', hm', hid'⟩
        rw [queueIds_append] at this
        rcases List.mem_append.mp this with hmem | hmem
        · exact hnob1 hmem
        · exact hnob2 hmem
      · exact hnos ((mem_queueIds _ _).mpr
          (by obtain ⟨o', ho'⟩ := Option.isSome_iff_exists.mp h
              obtain ⟨kv', hkv', hm', hid'⟩ := findInQueues_eq_some _ _ _ ho'
              exact ⟨kv', hkv', o', hm', hid'⟩))
      · obtain ⟨po, hpo, hpid⟩ := h
        exact hnostp (List.mem_map.mpr ⟨po, hpo, hpid⟩)
      · obtain ⟨o', ho'⟩ := Option.isSome_iff_exists.mp h
        obtain ⟨kv', hkv', hm', hid'⟩ := findInQueues_eq_some _ _ _ ho'
        rw [hset] at hkv'
        rcases List.mem_append.mp hkv' with hmem | hmem
        · exact hnob1 ((mem_queueIds _ _).mpr ⟨kv', hmem, o', hm', hid'⟩)
        · rcases List.mem_cons.mp hmem with rfl | hmem
          · have := List.mem_filter.mp hm'
            simp at this
            exact this.2 hid'
          · exact hnob2 ((mem_queueIds _ _).mpr ⟨kv', hmem, o', hm', hid'⟩)
      · exact hnos ((mem_queueIds _ _).mpr
          (by obtain ⟨o', ho'⟩ := Option.isSome_iff_exists.mp h
              obtain ⟨kv', hkv', hm', hid'⟩ := findInQueues_eq_some _ _ _ ho'
              exact ⟨kv', hkv', o', hm', hid'⟩))
      · obtain ⟨po, hpo, hpid⟩ := h
        exact hnostp (List.mem_map.mpr ⟨po, hpo, hpid⟩)
  | none =>
    cases hfs : findInQueues st.sells oid with
    | some o =>
      obtain ⟨kv, hkv, hmo, hido⟩ := findInQueues_eq_some _ _ _ hfs
      have hop : o.price = kv.1 := (hqueues.2 kv hkv).2 o hmo
      have halk : alookup st.sells o.price = some kv.2 := by
        rw [hop]; exact alookup_of_mem_nodup _ hkeys.2.1 kv hkv
      obtain ⟨b1, b2, hsplit, hb1k, hdel, hset⟩ := alookup_split st.sells o.price kv.2 halk
      have hheldb : heldBy st oid := Or.inr (Or.inl (by rw [hfs]; rfl))
      have hoids : oid ∈ queueIds st.sells :=
        (mem_queueIds _ _).mpr ⟨kv, hkv, o, hmo, hido⟩
      have hnostp : oid ∉ stopIds st := fun hmem => hdisjs hoids hmem
      have hqssplit : (queueIds b1 ++ (kv.2.map Order.id ++ queueIds b2)).Nodup := by
        have := hnqs
        rw [hsplit, queueIds_append, queueIds_cons] at this
        exact this
      have hoidmid : oid ∈ kv.2.map Order.id :=
        List.mem_map.mpr ⟨o, hmo, hido⟩
      have hnob1 : oid ∉ queueIds b1 := by
        rw [List.nodup_append] at hqssplit
        exact fun hmem => hqssplit.2.2 hmem (List.mem_append_left _ hoidmid)
      have hnob2 : oid ∉ queueIds b2 := by
        rw [List.nodup_append] at hqssplit
        have hmid := hqssplit.2.1
        rw [List.nodup_append] at hmid
        exact fun hmem => hmid.2.2 hoidmid hmem
      try dsimp only
      rw [halk]
      dsimp only [Option.getD]
      constructor
      · constructor
        · intro h
          split at h <;> cases h
        · intro hnh
          exact absurd hheldb hnh
      · intro st' hok
        intro hheld
        split at hok <;>
          cases hok <;>
          rcases hheld with h | h | h
        · simp [hfb] at h
        · obtain ⟨o', ho'⟩ := Option.isSome_iff_exists.mp h
          obtain ⟨kv', hkv', hm', hid'⟩ := findInQueues_eq_some _ _ _ ho'
          rw [hdel] at hkv'
          have : oid ∈ queueIds (b1 ++ b2) :=
            (mem_queueIds _ _).mpr ⟨kv', hkv', o', hm', hid'⟩
          rw [queueIds_append] at this
          rcases List.mem_append.mp this with hmem | hmem
          · exact hnob1 hmem
          · exact hnob2 hmem
        · obtain ⟨po, hpo, hpid⟩ := h
          exact hnostp (List.mem_map.mpr ⟨po, hpo, hpid⟩)
        · simp [hfb] at h
        · obtain ⟨o', ho'⟩ := Option.isSome_iff_exists.mp h
          obtain ⟨kv', hkv', hm', hid'⟩ := findInQueues_eq_some _ _ _ ho'
          rw [hset] at hkv'
          rcases List.mem_append.mp hkv' with hmem | hmem
          · exact hnob1 ((mem_queueIds _ _).mpr ⟨kv', hmem, o', hm', hid'⟩)
          · rcases List.mem_cons.mp hmem with rfl | hmem
            · have := List.mem_filter.mp hm'
              simp at this
              exact this.2 hid'
            · exact hnob2 ((mem_queueIds _ _).mpr ⟨kv', hmem, o', hm', hid'⟩)
        · obtain ⟨po, hpo, hpid⟩ := h
          exact hnostp (List.mem_map.mpr ⟨po, hpo, hpid⟩)
    | none =>
      try dsimp only
      by_cases hany : st.stop_orders.any (fun o => decide (o.id = oid)) = true
      · rw [if_pos hany]
        constructor
        · constructor
          · intro h; cases h
          · intro hnh
            exfalso
            apply hnh
            obtain ⟨po, hpo, hpid⟩ := List.any_eq_true.mp hany
            exact Or.inr (Or.inr ⟨po, hpo, of_decide_eq_true hpid⟩)
        · intro st' hok
          cases hok
          rintro (h | h | h)
          · simp [hfb] at h
          · simp [hfs] at h
          · obtain ⟨po, hpo, hpid⟩ := h
            have := List.mem_filter.mp hpo
            simp at this
            exact this.2 hpid
      · rw [if_neg hany]
        constructor
        · constructor
          · intro _
            rintro (h | h | h)
            · simp [hfb] at h
            · simp [hfs] at h
            · obtain ⟨po, hpo, hpid⟩ := h
              exact hany (List.any_eq_true.mpr ⟨po, hpo, decide_eq_true hpid⟩)
          · intro _; rfl
        · intro st' hok
          cases hok

/-- C5 witness: cancelling the front resting order of `ptBook`, and both
conclusions at a held and an unknown id. -/
theorem C5_cancel_removes_or_not_found_witness :
    ((cancel ptBook 1 = .error .orderNotFound ↔ ¬ heldBy ptBook 1) ∧
      (∀ st', cancel ptBook 1 = .ok st' → ¬ heldBy st' 1)) ∧
    ((cancel ptBook 99 = .error .orderNotFound ↔ ¬ heldBy ptBook 99) ∧
      (∀ st', cancel ptBook 99 = .ok st' → ¬ heldBy st' 99)) :=
  ⟨C5_cancel_removes_or_not_found ptBook 1 (by decide),
   C5_cancel_removes_or_not_found ptBook 99 (by decide)⟩

/-! Further association-list, insertion and removal lemmas used by the
invariant-preservation proofs. -/

theorem alookup_aset_self {α β : Type} [DecidableEq α] :
    ∀ (b : List (α × β)) (k : α) (v : β), alookup (aset b k v) k = some v := by
  intro b k v
  induction b with
  | nil => simp [aset, alookup]
  | cons kv0 rest ih =>
    obtain ⟨k0, v0⟩ := kv0
    by_cases hk : k0 = k
    · subst hk
      simp [aset, alookup]
    · simp [aset, alookup, hk, ih]

theorem alookup_aset_ne {α β : Type} [DecidableEq α] :
    ∀ (b : List (α × β)) (k k' : α) (v : β), k ≠ k' →
    alookup (aset b k v) k' = alookup b k' := by
  intro b k k' v hne
  induction b with
  | nil => simp [aset, alookup, hne]
  | cons kv0 rest ih =>
    obtain ⟨k0, v0⟩ := kv0
    by_cases hk : k0 = k
    · subst hk
      simp [aset, alookup, hne]
    · simp [aset, alookup, hk, ih]

theorem alookup_adel_self {α β : Type} [DecidableEq α] :
    ∀ (b : List (α × β)) (k : α), (b.map Prod.fst).Nodup →
    alookup (adel b k) k = none := by
  intro b k
  induction b with
  | nil => intro _; simp [adel, alookup]
  | cons kv0 rest ih =>
    intro hnd
    obtain ⟨k0, v0⟩ := kv0
    rw [List.map_cons, List.nodup_cons] at hnd
    by_cases hk : k0 = k
    · subst hk
      simp only [adel, if_pos rfl]
      cases halk : alookup rest k0 with
      | none => exact halk
      | some v =>
        exact absurd (List.mem_map_of_mem Prod.fst (alookup_mem rest k0 v halk)) hnd.1
    · simp only [adel, if_neg hk, alookup, if_neg hk]
      exact ih hnd.2

theorem alookup_adel_ne {α β : Type} [DecidableEq α] :
    ∀ (b : List (α × β)) (k k' : α), k ≠ k' →
    alookup (adel b k) k' = alookup b k' := by
  intro b k k' hne
  induction b with
  | nil => simp [adel]
  | cons kv0 rest ih =>
    obtain ⟨k0, v0⟩ := kv0
    by_cases hk : k0 = k
    · subst hk
      simp [adel, alookup, hne]
    · simp [adel, alookup, hk, ih]

theorem alookup_eq_none_iff {α β : Type} [DecidableEq α] :
    ∀ (b : List (α × β)) (k : α), alookup b k = none ↔ k ∉ b.map Prod.fst := by
  intro b k
  induction b with
  | nil => simp [alookup]
  | cons kv0 rest ih =>
    obtain ⟨k0, v0⟩ := kv0
    by_cases hk : k0 = k
    · subst hk
      simp [alookup]
    · simp [alookup, hk, ih, Ne.symm hk]

theorem adel_sublist {α β : Type} [DecidableEq α] :
    ∀ (b : List (α × β)) (k : α), (adel b k).Sublist b := by
  intro b k
  induction b with
  | nil => simp [adel]
  | cons kv0 rest ih =>
    obtain ⟨k0, v0⟩ := kv0
    by_cases hk : k0 = k
    · simp only [adel, if_pos hk]
      exact List.sublist_cons_self _ _
    · simp only [adel, if_neg hk]
      exact ih.cons₂ _

theorem mem_aset {α β : Type} [DecidableEq α] :
    ∀ (b : List (α × β)) (k : α) (v : β) (kv : α × β), kv ∈ aset b k v →
    kv = (k, v) ∨ kv ∈ b := by
  intro b k v kv
  induction b with
  | nil => intro h; simpa [aset] using h
  | cons kv0 rest ih =>
    obtain ⟨k0, v0⟩ := kv0
    intro h
    by_cases hk : k0 = k
    · subst hk
      rcases List.mem_cons.mp (by simpa [aset] using h) with rfl | hm
      · exact Or.inl rfl
      · exact Or.inr (List.mem_cons_of_mem _ hm)
    · rcases List.mem_cons.mp (by simpa [aset, hk] using h) with rfl | hm
      · exact Or.inr (List.mem_cons_self _ _)
      · rcases ih hm with h1 | h1
        · exact Or.inl h1
        · exact Or.inr (List.mem_cons_of_mem _ h1)

theorem aset_keys_subset {α β : Type} [DecidableEq α] :
    ∀ (b : List (α × β)) (k : α) (v : β) (k' : α),
    k' ∈ (aset b k v).map Prod.fst → k' = k ∨ k' ∈ b.map Prod.fst := by
  intro b k v k' h
  obtain ⟨kv, hkv, rfl⟩ := List.mem_map.mp h
  rcases mem_aset b k v kv hkv with rfl | hm
  · exact Or.inl rfl
  · exact Or.inr (List.mem_map_of_mem _ hm)

theorem aset_keys_nodup {α β : Type} [DecidableEq α] :
    ∀ (b : List (α × β)) (k : α) (v : β), (b.map Prod.fst).Nodup →
    ((aset b k v).map Prod.fst).Nodup := by
  intro b k v
  induction b with
  | nil => intro _; simp [aset]
  | cons kv0 rest ih =>
    obtain ⟨k0, v0⟩ := kv0
    intro hnd
    rw [List.map_cons, List.nodup_cons] at hnd
    by_cases hk : k0 = k
    · subst hk
      have hset : aset ((k0, v0) :: rest) k0 v = (k0, v) :: rest := by simp [aset]
      rw [hset, List.map_cons, List.nodup_cons]
      exact ⟨hnd.1, hnd.2⟩
    · have hset : aset ((k0, v0) :: rest) k v = (k0, v0) :: aset rest k v := by
        simp [aset, hk]
      rw [hset, List.map_cons, List.nodup_cons]
      refine ⟨fun hmem => ?_, ih hnd.2⟩
      rcases aset_keys_subset rest k v k0 hmem with rfl | hm
      · exact hk rfl
      · exact hnd.1 hm

theorem insortE_mem : ∀ (l : List (Option Int)) (x : Option Int) (r : List (Option Int)),
    insortE x l = .ok r → ∀ y, y ∈ r ↔ y = x ∨ y ∈ l := by
  intro l
  induction l with
  | nil =>
    intro x r h y
    cases h
    simp
  | cons z zs ih =>
    intro x r h y
    unfold insortE at h
    split at h
    · cases h
    · cases h
      simp [or_comm, or_assoc, or_left_comm]
    · split at h
      · cases h
      · rename_i r0 hr0
        cases h
        simp only [List.mem_cons, ih x r0 hr0 y]
        constructor
        · rintro (rfl | h1)
          · exact Or.inr (Or.inl rfl)
          · rcases h1 with h1 | h1
            · exact Or.inl h1
            · exact Or.inr (Or.inr h1)
        · rintro (h1 | h1 | h1)
          · exact Or.inr (Or.inl h1)
          · exact Or.inl h1
          · exact Or.inr (Or.inr h1)

theorem insortE_nodup : ∀ (l : List (Option Int)) (x : Option Int) (r : List (Option Int)),
    insortE x l = .ok r → x ∉ l → l.Nodup → r.Nodup := by
  intro l
  induction l with
  | nil =>
    intro x r h _ _
    cases h
    simp
  | cons z zs ih =>
    intro x r h hx hnd
    rw [List.nodup_cons] at hnd
    unfold insortE at h
    split at h
    · cases h
    · cases h
      rw [List.nodup_cons]
      exact ⟨hx, List.nodup_cons.mpr hnd⟩
    · split at h
      · cases h
      · rename_i r0 hr0
        cases h
        rw [List.nodup_cons]
        refine ⟨fun hmem => ?_, ih x r0 hr0 (fun hm => hx (List.mem_cons_of_mem _ hm)) hnd.2⟩
        rcases (insortE_mem zs x r0 hr0 z).mp hmem with rfl | hm
        · exact hx (List.mem_cons_self _ _)
        · exact hnd.1 hm

theorem removeFirstE_mem_nodup : ∀ (l : List (Option Int)) (x : Option Int)
    (r : List (Option Int)), l.Nodup → removeFirstE x l = .ok r →
    (∀ y, y ∈ r ↔ y ∈ l ∧ y ≠ x) ∧ r.Nodup := by
  intro l
  induction l with
  | nil => intro x r _ h; cases h
  | cons z zs ih =>
    intro x r hnd h
    rw [List.nodup_cons] at hnd
    unfold removeFirstE at h
    split at h
    · rename_i hz
      subst hz
      cases h
      refine ⟨fun y => ?_, hnd.2⟩
      constructor
      · intro hm
        exact ⟨List.mem_cons_of_mem _ hm, fun he => hnd.1 (he ▸ hm)⟩
      · rintro ⟨hm, hne⟩
        rcases List.mem_cons.mp hm with rfl | hm
        · exact absurd rfl hne
        · exact hm
    · rename_i hz
      split at h
      · cases h
      · rename_i r0 hr0
        cases h
        obtain ⟨hmem, hnd0⟩ := ih x r0 hnd.2 hr0
        refine ⟨fun y => ?_, List.nodup_cons.mpr ⟨fun hm => hnd.1 ((hmem z).mp hm).1, hnd0⟩⟩
        constructor
        · intro hm
          rcases List.mem_cons.mp hm with rfl | hm
          · exact ⟨List.mem_cons_self _ _, hz⟩
          · obtain ⟨h1, h2⟩ := (hmem y).mp hm
            exact ⟨List.mem_cons_of_mem _ h1, h2⟩
        · rintro ⟨hm, hne⟩
          rcases List.mem_cons.mp hm with rfl | hm
          · exact List.mem_cons_self _ _
          · exact List.mem_cons_of_mem _ ((hmem y).mpr ⟨hm, hne⟩)

theorem convertTriggered_id (o : Order) : (convertTriggered o).id = o.id := by
  unfold convertTriggered
  split
  · rfl
  · split <;> rfl

theorem triggerPartitionE_ids_perm (last : Option Int) :
    ∀ (stops trig remain : List Order),
    triggerPartitionE last stops = .ok (trig, remain) →
    (trig.map Order.id ++ remain.map Order.id).Perm (stops.map Order.id) := by
  intro stops
  induction stops with
  | nil =>
    intro trig remain h
    cases h
    simp
  | cons o rest ih =>
    intro trig remain h
    unfold triggerPartitionE at h
    split at h
    · cases h
    · split at h
      · cases h
      · rename_i t0 r0 hr
        cases h
        have hperm := ih _ _ hr
        simp only [List.map_cons, convertTriggered_id, List.cons_append]
        exact hperm.cons o.id
    · split at h
      · cases h
      · rename_i t0 r0 hr
        cases h
        have hperm := ih _ _ hr
        simp only [List.map_cons]
        exact List.perm_middle.trans (hperm.cons o.id)

/-! Projection lemmas for the side accessors and the named state updates. -/

theorem sideQueues_setSideQueues_self (st : OrderBook) (s : Side)
    (b : List (Option Int × List Order)) :
    sideQueues (setSideQueues st s b) s = b := by cases s <;> rfl

theorem sideQueues_setSideQueues_ne (st : OrderBook) {s s' : Side}
    (b : List (Option Int × List Order)) (h : s' ≠ s) :
    sideQueues (setSideQueues st s b) s' = sideQueues st s' := by
  cases s <;> cases s' <;> first | rfl | exact absurd rfl h

theorem sidePriceList_setSideQueues (st : OrderBook) (s s' : Side)
    (b : List (Option Int × List Order)) :
    sidePriceList (setSideQueues st s b) s' = sidePriceList st s' := by
  cases s <;> cases s' <;> rfl

theorem sideQueues_setSidePriceList (st : OrderBook) (s s' : Side)
    (l : List (Option Int)) :
    sideQueues (setSidePriceList st s l) s' = sideQueues st s' := by
  cases s <;> cases s' <;> rfl

theorem sidePriceList_setSidePriceList_self (st : OrderBook) (s : Side)
    (l : List (Option Int)) :
    sidePriceList (setSidePriceList st s l) s = l := by cases s <;> rfl

theorem sidePriceList_setSidePriceList_ne (st : OrderBook) {s s' : Side}
    (l : List (Option Int)) (h : s' ≠ s) :
    sidePriceList (setSidePriceList st s l) s' = sidePriceList st s' := by
  cases s <;> cases s' <;> first | rfl | exact absurd rfl h

theorem stopIds_setSideQueues (st : OrderBook) (s : Side)
    (b : List (Option Int × List Order)) :
    stopIds (setSideQueues st s b) = stopIds st := by cases s <;> rfl

theorem stopIds_setSidePriceList (st : OrderBook) (s : Side) (l : List (Option Int)) :
    stopIds (setSidePriceList st s l) = stopIds st := by cases s <;> rfl

theorem sideQueues_tradeUpd_self (st : OrderBook) (s : Side) (key : Option Int)
    (q : List Order) (i : Nat) (r2 : Order) (t : Trade) :
    sideQueues (tradeUpd st s key q i r2 t) s = aset (sideQueues st s) key (q.set i r2) := by
  cases s <;> rfl

theorem sideQueues_tradeUpd_ne (st : OrderBook) {s s' : Side} (key : Option Int)
    (q : List Order) (i : Nat) (r2 : Order) (t : Trade) (h : s' ≠ s) :
    sideQueues (tradeUpd st s key q i r2 t) s' = sideQueues st s' := by
  cases s <;> cases s' <;> first | rfl | exact absurd rfl h

theorem sidePriceList_tradeUpd (st : OrderBook) (s s' : Side) (key : Option Int)
    (q : List Order) (i : Nat) (r2 : Order) (t : Trade) :
    sidePriceList (tradeUpd st s key q i r2 t) s' = sidePriceList st s' := by
  cases s <;> cases s' <;> rfl

theorem stopIds_tradeUpd (st : OrderBook) (s : Side) (key : Option Int)
    (q : List Order) (i : Nat) (r2 : Order) (t : Trade) :
    stopIds (tradeUpd st s key q i r2 t) = stopIds st := by cases s <;> rfl

theorem sideQueues_eraseUpd_self (st : OrderBook) (s : Side) (key : Option Int)
    (q4 : List Order) (rid : Nat) :
    sideQueues (eraseUpd st s key q4 rid) s =
      aset (sideQueues st s) key (eraseFirstId rid q4) := by cases s <;> rfl

theorem sideQueues_eraseUpd_ne (st : OrderBook) {s s' : Side} (key : Option Int)
    (q4 : List Order) (rid : Nat) (h : s' ≠ s) :
    sideQueues (eraseUpd st s key q4 rid) s' = sideQueues st s' := by
  cases s <;> cases s' <;> first | rfl | exact absurd rfl h

theorem sidePriceList_eraseUpd (st : OrderBook) (s s' : Side) (key : Option Int)
    (q4 : List Order) (rid : Nat) :
    sidePriceList (eraseUpd st s key q4 rid) s' = sidePriceList st s' := by
  cases s <;> cases s' <;> rfl

theorem stopIds_eraseUpd (st : OrderBook) (s : Side) (key : Option Int)
    (q4 : List Order) (rid : Nat) :
    stopIds (eraseUpd st s key q4 rid) = stopIds st := by cases s <;> rfl

theorem sideQueues_stopsUpd (st : OrderBook) (l : List Order) (s : Side) :
    sideQueues { st with stop_orders := l } s = sideQueues st s := by cases s <;> rfl

theorem sidePriceList_stopsUpd (st : OrderBook) (l : List Order) (s : Side) :
    sidePriceList { st with stop_orders := l } s = sidePriceList st s := by cases s <;> rfl

theorem sideQueues_ordersUpd (st : OrderBook) (l : List (Nat × Order)) (s : Side) :
    sideQueues { st with orders := l } s = sideQueues st s := by cases s <;> rfl

theorem sidePriceList_ordersUpd (st : OrderBook) (l : List (Nat × Order)) (s : Side) :
    sidePriceList { st with orders := l } s = sidePriceList st s := by cases s <;> rfl

theorem bookIds_eq_sides (st : OrderBook) :
    bookIds st = queueIds (sideQueues st .BUY) ++ queueIds (sideQueues st .SELL) := rfl

theorem mem_bookIds (st : OrderBook) (x : Nat) :
    x ∈ bookIds st ↔
      x ∈ queueIds (sideQueues st .BUY) ∨ x ∈ queueIds (sideQueues st .SELL) := by
  rw [bookIds_eq_sides]; exact List.mem_append

theorem bookIds_setSidePriceList (st : OrderBook) (s : Side) (l : List (Option Int)) :
    bookIds (setSidePriceList st s l) = bookIds st := by cases s <;> rfl

theorem bookIds_stopsUpd (st : OrderBook) (l : List Order) :
    bookIds { st with stop_orders := l } = bookIds st := rfl

theorem bookIds_ordersUpd (st : OrderBook) (l : List (Nat × Order)) :
    bookIds { st with orders := l } = bookIds st := rfl

theorem stopIds_ordersUpd (st : OrderBook) (l : List (Nat × Order)) :
    stopIds { st with orders := l } = stopIds st := rfl

theorem stopIds_stopsUpd (st : OrderBook) (l : List Order) :
    stopIds { st with stop_orders := l } = l.map Order.id := rfl

/-! Support lemmas for the preservation induction. -/

theorem mem_queueAt (st : OrderBook) (s : Side) (p : Option Int) (o : Order) :
    o ∈ queueAt st s p ↔ ∃ q, alookup (sideQueues st s) p = some q ∧ o ∈ q := by
  unfold queueAt
  cases h : alookup (sideQueues st s) p <;> simp

theorem remaining_nonneg (o : Order) : 0 ≤ o.remaining := le_max_left 0 _

theorem fill_id (o : Order) (qty : Int) : (o.fill qty).id = o.id := rfl

theorem fill_price (o : Order) (qty : Int) : (o.fill qty).price = o.price := rfl

theorem fill_side (o : Order) (qty : Int) : (o.fill qty).side = o.side := rfl

theorem fill_type (o : Order) (qty : Int) : (o.fill qty).type = o.type := rfl

theorem cmpLe_ok_true (a b : Option Int) (h : cmpLe a b = .ok true) :
    ∃ x y, a = some x ∧ b = some y ∧ x ≤ y := by
  cases a with
  | none => cases h
  | some x =>
    cases b with
    | none => cases h
    | some y =>
      refine ⟨x, y, rfl, rfl, ?_⟩
      have h' : decide (x ≤ y) = true := by injection h
      exact of_decide_eq_true h'

theorem cmpGe_ok_true (a b : Option Int) (h : cmpGe a b = .ok true) :
    ∃ x y, a = some x ∧ b = some y ∧ y ≤ x := by
  cases a with
  | none => cases h
  | some x =>
    cases b with
    | none => cases h
    | some y =>
      refine ⟨x, y, rfl, rfl, ?_⟩
      have h' : decide (x ≥ y) = true := by injection h
      exact of_decide_eq_true h'

theorem insertDescE_mem : ∀ (l r : List (Option Int)) (x z : Option Int),
    insertDescE x l = .ok r → (z ∈ r ↔ z = x ∨ z ∈ l) := by
  intro l
  induction l with
  | nil => intro r x z h; cases h; simp
  | cons y ys ih =>
    intro r x z h
    unfold insertDescE at h
    cases hc : cmpLt x y with
    | error e => rw [hc] at h; cases h
    | ok b =>
      rw [hc] at h
      cases b with
      | true =>
        dsimp only at h
        cases hr : insertDescE x ys with
        | error e => rw [hr] at h; cases h
        | ok r0 =>
          rw [hr] at h
          cases h
          simp only [List.mem_cons, ih r0 x z hr]
          tauto
      | false =>
        dsimp only at h
        cases h
        simp [List.mem_cons]

theorem sortedDescE_mem : ∀ (l r : List (Option Int)),
    sortedDescE l = .ok r → ∀ z, z ∈ r ↔ z ∈ l := by
  intro l
  induction l with
  | nil => intro r h z; cases h; simp
  | cons y ys ih =>
    intro r h z
    unfold sortedDescE at h
    cases hr : sortedDescE ys with
    | error e => rw [hr] at h; cases h
    | ok r0 =>
      rw [hr] at h
      dsimp only at h
      rw [insertDescE_mem r0 r y z h, ih r0 hr z]
      simp

theorem map_id_set : ∀ (q : List Order) (i : Nat) (o' : Order) (hi : i < q.length),
    o'.id = (q.get ⟨i, hi⟩).id → (q.set i o').map Order.id = q.map Order.id := by
  intro q
  induction q with
  | nil => intro i o' hi; exact absurd hi (by simp)
  | cons a as ih =>
    intro i o' hi hid
    cases i with
    | zero => simp_all [List.set]
    | succ j =>
      simp only [List.set, List.map_cons, List.cons.injEq, true_and]
      exact ih j o' (by simpa using hi) (by simpa using hid)

theorem eraseFirstId_sublist (rid : Nat) : ∀ q : List Order,
    (eraseFirstId rid q).Sublist q := by
  intro q
  induction q with
  | nil => simp [eraseFirstId]
  | cons o rest ih =>
    unfold eraseFirstId
    split
    · exact List.sublist_cons_self o rest
    · exact ih.cons₂ o

theorem mem_eraseFirstId (rid : Nat) (q : List Order) (x : Order)
    (h : x ∈ eraseFirstId rid q) : x ∈ q :=
  (eraseFirstId_sublist rid q).subset h

theorem mem_eraseFirstId_id_ne (rid : Nat) : ∀ q : List Order,
    (q.map Order.id).Nodup → ∀ x ∈ eraseFirstId rid q, x.id ≠ rid := by
  intro q
  induction q with
  | nil => intro _ x hx; cases hx
  | cons o rest ih =>
    intro hnd x hx
    simp only [List.map_cons, List.nodup_cons] at hnd
    unfold eraseFirstId at hx
    split at hx
    · rename_i ho
      intro hxid
      refine hnd.1 ?_
      rw [ho, ← hxid]
      exact List.mem_map_of_mem Order.id hx
    · rename_i ho
      rcases List.mem_cons.mp hx with rfl | hx
      · exact ho
      · exact ih hnd.2 x hx

theorem nodup_append_snoc {A B : List Nat} {x : Nat} (h : (A ++ B).Nodup)
    (hA : x ∉ A) (hB : x ∉ B) : (A ++ (B ++ [x])).Nodup := by
  rw [← List.append_assoc]
  have hperm : ((A ++ B) ++ [x]).Perm (x :: (A ++ B)) := List.perm_append_singleton x _
  refine hperm.nodup_iff.mpr ?_
  exact List.nodup_cons.mpr ⟨by simp [hA, hB], h⟩

theorem aset_append_of_none {α β : Type} [DecidableEq α] :
    ∀ (b : List (α × β)) (k : α) (v : β), alookup b k = none →
    aset b k v = b ++ [(k, v)] := by
  intro b k v
  induction b with
  | nil => intro _; rfl
  | cons kv rest ih =>
    intro h
    obtain ⟨k0, v0⟩ := kv
    unfold alookup at h
    unfold aset
    split at h
    · cases h
    · rename_i hne
      rw [if_neg hne, ih h]
      rfl

theorem triggerPartitionE_remain_sublist (last : Option Int) :
    ∀ (stops trig remain : List Order),
    triggerPartitionE last stops = .ok (trig, remain) → remain.Sublist stops := by
  intro stops
  induction stops with
  | nil => intro trig remain h; cases h; simp
  | cons o rest ih =>
    intro trig remain h
    unfold triggerPartitionE at h
    cases hc : checkTrigger last o with
    | error e => rw [hc] at h; cases h
    | ok b =>
      rw [hc] at h
      cases b with
      | true =>
        dsimp only at h
        cases hp : triggerPartitionE last rest with
        | error e => rw [hp] at h; cases h
        | ok p =>
          obtain ⟨t, r⟩ := p
          rw [hp] at h
          cases h
          exact (ih _ _ hp).trans (List.sublist_cons_self o rest)
      | false =>
        dsimp only at h
        cases hp : triggerPartitionE last rest with
        | error e => rw [hp] at h; cases h
        | ok p =>
          obtain ⟨t, r⟩ := p
          rw [hp] at h
          cases h
          exact (ih _ _ hp).cons₂ o

theorem zeroRespect_refl (st : OrderBook) : zeroRespect st st :=
  fun s p o h hz => ⟨s, p, o, h, rfl, hz⟩

theorem zeroRespect_trans {a b c : OrderBook} (h1 : zeroRespect a b)
    (h2 : zeroRespect b c) : zeroRespect a c := by
  intro s p o hm hz
  obtain ⟨s1, p1, o1, hm1, hid1, hz1⟩ := h2 s p o hm hz
  obtain ⟨s0, p0, o0, hm0, hid0, hz0⟩ := h1 s1 p1 o1 hm1 hz1
  exact ⟨s0, p0, o0, hm0, hid0.trans hid1, hz0⟩

theorem SWX_forall {st : OrderBook} {exc : Option (Side × Option Int)}
    (h : SWX st exc) :
    (∀ s, sideKeysWF st s) ∧ (∀ s, sideSyncWF st s) ∧
      (∀ s, sideQX st exc s) ∧ wfIds st := by
  obtain ⟨⟨k1, k2⟩, ⟨s1, s2⟩, ⟨q1, q2⟩, hid⟩ := h
  refine ⟨fun s => ?_, fun s => ?_, fun s => ?_, hid⟩ <;> cases s <;> assumption

theorem SWX_intro {st : OrderBook} {exc : Option (Side × Option Int)}
    (hk : ∀ s, sideKeysWF st s) (hs : ∀ s, sideSyncWF st s)
    (hq : ∀ s, sideQX st exc s) (hid : wfIds st) : SWX st exc :=
  ⟨⟨hk .BUY, hk .SELL⟩, ⟨hs .BUY, hs .SELL⟩, ⟨hq .BUY, hq .SELL⟩, hid⟩

theorem SWX_weaken {st : OrderBook} {exc : Option (Side × Option Int)}
    (h : SWX st none) : SWX st exc := by
  obtain ⟨hk, hs, hq, hid⟩ := SWX_forall h
  refine SWX_intro (fun s => hk s) (fun s => hs s) (fun s kv hkv => ?_) hid
  exact ⟨fun he => absurd ((hq s kv hkv).1 he) (by simp), (hq s kv hkv).2⟩

theorem wfIds_book_nodup {st : OrderBook} (hw : wfIds st) : (bookIds st).Nodup :=
  (List.nodup_append.mp hw).1

theorem wfIds_side_nodup {st : OrderBook} (hw : wfIds st) (s : Side) :
    (queueIds (sideQueues st s)).Nodup := by
  have hb := wfIds_book_nodup hw
  rw [bookIds_eq_sides] at hb
  cases s
  · exact (List.nodup_append.mp hb).1
  · exact (List.nodup_append.mp hb).2.1

theorem wfIds_sides_disjoint {st : OrderBook} (hw : wfIds st) {x : Nat}
    (h1 : x ∈ queueIds (sideQueues st .BUY))
    (h2 : x ∈ queueIds (sideQueues st .SELL)) : False := by
  have hb := wfIds_book_nodup hw
  rw [bookIds_eq_sides] at hb
  exact (List.nodup_append.mp hb).2.2 h1 h2

theorem wfIds_book_stop_disjoint {st : OrderBook} (hw : wfIds st) {x : Nat}
    (h1 : x ∈ bookIds st) (h2 : x ∈ stopIds st) : False :=
  (List.nodup_append.mp hw).2.2 h1 h2

theorem alist_id_unique : ∀ (b : List (Option Int × List Order)), (queueIds b).Nodup →
    ∀ p1 q1, alookup b p1 = some q1 → ∀ p2 q2, alookup b p2 = some q2 →
    ∀ o1 ∈ q1, ∀ o2 ∈ q2, o1.id = o2.id → o1 = o2 ∧ p1 = p2 := by
  intro b
  induction b with
  | nil => intro _ p1 q1 h1; cases h1
  | cons kv rest ih =>
    obtain ⟨k, q⟩ := kv
    intro hnd p1 q1 h1 p2 q2 h2 o1 ho1 o2 ho2 hid
    rw [queueIds_cons] at hnd
    obtain ⟨hq, hrest, hdis⟩ := List.nodup_append.mp hnd
    unfold alookup at h1 h2
    by_cases hk1 : k = p1
    · rw [if_pos hk1] at h1
      cases h1
      by_cases hk2 : k = p2
      · rw [if_pos hk2] at h2
        cases h2
        exact ⟨List.inj_on_of_nodup_map hq ho1 ho2 hid, hk1 ▸ hk2 ▸ rfl⟩
      · rw [if_neg hk2] at h2
        exfalso
        have h2m : o2.id ∈ queueIds rest :=
          (mem_queueIds rest o2.id).mpr ⟨(p2, q2), alookup_mem rest p2 q2 h2, o2, ho2, rfl⟩
        exact hdis (List.mem_map_of_mem Order.id ho1) (hid ▸ h2m)
    · rw [if_neg hk1] at h1
      by_cases hk2 : k = p2
      · rw [if_pos hk2] at h2
        cases h2
        exfalso
        have h1m : o1.id ∈ queueIds rest :=
          (mem_queueIds rest o1.id).mpr ⟨(p1, q1), alookup_mem rest p1 q1 h1, o1, ho1, rfl⟩
        refine hdis (List.mem_map_of_mem Order.id ho2) ?_
        rw [← hid]
        exact h1m
      · rw [if_neg hk2] at h2
        exact ih hrest p1 q1 h1 p2 q2 h2 o1 ho1 o2 ho2 hid

theorem mem_queueIds_of_queueAt {st : OrderBook} {s : Side} {p : Option Int} {o : Order}
    (h : o ∈ queueAt st s p) : o.id ∈ queueIds (sideQueues st s) := by
  obtain ⟨q, hl, ho⟩ := (mem_queueAt st s p o).mp h
  exact (mem_queueIds _ o.id).mpr ⟨(p, q), alookup_mem _ p q hl, o, ho, rfl⟩

theorem mem_bookIds_of_queueAt {st : OrderBook} {s : Side} {p : Option Int} {o : Order}
    (h : o ∈ queueAt st s p) : o.id ∈ bookIds st := by
  rw [mem_bookIds]
  cases s
  · exact Or.inl (mem_queueIds_of_queueAt h)
  · exact Or.inr (mem_queueIds_of_queueAt h)

theorem queueAt_id_unique {st : OrderBook} (hw : wfIds st) :
    ∀ s1 p1 o1, o1 ∈ queueAt st s1 p1 → ∀ s2 p2 o2, o2 ∈ queueAt st s2 p2 →
    o1.id = o2.id → o1 = o2 ∧ s1 = s2 ∧ p1 = p2 := by
  intro s1 p1 o1 hm1 s2 p2 o2 hm2 hid
  obtain ⟨q1, hl1, ho1⟩ := (mem_queueAt st s1 p1 o1).mp hm1
  obtain ⟨q2, hl2, ho2⟩ := (mem_queueAt st s2 p2 o2).mp hm2
  by_cases hss : s1 = s2
  · subst hss
    obtain ⟨he, hp⟩ := alist_id_unique (sideQueues st s1) (wfIds_side_nodup hw s1)
      p1 q1 hl1 p2 q2 hl2 o1 ho1 o2 ho2 hid
    exact ⟨he, rfl, hp⟩
  · exfalso
    have m1 := mem_queueIds_of_queueAt hm1
    have m2 := mem_queueIds_of_queueAt hm2
    rw [← hid] at m2
    cases s1 <;> cases s2
    · exact hss rfl
    · exact wfIds_sides_disjoint hw m1 m2
    · exact wfIds_sides_disjoint hw m2 m1
    · exact hss rfl

theorem SWX_none_of_active {st : OrderBook} {s : Side} {key : Option Int} {q : List Order}
    (h : SWX st (some (s, key))) (hlk : alookup (sideQueues st s) key = some q)
    (hne : q ≠ []) : SWX st none := by
  obtain ⟨hk, hs, hq, hid⟩ := SWX_forall h
  refine SWX_intro hk hs (fun s' kv hkv => ⟨fun he => ?_, (hq s' kv hkv).2⟩) hid
  exfalso
  have hx := (hq s' kv hkv).1 he
  simp only [Option.some.injEq, Prod.mk.injEq] at hx
  obtain ⟨rfl, rfl⟩ := hx
  have hthis := alookup_of_mem_nodup (sideQueues st s) (hk s).1 kv hkv
  rw [hlk] at hthis
  apply hne
  have hq2 : q = kv.2 := by injection hthis
  rw [hq2, he]

theorem queueIds_aset_of_lookup {b : List (Option Int × List Order)} {key : Option Int}
    {q : List Order} (hlk : alookup b key = some q) (w : List Order) :
    ∃ A B, queueIds b = A ++ (q.map Order.id ++ B) ∧
      queueIds (aset b key w) = A ++ (w.map Order.id ++ B) := by
  obtain ⟨b1, b2, hb, hb1, hdel, hset⟩ := alookup_split b key q hlk
  refine ⟨queueIds b1, queueIds b2, ?_, ?_⟩
  · rw [hb, queueIds_append, queueIds_cons]
  · rw [hset w, queueIds_append, queueIds_cons]

theorem queueIds_adel_of_lookup_nil {b : List (Option Int × List Order)}
    {key : Option Int} (hlk : alookup b key = some []) :
    queueIds (adel b key) = queueIds b := by
  obtain ⟨b1, b2, hb, hb1, hdel, hset⟩ := alookup_split b key [] hlk
  rw [hdel, hb]
  rw [queueIds_append, queueIds_append, queueIds_cons]
  simp

theorem wfIds_side_sub {st : OrderBook} {s : Side} {b : List (Option Int × List Order)}
    (hsub : (queueIds b).Sublist (queueIds (sideQueues st s))) (hw : wfIds st) :
    wfIds (setSideQueues st s b) := by
  cases s
  · unfold wfIds bookIds stopIds at hw ⊢
    dsimp [setSideQueues, sideQueues] at hsub ⊢
    exact (((hsub.append (List.Sublist.refl _)).append (List.Sublist.refl _))).nodup hw
  · unfold wfIds bookIds stopIds at hw ⊢
    dsimp [setSideQueues, sideQueues] at hsub ⊢
    exact ((((List.Sublist.refl _).append hsub).append (List.Sublist.refl _))).nodup hw

theorem mem_bookIds_side_sub {st : OrderBook} {s : Side}
    {b : List (Option Int × List Order)}
    (hsub : ∀ x ∈ queueIds b, x ∈ queueIds (sideQueues st s)) :
    ∀ x ∈ bookIds (setSideQueues st s b), x ∈ bookIds st := by
  intro x hx
  rw [mem_bookIds] at hx ⊢
  rcases hx with hx | hx
  · cases s
    · exact Or.inl (hsub x (by rwa [sideQueues_setSideQueues_self] at hx))
    · exact Or.inl (by rwa [sideQueues_setSideQueues_ne st _ (by simp)] at hx)
  · cases s
    · exact Or.inr (by rwa [sideQueues_setSideQueues_ne st _ (by simp)] at hx)
    · exact Or.inr (hsub x (by rwa [sideQueues_setSideQueues_self] at hx))

theorem wfIds_stops_sub {st : OrderBook} {l : List Order}
    (hsub : (l.map Order.id).Sublist (stopIds st)) (hw : wfIds st) :
    wfIds { st with stop_orders := l } := by
  unfold wfIds at hw ⊢
  rw [bookIds_stopsUpd, stopIds_stopsUpd]
  exact ((List.Sublist.refl _).append hsub).nodup hw

theorem wfIds_of_eq {st st' : OrderBook} (hb : bookIds st' = bookIds st)
    (hs : stopIds st' = stopIds st) (hw : wfIds st) : wfIds st' := by
  unfold wfIds at hw ⊢
  rw [hb, hs]
  exact hw

theorem wfIds_of_sub {st st' : OrderBook} (hb : (bookIds st').Sublist (bookIds st))
    (hs : stopIds st' = stopIds st) (hw : wfIds st) : wfIds st' := by
  unfold wfIds at hw ⊢
  rw [hs]
  exact (hb.append (List.Sublist.refl _)).nodup hw

theorem nodup_snoc {α : Type} {l : List α} {x : α} (h : l.Nodup) (hx : x ∉ l) :
    (l ++ [x]).Nodup :=
  (List.perm_append_singleton x l).nodup_iff.mpr (List.nodup_cons.mpr ⟨hx, h⟩)

theorem queueIds_snoc_level (b : List (Option Int × List Order)) (key : Option Int)
    (o : Order) : queueIds (b ++ [(key, [o])]) = queueIds b ++ [o.id] := by
  rw [queueIds_append]
  simp [queueIds]

theorem wfIds_perm_snoc {st st' : OrderBook} {x : Nat}
    (hb : (bookIds st').Perm (x :: bookIds st)) (hs : stopIds st' = stopIds st)
    (hx1 : x ∉ bookIds st) (hx2 : x ∉ stopIds st) (hw : wfIds st) : wfIds st' := by
  unfold wfIds at hw ⊢
  have hp : (bookIds st' ++ stopIds st').Perm (x :: (bookIds st ++ stopIds st)) := by
    rw [hs]
    exact hb.append_right _
  exact hp.nodup_iff.mpr (List.nodup_cons.mpr ⟨by simp [hx1, hx2], hw⟩)

theorem bookIds_perm_side {st : OrderBook} {s : Side}
    {b' : List (Option Int × List Order)} {x : Nat}
    (hperm : (queueIds b').Perm (x :: queueIds (sideQueues st s))) :
    (bookIds (setSideQueues st s b')).Perm (x :: bookIds st) := by
  cases s
  · rw [bookIds_eq_sides, bookIds_eq_sides st, sideQueues_setSideQueues_self,
      sideQueues_setSideQueues_ne st _ (by decide)]
    exact hperm.append_right _
  · rw [bookIds_eq_sides, bookIds_eq_sides st, sideQueues_setSideQueues_self,
      sideQueues_setSideQueues_ne st _ (by decide)]
    exact (List.Perm.append_left _ hperm).trans List.perm_middle

theorem mem_bookIds_perm {st' st : OrderBook} {x : Nat}
    (hb : (bookIds st').Perm (x :: bookIds st)) :
    ∀ y ∈ bookIds st', y ∈ bookIds st ∨ y = x := by
  intro y hy
  have hmem := hb.subset hy
  rcases List.mem_cons.mp hmem with rfl | h
  · exact Or.inr rfl
  · exact Or.inl h

theorem bookIds_sublist_of_side {st : OrderBook} {s : Side}
    {b : List (Option Int × List Order)}
    (h : (queueIds b).Sublist (queueIds (sideQueues st s))) :
    (bookIds (setSideQueues st s b)).Sublist (bookIds st) := by
  cases s
  · rw [bookIds_eq_sides, bookIds_eq_sides st, sideQueues_setSideQueues_self,
      sideQueues_setSideQueues_ne st _ (by decide)]
    exact h.append_right _
  · rw [bookIds_eq_sides, bookIds_eq_sides st, sideQueues_setSideQueues_self,
      sideQueues_setSideQueues_ne st _ (by decide)]
    exact (List.Sublist.refl _).append h

theorem queue_ids_nodup_of_lookup {st : OrderBook} {s : Side} {p : Option Int}
    {q : List Order} (hw : wfIds st) (hlk : alookup (sideQueues st s) p = some q) :
    (q.map Order.id).Nodup := by
  obtain ⟨A, B, hA, _⟩ := queueIds_aset_of_lookup hlk q
  have hnd := wfIds_side_nodup hw s
  rw [hA] at hnd
  exact (List.nodup_append.mp (List.nodup_append.mp hnd).2.1).1

theorem tradeUpd_preserves (st : OrderBook) (s : Side) (key : Option Int) (q : List Order)
    (i : Nat) (r2 : Order) (t : Trade) (hi : i < q.length)
    (hswx : SWX st (some (s, key)))
    (hlk : alookup (sideQueues st s) key = some q)
    (hid2 : r2.id = (q.get ⟨i, hi⟩).id) (hpr : r2.price = key) :
    SWX (tradeUpd st s key q i r2 t) none ∧
    bookIds (tradeUpd st s key q i r2 t) = bookIds st ∧
    stopIds (tradeUpd st s key q i r2 t) = stopIds st ∧
    queueAt (tradeUpd st s key q i r2 t) s key = q.set i r2 ∧
    (∀ p, p ≠ key → queueAt (tradeUpd st s key q i r2 t) s p = queueAt st s p) ∧
    (∀ s' p, s' ≠ s → queueAt (tradeUpd st s key q i r2 t) s' p = queueAt st s' p) := by
  have hqne : q ≠ [] := List.ne_nil_of_length_pos (Nat.lt_of_le_of_lt (Nat.zero_le i) hi)
  have hnone : SWX st none := SWX_none_of_active hswx hlk hqne
  obtain ⟨hk, hs, hq, hid⟩ := SWX_forall hnone
  have hmem_key : (key, q) ∈ sideQueues st s := alookup_mem _ key q hlk
  have hmids : (q.set i r2).map Order.id = q.map Order.id := map_id_set q i r2 hi hid2
  have hqa1 : queueAt (tradeUpd st s key q i r2 t) s key = q.set i r2 := by
    unfold queueAt
    rw [sideQueues_tradeUpd_self, alookup_aset_self]
    rfl
  have hqa2 : ∀ p, p ≠ key → queueAt (tradeUpd st s key q i r2 t) s p = queueAt st s p := by
    intro p hp
    unfold queueAt
    rw [sideQueues_tradeUpd_self, alookup_aset_ne _ _ _ _ (fun he => hp he.symm)]
  have hqa3 : ∀ s' p, s' ≠ s →
      queueAt (tradeUpd st s key q i r2 t) s' p = queueAt st s' p := by
    intro s' p hs'
    unfold queueAt
    rw [sideQueues_tradeUpd_ne st key q i r2 t hs']
  obtain ⟨A, B, hA, hB⟩ := queueIds_aset_of_lookup hlk (q.set i r2)
  have hqide : queueIds (aset (sideQueues st s) key (q.set i r2))
      = queueIds (sideQueues st s) := by
    rw [hB, hmids, ← hA]
  have hbids : bookIds (tradeUpd st s key q i r2 t) = bookIds st := by
    rw [bookIds_eq_sides, bookIds_eq_sides st]
    cases s
    · rw [sideQueues_tradeUpd_self, sideQueues_tradeUpd_ne st key q i r2 t (by decide), hqide]
    · rw [sideQueues_tradeUpd_self, sideQueues_tradeUpd_ne st key q i r2 t (by decide), hqide]
  have hsids : stopIds (tradeUpd st s key q i r2 t) = stopIds st := stopIds_tradeUpd _ _ _ _ _ _ _
  refine ⟨?_, hbids, hsids, hqa1, hqa2, hqa3⟩
  refine SWX_intro (fun s0 => ?_) (fun s0 => ?_) (fun s0 kv hkv => ?_) (wfIds_of_eq hbids hsids hid)
  · by_cases hs0 : s0 = s
    · subst hs0
      unfold sideKeysWF
      rw [sideQueues_tradeUpd_self, sidePriceList_tradeUpd]
      exact ⟨aset_keys_nodup _ key (q.set i r2) (hk s0).1, (hk s0).2⟩
    · unfold sideKeysWF
      rw [sideQueues_tradeUpd_ne st key q i r2 t hs0, sidePriceList_tradeUpd]
      exact hk s0
  · by_cases hs0 : s0 = s
    · subst hs0
      unfold sideSyncWF
      rw [sideQueues_tradeUpd_self, sidePriceList_tradeUpd]
      constructor
      · intro p hp
        by_cases hpk : p = key
        · subst hpk
          rw [alookup_aset_self]
          rfl
        · rw [alookup_aset_ne _ _ _ _ (fun he => hpk he.symm)]
          exact (hs s0).1 p hp
      · intro kv hkv2
        rcases mem_aset _ _ _ _ hkv2 with rfl | hkv2
        · exact (hs s0).2 (key, q) hmem_key
        · exact (hs s0).2 kv hkv2
    · unfold sideSyncWF
      rw [sideQueues_tradeUpd_ne st key q i r2 t hs0, sidePriceList_tradeUpd]
      exact hs s0
  · by_cases hs0 : s0 = s
    · subst hs0
      rw [sideQueues_tradeUpd_self] at hkv
      rcases mem_aset _ _ _ _ hkv with rfl | hkv
      · constructor
        · intro he
          exfalso
          have he' : q.set i r2 = [] := he
          have hlen : (q.set i r2).length = 0 := by rw [he']; rfl
          rw [List.length_set] at hlen
          omega
        · intro o ho
          rcases List.mem_or_eq_of_mem_set ho with ho | rfl
          · exact (hq s0 (key, q) hmem_key).2 o ho
          · exact hpr
      · exact ⟨fun he => absurd ((hq s0 kv hkv).1 he) (by simp), (hq s0 kv hkv).2⟩
    · rw [sideQueues_tradeUpd_ne st key q i r2 t hs0] at hkv
      exact ⟨fun he => absurd ((hq s0 kv hkv).1 he) (by simp), (hq s0 kv hkv).2⟩

theorem bookIds_eraseUpd_eq (st : OrderBook) (s : Side) (key : Option Int)
    (q4 : List Order) (rid : Nat) :
    bookIds (eraseUpd st s key q4 rid) =
      bookIds (setSideQueues st s (aset (sideQueues st s) key (eraseFirstId rid q4))) := by
  cases s <;> rfl

theorem eraseUpd_preserves (st4 : OrderBook) (s : Side) (key : Option Int)
    (q4 : List Order) (rid : Nat) (hswx : SWX st4 none)
    (hlk : alookup (sideQueues st4 s) key = some q4) :
    SWX (eraseUpd st4 s key q4 rid) (some (s, key)) ∧
    (∀ x ∈ bookIds (eraseUpd st4 s key q4 rid), x ∈ bookIds st4) ∧
    stopIds (eraseUpd st4 s key q4 rid) = stopIds st4 ∧
    queueAt (eraseUpd st4 s key q4 rid) s key = eraseFirstId rid q4 ∧
    (∀ p, p ≠ key → queueAt (eraseUpd st4 s key q4 rid) s p = queueAt st4 s p) ∧
    (∀ s' p, s' ≠ s → queueAt (eraseUpd st4 s key q4 rid) s' p = queueAt st4 s' p) := by
  obtain ⟨hk, hs, hq, hid⟩ := SWX_forall hswx
  have hmem_key : (key, q4) ∈ sideQueues st4 s := alookup_mem _ key q4 hlk
  have herasub : (eraseFirstId rid q4).Sublist q4 := eraseFirstId_sublist rid q4
  obtain ⟨A, B, hA, hB⟩ := queueIds_aset_of_lookup hlk (eraseFirstId rid q4)
  have hqsub : (queueIds (aset (sideQueues st4 s) key (eraseFirstId rid q4))).Sublist
      (queueIds (sideQueues st4 s)) := by
    rw [hA, hB]
    exact List.Sublist.append_left ((herasub.map Order.id).append_right B) A
  have hbsub : (bookIds (eraseUpd st4 s key q4 rid)).Sublist (bookIds st4) := by
    rw [bookIds_eraseUpd_eq]
    exact bookIds_sublist_of_side hqsub
  have hsids : stopIds (eraseUpd st4 s key q4 rid) = stopIds st4 :=
    stopIds_eraseUpd _ _ _ _ _
  have hqa1 : queueAt (eraseUpd st4 s key q4 rid) s key = eraseFirstId rid q4 := by
    unfold queueAt
    rw [sideQueues_eraseUpd_self, alookup_aset_self]
    rfl
  have hqa2 : ∀ p, p ≠ key →
      queueAt (eraseUpd st4 s key q4 rid) s p = queueAt st4 s p := by
    intro p hp
    unfold queueAt
    rw [sideQueues_eraseUpd_self, alookup_aset_ne _ _ _ _ (fun he => hp he.symm)]
  have hqa3 : ∀ s' p, s' ≠ s →
      queueAt (eraseUpd st4 s key q4 rid) s' p = queueAt st4 s' p := by
    intro s' p hs'
    unfold queueAt
    rw [sideQueues_eraseUpd_ne st4 key q4 rid hs']
  refine ⟨?_, fun x hx => hbsub.subset hx, hsids, hqa1, hqa2, hqa3⟩
  refine SWX_intro (fun s0 => ?_) (fun s0 => ?_) (fun s0 kv hkv => ?_)
    (wfIds_of_sub hbsub hsids hid)
  · by_cases hs0 : s0 = s
    · subst hs0
      unfold sideKeysWF
      rw [sideQueues_eraseUpd_self, sidePriceList_eraseUpd]
      exact ⟨aset_keys_nodup _ key (eraseFirstId rid q4) (hk s0).1, (hk s0).2⟩
    · unfold sideKeysWF
      rw [sideQueues_eraseUpd_ne st4 key q4 rid hs0, sidePriceList_eraseUpd]
      exact hk s0
  · by_cases hs0 : s0 = s
    · subst hs0
      unfold sideSyncWF
      rw [sideQueues_eraseUpd_self, sidePriceList_eraseUpd]
      constructor
      · intro p hp
        by_cases hpk : p = key
        · subst hpk
          rw [alookup_aset_self]
          rfl
        · rw [alookup_aset_ne _ _ _ _ (fun he => hpk he.symm)]
          exact (hs s0).1 p hp
      · intro kv hkv2
        rcases mem_aset _ _ _ _ hkv2 with rfl | hkv2
        · exact (hs s0).2 (key, q4) hmem_key
        · exact (hs s0).2 kv hkv2
    · unfold sideSyncWF
      rw [sideQueues_eraseUpd_ne st4 key q4 rid hs0, sidePriceList_eraseUpd]
      exact hs s0
  · by_cases hs0 : s0 = s
    · subst hs0
      rw [sideQueues_eraseUpd_self] at hkv
      rcases mem_aset _ _ _ _ hkv with rfl | hkv
      · refine ⟨fun _ => rfl, fun o ho => ?_⟩
        exact (hq s0 (key, q4) hmem_key).2 o (mem_eraseFirstId rid q4 o ho)
      · exact ⟨fun he => absurd ((hq s0 kv hkv).1 he) (by simp), (hq s0 kv hkv).2⟩
    · rw [sideQueues_eraseUpd_ne st4 key q4 rid hs0] at hkv
      exact ⟨fun he => absurd ((hq s0 kv hkv).1 he) (by simp), (hq s0 kv hkv).2⟩

theorem levelCleanupE_preserves (st1 : OrderBook) (s : Side) (key : Option Int)
    (st2 : OrderBook) (h : levelCleanupE st1 s key = .ok st2)
    (hswx : SWX st1 (some (s, key))) :
    SWX st2 none ∧ bookIds st2 = bookIds st1 ∧ stopIds st2 = stopIds st1 ∧
    (∀ s' p y, y ∈ queueAt st2 s' p → y ∈ queueAt st1 s' p) := by
  obtain ⟨hk, hs, hq, hid⟩ := SWX_forall hswx
  unfold levelCleanupE at h
  cases hlk : alookup (sideQueues st1 s) key with
  | none => rw [hlk] at h; cases h
  | some q =>
    rw [hlk] at h
    dsimp only at h
    split at h
    · rename_i hqe
      have hqnil : q = [] := by
        cases q
        · rfl
        · cases hqe
      subst hqnil
      cases hrf : removeFirstE key (sidePriceList st1 s) with
      | error e => rw [hrf] at h; cases h
      | ok pl =>
        rw [hrf] at h
        cases h
        have hmem_key : (key, ([] : List Order)) ∈ sideQueues st1 s := alookup_mem _ key [] hlk
        obtain ⟨b1, b2, hb, hb1, hdel, _⟩ := alookup_split (sideQueues st1 s) key [] hlk
        have hplnd := (hk s).2
        obtain ⟨hplmem, hplnodup⟩ := removeFirstE_mem_nodup (sidePriceList st1 s) key pl hplnd hrf
        have hkeynotin : key ∉ (b1.map Prod.fst) ++ (b2.map Prod.fst) := by
          have hknd := (hk s).1
          rw [hb] at hknd
          have : List.map Prod.fst (b1 ++ (key, ([] : List Order)) :: b2)
              = b1.map Prod.fst ++ key :: b2.map Prod.fst := by simp
          rw [this] at hknd
          exact (List.nodup_cons.mp (List.nodup_middle.mp hknd)).1
        have hne_key : ∀ kv ∈ adel (sideQueues st1 s) key, kv.1 ≠ key := by
          intro kv hkv
          rw [hdel] at hkv
          intro hkveq
          apply hkeynotin
          rw [List.mem_append]
          rcases List.mem_append.mp hkv with hkv | hkv
          · exact Or.inl (hkveq ▸ List.mem_map_of_mem Prod.fst hkv)
          · exact Or.inr (hkveq ▸ List.mem_map_of_mem Prod.fst hkv)
        have hmem_adel : ∀ kv ∈ adel (sideQueues st1 s) key, kv ∈ sideQueues st1 s := by
          intro kv hkv
          exact (adel_sublist (sideQueues st1 s) key).subset hkv
        have hqide : queueIds (adel (sideQueues st1 s) key) = queueIds (sideQueues st1 s) :=
          queueIds_adel_of_lookup_nil hlk
        have hbids : bookIds (setSidePriceList
            (setSideQueues st1 s (adel (sideQueues st1 s) key)) s pl) = bookIds st1 := by
          rw [bookIds_setSidePriceList, bookIds_eq_sides, bookIds_eq_sides st1]
          cases s
          · rw [sideQueues_setSideQueues_self, sideQueues_setSideQueues_ne st1 _ (by decide), hqide]
          · rw [sideQueues_setSideQueues_self, sideQueues_setSideQueues_ne st1 _ (by decide), hqide]
        have hsids : stopIds (setSidePriceList
            (setSideQueues st1 s (adel (sideQueues st1 s) key)) s pl) = stopIds st1 := by
          rw [stopIds_setSidePriceList, stopIds_setSideQueues]
        refine ⟨?_, hbids, hsids, ?_⟩
        · refine SWX_intro (fun s0 => ?_) (fun s0 => ?_) (fun s0 kv hkv => ?_)
            (wfIds_of_eq hbids hsids hid)
          · by_cases hs0 : s0 = s
            · subst hs0
              unfold sideKeysWF
              rw [sideQueues_setSidePriceList, sideQueues_setSideQueues_self,
                sidePriceList_setSidePriceList_self]
              refine ⟨?_, hplnodup⟩
              exact ((adel_sublist (sideQueues st1 s0) key).map Prod.fst).nodup (hk s0).1
            · unfold sideKeysWF
              rw [sideQueues_setSidePriceList, sideQueues_setSideQueues_ne st1 _ hs0,
                sidePriceList_setSidePriceList_ne _ _ hs0, sidePriceList_setSideQueues]
              exact hk s0
          · by_cases hs0 : s0 = s
            · subst hs0
              unfold sideSyncWF
              rw [sideQueues_setSidePriceList, sideQueues_setSideQueues_self,
                sidePriceList_setSidePriceList_self]
              constructor
              · intro p hp
                obtain ⟨hpmem, hpne⟩ := (hplmem p).mp hp
                rw [alookup_adel_ne _ _ _ (fun he => hpne he.symm)]
                exact (hs s0).1 p hpmem
              · intro kv hkv
                exact (hplmem kv.1).mpr ⟨(hs s0).2 kv (hmem_adel kv hkv), hne_key kv hkv⟩
            · unfold sideSyncWF
              rw [sideQueues_setSidePriceList, sideQueues_setSideQueues_ne st1 _ hs0,
                sidePriceList_setSidePriceList_ne _ _ hs0, sidePriceList_setSideQueues]
              exact hs s0
          · by_cases hs0 : s0 = s
            · subst hs0
              rw [sideQueues_setSidePriceList, sideQueues_setSideQueues_self] at hkv
              refine ⟨fun he => ?_, (hq s0 kv (hmem_adel kv hkv)).2⟩
              exfalso
              have hx := (hq s0 kv (hmem_adel kv hkv)).1 he
              simp only [Option.some.injEq, Prod.mk.injEq] at hx
              exact hne_key kv hkv hx.2.symm
            · rw [sideQueues_setSidePriceList, sideQueues_setSideQueues_ne st1 _ hs0] at hkv
              refine ⟨fun he => ?_, (hq s0 kv hkv).2⟩
              exfalso
              have hx := (hq s0 kv hkv).1 he
              simp only [Option.some.injEq, Prod.mk.injEq] at hx
              exact hs0 hx.1.symm
        · intro s' p y hy
          by_cases hs' : s' = s
          · subst hs'
            by_cases hp : p = key
            · subst hp
              exfalso
              rw [mem_queueAt] at hy
              obtain ⟨q', hq', _⟩ := hy
              rw [sideQueues_setSidePriceList, sideQueues_setSideQueues_self,
                alookup_adel_self _ _ ((hk s').1)] at hq'
              cases hq'
            · rw [mem_queueAt] at hy ⊢
              obtain ⟨q', hq', hyq⟩ := hy
              rw [sideQueues_setSidePriceList, sideQueues_setSideQueues_self,
                alookup_adel_ne _ _ _ (fun he => hp he.symm)] at hq'
              exact ⟨q', hq', hyq⟩
          · rw [mem_queueAt] at hy ⊢
            obtain ⟨q', hq', hyq⟩ := hy
            rw [sideQueues_setSidePriceList, sideQueues_setSideQueues_ne st1 _ hs'] at hq'
            exact ⟨q', hq', hyq⟩
    · rename_i hqe
      cases h
      have hqne : q ≠ [] := by
        intro he
        subst he
        exact hqe rfl
      exact ⟨SWX_none_of_active hswx hlk hqne, rfl, rfl, fun s' p y hy => hy⟩

theorem addLimitE_preserves (st2 : OrderBook) (o2 : Order) (st3 : OrderBook)
    (h : addLimitE st2 o2 = .ok st3) (hswx : SWX st2 none)
    (hf1 : o2.id ∉ bookIds st2) (hf2 : o2.id ∉ stopIds st2) :
    SWX st3 none ∧ stopIds st3 = stopIds st2 ∧
    (∀ x ∈ bookIds st3, x ∈ bookIds st2 ∨ x = o2.id) ∧
    (∀ s' p y, y ∈ queueAt st3 s' p → y = o2 ∨ y ∈ queueAt st2 s' p) := by
  obtain ⟨hk, hs, hq, hid⟩ := SWX_forall hswx
  unfold addLimitE at h
  dsimp only at h
  cases hlk : alookup (sideQueues st2 o2.side) o2.price with
  | none =>
    rw [hlk] at h
    cases hins : insortE o2.price (sidePriceList st2 o2.side) with
    | error e => rw [hins] at h; cases h
    | ok pl =>
      rw [hins] at h
      dsimp only at h
      cases h
      try dsimp only
      have hpnotin : o2.price ∉ sidePriceList st2 o2.side := by
        intro hp
        have hsome := (hs o2.side).1 _ hp
        rw [hlk] at hsome
        cases hsome
      have hplmem := insortE_mem _ _ _ hins
      have hplnodup := insortE_nodup _ _ _ hins hpnotin (hk o2.side).2
      have hasets : aset (sideQueues st2 o2.side) o2.price [o2]
          = sideQueues st2 o2.side ++ [(o2.price, [o2])] := aset_append_of_none _ _ _ hlk
      have hperm : (queueIds (aset (sideQueues st2 o2.side) o2.price [o2])).Perm
          (o2.id :: queueIds (sideQueues st2 o2.side)) := by
        rw [hasets, queueIds_snoc_level]
        exact List.perm_append_singleton _ _
      have hsids : stopIds { setSidePriceList
          (setSideQueues st2 o2.side (aset (sideQueues st2 o2.side) o2.price [o2]))
          o2.side pl with orders := aset (setSidePriceList
          (setSideQueues st2 o2.side (aset (sideQueues st2 o2.side) o2.price [o2]))
          o2.side pl).orders o2.id o2 } = stopIds st2 := by
        rw [stopIds_ordersUpd, stopIds_setSidePriceList, stopIds_setSideQueues]
      have hbperm : (bookIds { setSidePriceList
          (setSideQueues st2 o2.side (aset (sideQueues st2 o2.side) o2.price [o2]))
          o2.side pl with orders := aset (setSidePriceList
          (setSideQueues st2 o2.side (aset (sideQueues st2 o2.side) o2.price [o2]))
          o2.side pl).orders o2.id o2 }).Perm (o2.id :: bookIds st2) := by
        rw [bookIds_ordersUpd, bookIds_setSidePriceList]
        exact bookIds_perm_side hperm
      refine ⟨?_, hsids, mem_bookIds_perm hbperm, ?_⟩
      · refine SWX_intro (fun s0 => ?_) (fun s0 => ?_) (fun s0 kv hkv => ?_)
          (wfIds_perm_snoc hbperm hsids hf1 hf2 hid)
        · by_cases hs0 : s0 = o2.side
          · subst hs0
            unfold sideKeysWF
            rw [sideQueues_ordersUpd, sideQueues_setSidePriceList,
              sideQueues_setSideQueues_self, sidePriceList_ordersUpd,
              sidePriceList_setSidePriceList_self]
            exact ⟨aset_keys_nodup _ _ _ (hk o2.side).1, hplnodup⟩
          · unfold sideKeysWF
            rw [sideQueues_ordersUpd, sideQueues_setSidePriceList,
              sideQueues_setSideQueues_ne st2 _ hs0, sidePriceList_ordersUpd,
              sidePriceList_setSidePriceList_ne _ _ hs0, sidePriceList_setSideQueues]
            exact hk s0
        · by_cases hs0 : s0 = o2.side
          · subst hs0
            unfold sideSyncWF
            simp only [sideQueues_ordersUpd, sideQueues_setSidePriceList,
              sideQueues_setSideQueues_self, sidePriceList_ordersUpd,
              sidePriceList_setSidePriceList_self]
            constructor
            · intro p hp
              by_cases hpk : p = o2.price
              · subst hpk
                rw [alookup_aset_self]
                rfl
              · rw [alookup_aset_ne _ _ _ _ (fun he => hpk he.symm)]
                rcases (hplmem p).mp hp with he | hp0
                · exact absurd he hpk
                · exact (hs o2.side).1 p hp0
            · intro kv hkv
              rcases mem_aset _ _ _ _ hkv with rfl | hkv
              · exact (hplmem o2.price).mpr (Or.inl rfl)
              · exact (hplmem kv.1).mpr (Or.inr ((hs o2.side).2 kv hkv))
          · unfold sideSyncWF
            simp only [sideQueues_ordersUpd, sideQueues_setSidePriceList,
              sideQueues_setSideQueues_ne, sidePriceList_ordersUpd,
              sidePriceList_setSidePriceList_ne, sidePriceList_setSideQueues, ne_eq, hs0,
              not_false_iff]
            exact hs s0
        · by_cases hs0 : s0 = o2.side
          · subst hs0
            rw [sideQueues_ordersUpd, sideQueues_setSidePriceList,
              sideQueues_setSideQueues_self] at hkv
            rcases mem_aset _ _ _ _ hkv with rfl | hkv
            · refine ⟨fun he => ?_, fun o ho => ?_⟩
              · cases he
              · have hoo := List.mem_singleton.mp ho
                subst hoo
                rfl
            · exact ⟨fun he => absurd ((hq o2.side kv hkv).1 he) (by simp), (hq o2.side kv hkv).2⟩
          · rw [sideQueues_ordersUpd, sideQueues_setSidePriceList,
              sideQueues_setSideQueues_ne st2 _ hs0] at hkv
            exact ⟨fun he => absurd ((hq s0 kv hkv).1 he) (by simp), (hq s0 kv hkv).2⟩
      · intro s' p y hy
        rw [mem_queueAt] at hy
        obtain ⟨q', hq', hyq⟩ := hy
        rw [sideQueues_ordersUpd, sideQueues_setSidePriceList] at hq'
        by_cases hs' : s' = o2.side
        · subst hs'
          rw [sideQueues_setSideQueues_self] at hq'
          by_cases hp : p = o2.price
          · subst hp
            rw [alookup_aset_self] at hq'
            have hqq : q' = [o2] := by injection hq' with h2; exact h2.symm
            subst hqq
            have hyy := List.mem_singleton.mp hyq
            subst hyy
            exact Or.inl rfl
          · rw [alookup_aset_ne _ _ _ _ (fun he => hp he.symm)] at hq'
            exact Or.inr ((mem_queueAt st2 o2.side p y).mpr ⟨q', hq', hyq⟩)
        · rw [sideQueues_setSideQueues_ne st2 _ hs'] at hq'
          exact Or.inr ((mem_queueAt st2 s' p y).mpr ⟨q', hq', hyq⟩)
  | some q =>
    rw [hlk] at h
    dsimp only at h
    cases h
    try dsimp only
    have hmem_key : (o2.price, q) ∈ sideQueues st2 o2.side := alookup_mem _ _ q hlk
    obtain ⟨A, B, hA, hB⟩ := queueIds_aset_of_lookup hlk (q ++ [o2])
    have hmap : (q ++ [o2]).map Order.id = q.map Order.id ++ [o2.id] := by simp
    have hperm : (queueIds (aset (sideQueues st2 o2.side) o2.price (q ++ [o2]))).Perm
        (o2.id :: queueIds (sideQueues st2 o2.side)) := by
      rw [hB, hmap]
      have h1 : A ++ ((List.map Order.id q ++ [o2.id]) ++ B)
          = (A ++ List.map Order.id q) ++ (o2.id :: B) := by simp
      rw [h1]
      have h3 : (A ++ List.map Order.id q) ++ B = queueIds (sideQueues st2 o2.side) := by
        rw [List.append_assoc, ← hA]
      refine List.perm_middle.trans ?_
      rw [h3]
    have hsids : stopIds { setSideQueues st2 o2.side
        (aset (sideQueues st2 o2.side) o2.price (q ++ [o2])) with
        orders := aset (setSideQueues st2 o2.side
          (aset (sideQueues st2 o2.side) o2.price (q ++ [o2]))).orders o2.id o2 }
        = stopIds st2 := by
      rw [stopIds_ordersUpd, stopIds_setSideQueues]
    have hbperm : (bookIds { setSideQueues st2 o2.side
        (aset (sideQueues st2 o2.side) o2.price (q ++ [o2])) with
        orders := aset (setSideQueues st2 o2.side
          (aset (sideQueues st2 o2.side) o2.price (q ++ [o2]))).orders o2.id o2 }).Perm
        (o2.id :: bookIds st2) := by
      rw [bookIds_ordersUpd]
      exact bookIds_perm_side hperm
    refine ⟨?_, hsids, mem_bookIds_perm hbperm, ?_⟩
    · refine SWX_intro (fun s0 => ?_) (fun s0 => ?_) (fun s0 kv hkv => ?_)
        (wfIds_perm_snoc hbperm hsids hf1 hf2 hid)
      · by_cases hs0 : s0 = o2.side
        · subst hs0
          unfold sideKeysWF
          rw [sideQueues_ordersUpd, sideQueues_setSideQueues_self,
            sidePriceList_ordersUpd, sidePriceList_setSideQueues]
          exact ⟨aset_keys_nodup _ _ _ (hk o2.side).1, (hk o2.side).2⟩
        · unfold sideKeysWF
          rw [sideQueues_ordersUpd, sideQueues_setSideQueues_ne st2 _ hs0,
            sidePriceList_ordersUpd, sidePriceList_setSideQueues]
          exact hk s0
      · by_cases hs0 : s0 = o2.side
        · subst hs0
          unfold sideSyncWF
          simp only [sideQueues_ordersUpd, sideQueues_setSideQueues_self,
            sidePriceList_ordersUpd, sidePriceList_setSideQueues]
          constructor
          · intro p hp
            by_cases hpk : p = o2.price
            · subst hpk
              rw [alookup_aset_self]
              rfl
            · rw [alookup_aset_ne _ _ _ _ (fun he => hpk he.symm)]
              exact (hs o2.side).1 p hp
          · intro kv hkv
            rcases mem_aset _ _ _ _ hkv with rfl | hkv
            · exact (hs o2.side).2 (o2.price, q) hmem_key
            · exact (hs o2.side).2 kv hkv
        · unfold sideSyncWF
          simp only [sideQueues_ordersUpd, sideQueues_setSideQueues_ne, ne_eq, hs0,
            not_false_iff, sidePriceList_ordersUpd, sidePriceList_setSideQueues]
          exact hs s0
      · by_cases hs0 : s0 = o2.side
        · subst hs0
          rw [sideQueues_ordersUpd, sideQueues_setSideQueues_self] at hkv
          rcases mem_aset _ _ _ _ hkv with rfl | hkv
          · refine ⟨fun he => ?_, fun o ho => ?_⟩
            · exact absurd he (by simp)
            · rcases List.mem_append.mp ho with ho | ho
              · exact (hq o2.side (o2.price, q) hmem_key).2 o ho
              · have hoo := List.mem_singleton.mp ho
                subst hoo
                rfl
          · exact ⟨fun he => absurd ((hq o2.side kv hkv).1 he) (by simp), (hq o2.side kv hkv).2⟩
        · rw [sideQueues_ordersUpd, sideQueues_setSideQueues_ne st2 _ hs0] at hkv
          exact ⟨fun he => absurd ((hq s0 kv hkv).1 he) (by simp), (hq s0 kv hkv).2⟩
    · intro s' p y hy
      rw [mem_queueAt] at hy
      obtain ⟨q', hq', hyq⟩ := hy
      rw [sideQueues_ordersUpd] at hq'
      by_cases hs' : s' = o2.side
      · subst hs'
        rw [sideQueues_setSideQueues_self] at hq'
        by_cases hp : p = o2.price
        · subst hp
          rw [alookup_aset_self] at hq'
          have hqq : q' = q ++ [o2] := by injection hq' with h2; exact h2.symm
          subst hqq
          rcases List.mem_append.mp hyq with hyq | hyq
          · exact Or.inr ((mem_queueAt st2 o2.side o2.price y).mpr ⟨q, hlk, hyq⟩)
          · have hyy := List.mem_singleton.mp hyq
            subst hyy
            exact Or.inl rfl
        · rw [alookup_aset_ne _ _ _ _ (fun he => hp he.symm)] at hq'
          exact Or.inr ((mem_queueAt st2 o2.side p y).mpr ⟨q', hq', hyq⟩)
      · rw [sideQueues_setSideQueues_ne st2 _ hs'] at hq'
        exact Or.inr ((mem_queueAt st2 s' p y).mpr ⟨q', hq', hyq⟩)

theorem wfIds_stop_nodup {st : OrderBook} (hw : wfIds st) : (stopIds st).Nodup :=
  (List.nodup_append.mp hw).2.1

theorem queueAt_stopsUpd (st : OrderBook) (l : List Order) (s : Side) (p : Option Int) :
    queueAt { st with stop_orders := l } s p = queueAt st s p := by
  unfold queueAt
  rw [sideQueues_stopsUpd]

theorem queueAt_ordersUpd (st : OrderBook) (l : List (Nat × Order)) (s : Side)
    (p : Option Int) : queueAt { st with orders := l } s p = queueAt st s p := by
  unfold queueAt
  rw [sideQueues_ordersUpd]

theorem SWX_stopsUpd {st : OrderBook} {exc : Option (Side × Option Int)} (l : List Order)
    (h : SWX st exc) (hid' : wfIds { st with stop_orders := l }) :
    SWX { st with stop_orders := l } exc := by
  obtain ⟨hk, hs, hq, _⟩ := SWX_forall h
  refine SWX_intro (fun s => ?_) (fun s => ?_) (fun s kv hkv => ?_) hid'
  · unfold sideKeysWF
    rw [sideQueues_stopsUpd, sidePriceList_stopsUpd]
    exact hk s
  · unfold sideSyncWF
    simp only [sideQueues_stopsUpd, sidePriceList_stopsUpd]
    exact hs s
  · rw [sideQueues_stopsUpd] at hkv
    exact hq s kv hkv

theorem SWX_ordersUpd {st : OrderBook} {exc : Option (Side × Option Int)}
    (l : List (Nat × Order)) (h : SWX st exc) : SWX { st with orders := l } exc := by
  obtain ⟨hk, hs, hq, hid⟩ := SWX_forall h
  refine SWX_intro (fun s => ?_) (fun s => ?_) (fun s kv hkv => ?_)
    (wfIds_of_eq (bookIds_ordersUpd st l) (stopIds_ordersUpd st l) hid)
  · unfold sideKeysWF
    rw [sideQueues_ordersUpd, sidePriceList_ordersUpd]
    exact hk s
  · unfold sideSyncWF
    simp only [sideQueues_ordersUpd, sidePriceList_ordersUpd]
    exact hs s
  · rw [sideQueues_ordersUpd] at hkv
    exact hq s kv hkv

/-- Preservation induction over the interpreter: a completed internal call
keeps the structural invariant (with its excused level), only kills queue
entries that were already dead, only moves ids it was given, returns the
incoming order up to fill bookkeeping, and prices every returned trade at a
level of the opposing snapshot, within the incoming limit. -/
theorem enginePost : ∀ (n : Nat) (c : Call) (tr : List Trade) (o2 : Order)
    (st' : OrderBook), runF n c = .ok (tr, o2, st') → SWX c.state c.exc → c.fresh →
    SWX st' c.exc ∧ zeroRespect c.state st' ∧ idsPost c st' ∧ incPost c o2 ∧
      pricePost c tr := by
  intro n
  induction n with
  | zero => intro c tr o2 st' h _ _; cases h
  | succ m ih =>
    intro c tr o2 st' h hswx hfr
    match c with
    | .submit st o =>
      have hswx0 : SWX st none := hswx
      have hfr0 : o.id ∉ bookIds st ∧ o.id ∉ stopIds st := hfr
      simp only [Call.state, Call.exc]
      rw [runF_submit] at h
      unfold submitBody at h
      split at h
      · cases h
      · split at h
        · rename_i hqty hstop
          cases h
          have hb : bookIds { st with stop_orders := st.stop_orders ++ [o2] } = bookIds st :=
            bookIds_stopsUpd st _
          have hsids : stopIds { st with stop_orders := st.stop_orders ++ [o2] }
              = stopIds st ++ [o2.id] := by
            rw [stopIds_stopsUpd]
            simp [stopIds]
          have hwf : wfIds { st with stop_orders := st.stop_orders ++ [o2] } := by
            unfold wfIds
            rw [hb, hsids]
            exact nodup_append_snoc (SWX_forall hswx0).2.2.2 hfr0.1 hfr0.2
          refine ⟨SWX_stopsUpd _ hswx0 hwf, ?_, ⟨?_, ?_⟩, trivial, ?_⟩
          · intro s p o3 hm hz
            rw [queueAt_stopsUpd] at hm
            exact ⟨s, p, o3, hm, rfl, hz⟩
          · intro x hx
            rw [hb] at hx
            exact Or.inl hx
          · intro x hx
            rw [hsids] at hx
            rcases List.mem_append.mp hx with hx | hx
            · exact Or.inl hx
            · exact Or.inr (List.mem_singleton.mp hx)
          · intro hnm t ht
            cases ht
        · rename_i hqty hstop
          dsimp only at h
          split at h
          · cases h
          · rename_i o1 hoE
            have ho1 : o1.id = o.id ∧ o1.price = o.price ∧ o1.side = o.side ∧
                o1.type = o.type := by
              split at hoE
              · split at hoE
                · cases hoE
                · split at hoE
                  · cases hoE
                  · cases hoE
                    exact ⟨rfl, rfl, rfl, rfl⟩
              · cases hoE
                exact ⟨rfl, rfl, rfl, rfl⟩
            split at h
            · cases h
            · rename_i prices hpr
              have hsnap : ∀ z ∈ prices, z ∈ sidePriceList st o.side.flip := by
                split at hpr
                · rename_i hsb
                  cases hpr
                  intro z hz
                  have hob : o.side = .BUY := by rw [← ho1.2.2.1]; exact hsb
                  rw [hob]
                  exact hz
                · rename_i hsb
                  intro z hz
                  have hob : o.side = .SELL := by
                    have : o1.side = .SELL := by
                      cases hx : o1.side
                      · exact absurd hx hsb
                      · rfl
                    rw [← ho1.2.2.1]
                    exact this
                  rw [hob]
                  exact (sortedDescE_mem _ _ hpr z).mp hz
              cases hml : runF m (.matchLevels st o1 prices) with
              | error e => rw [hml] at h; cases h
              | ok r =>
                obtain ⟨tr0, o20, st2⟩ := r
                rw [hml] at h
                try dsimp only at h
                obtain ⟨hA, hZ, hI, hInc, hP⟩ := ih _ _ _ _ hml (by exact hswx0)
                  (by exact ⟨by rw [ho1.1]; exact hfr0.1, by rw [ho1.1]; exact hfr0.2⟩)
                have hpriceS : pricePost (.submit st o) tr0 := by
                  intro hnm t ht
                  obtain ⟨hmem, hbound⟩ := hP t ht
                  refine ⟨hsnap _ hmem, ?_⟩
                  intro w hw
                  obtain ⟨v, hv, hbb, hbs⟩ := hbound
                    ⟨by rw [ho1.2.2.2]; exact hnm.1, by rw [ho1.2.2.2]; exact hnm.2.1,
                      by rw [ho1.2.2.2]; exact hnm.2.2⟩ w (by rw [ho1.2.1]; exact hw)
                  exact ⟨v, hv, fun h2 => hbb (by rw [ho1.2.2.1]; exact h2),
                    fun h2 => hbs (by rw [ho1.2.2.1]; exact h2)⟩
                have hidsS : idsPost (.submit st o) st2 := by
                  refine ⟨fun x hx => ?_, fun x hx => ?_⟩
                  · rcases hI.1 x hx with hx | hx
                    · exact Or.inl hx
                    · exact Or.inr (Or.inl hx)
                  · exact Or.inl (hI.2 x hx)
                split at h
                · cases h
                  exact ⟨hA, hZ, hidsS, trivial, hpriceS⟩
                · split at h
                  · cases h
                    exact ⟨hA, hZ, hidsS, trivial, fun hnm t ht => absurd ht (by simp)⟩
                  · split at h
                    · rename_i hrem
                      split at h
                      · cases h
                      · rename_i st3 hadd
                        cases h
                        have hf20 : o2.id ∉ bookIds st2 := by
                          intro hx
                          rcases hI.1 _ hx with hx | hx
                          · exact hfr0.1 (by rw [← ho1.1, ← hInc.1]; exact hx)
                          · exact hfr0.2 (by rw [← ho1.1, ← hInc.1]; exact hx)
                        have hf21 : o2.id ∉ stopIds st2 := by
                          intro hx
                          exact hfr0.2 (by rw [← ho1.1, ← hInc.1]; exact hI.2 _ hx)
                        obtain ⟨hA3, hS3, hB3, hM3⟩ :=
                          addLimitE_preserves st2 o2 st' hadd hA hf20 hf21
                        refine ⟨hA3, ?_, ⟨?_, ?_⟩, trivial, hpriceS⟩
                        · intro s p y hy hz
                          rcases hM3 s p y hy with heq | hy2
                          · exfalso
                            rw [heq] at hz
                            have := remaining_nonneg o2
                            omega
                          · exact hZ s p y hy2 hz
                        · intro x hx
                          rcases hB3 x hx with hx | hx
                          · rcases hI.1 x hx with hx | hx
                            · exact Or.inl hx
                            · exact Or.inr (Or.inl hx)
                          · refine Or.inr (Or.inr ?_)
                            rw [hx, hInc.1, ho1.1]
                        · intro x hx
                          rw [hS3] at hx
                          exact Or.inl (hI.2 x hx)
                    · cases h
                      refine ⟨SWX_ordersUpd _ hA, ?_, ⟨?_, ?_⟩, trivial, hpriceS⟩
                      · intro s p y hy hz
                        rw [queueAt_ordersUpd] at hy
                        exact hZ s p y hy hz
                      · intro x hx
                        rw [bookIds_ordersUpd] at hx
                        rcases hI.1 x hx with hx | hx
                        · exact Or.inl hx
                        · exact Or.inr (Or.inl hx)
                      · intro x hx
                        rw [stopIds_ordersUpd] at hx
                        exact Or.inl (hI.2 x hx)
    | .triggerStops st last =>
      have hswx0 : SWX st none := hswx
      simp only [Call.state, Call.exc]
      rw [runF_triggerStops] at h
      unfold triggerBody at h
      split at h
      · cases h
      · rename_i trig remain hpart
        obtain ⟨hrem, htrig⟩ := triggerPartitionE_mem last _ _ _ hpart
        have hremsub : remain.Sublist st.stop_orders :=
          triggerPartitionE_remain_sublist last _ _ _ hpart
        have hidperm := triggerPartitionE_ids_perm last _ _ _ hpart
        have hw : wfIds st := (SWX_forall hswx0).2.2.2
        have hnd2 : (trig.map Order.id ++ remain.map Order.id).Nodup :=
          hidperm.nodup_iff.mpr (wfIds_stop_nodup hw)
        obtain ⟨htnd, hrnd, hdisj⟩ := List.nodup_append.mp hnd2
        have hmid : wfIds { st with stop_orders := remain } :=
          wfIds_stops_sub (hremsub.map Order.id) hw
        have htrigstop : ∀ x ∈ trig.map Order.id, x ∈ stopIds st := by
          intro x hx
          exact hidperm.subset (List.mem_append.mpr (Or.inl hx))
        have hremstop : ∀ x ∈ remain.map Order.id, x ∈ stopIds st := by
          intro x hx
          exact hidperm.subset (List.mem_append.mpr (Or.inr hx))
        obtain ⟨hA, hZ, hI, _, hP⟩ := ih _ _ _ _ h
          (by exact SWX_stopsUpd remain hswx0 hmid)
          (by
            refine ⟨htnd, fun o3 ho3 => ⟨?_, ?_⟩⟩
            · intro hx
              rw [bookIds_stopsUpd] at hx
              exact wfIds_book_stop_disjoint hw hx
                (htrigstop _ (List.mem_map_of_mem Order.id ho3))
            · intro hx
              rw [stopIds_stopsUpd] at hx
              exact hdisj (List.mem_map_of_mem Order.id ho3) hx)
        refine ⟨hA, ?_, ⟨?_, ?_⟩, trivial, hP⟩
        · intro s p y hy hz
          obtain ⟨s0, p0, y0, hm0, hi0, hz0⟩ := hZ s p y hy hz
          rw [queueAt_stopsUpd] at hm0
          exact ⟨s0, p0, y0, hm0, hi0, hz0⟩
        · intro x hx
          rcases hI.1 x hx with hx | hx | hx
          · rw [bookIds_stopsUpd] at hx
            exact Or.inl hx
          · rw [stopIds_stopsUpd] at hx
            exact Or.inr (hremstop x hx)
          · exact Or.inr (htrigstop x hx)
        · intro x hx
          rcases hI.2 x hx with hx | hx
          · rw [stopIds_stopsUpd] at hx
            exact hremstop x hx
          · exact htrigstop x hx
    | .triggerLoop st pend =>
      have hswx0 : SWX st none := hswx
      simp only [Call.state, Call.exc]
      have hfr0 : (pend.map Order.id).Nodup ∧
          ∀ o3 ∈ pend, o3.id ∉ bookIds st ∧ o3.id ∉ stopIds st := hfr
      rw [runF_triggerLoop] at h
      unfold triggerLoopBody at h
      cases pend with
      | nil =>
        cases h
        exact ⟨hswx0, zeroRespect_refl _, ⟨fun x hx => Or.inl hx, fun x hx => Or.inl hx⟩,
          trivial, rfl⟩
      | cons o rest =>
        dsimp only at h
        cases hsub : runF m (.submit st o) with
        | error e => rw [hsub] at h; cases h
        | ok r =>
          obtain ⟨tr1, o1r, st1⟩ := r
          rw [hsub] at h
          have hofr := hfr0.2 o (List.mem_cons_self o rest)
          obtain ⟨hA1, hZ1, hI1, _, _⟩ := ih _ _ _ _ hsub (by exact hswx0)
            (by exact hofr)
          have hndc : o.id ∉ rest.map Order.id ∧ (rest.map Order.id).Nodup := by
            have := hfr0.1
            simp only [List.map_cons, List.nodup_cons] at this
            exact this
          obtain ⟨hA2, hZ2, hI2, _, hP2⟩ := ih _ _ _ _ h (by exact hA1)
            (by
              refine ⟨hndc.2, fun o3 ho3 => ⟨?_, ?_⟩⟩
              · intro hx
                rcases hI1.1 _ hx with hx | hx | hx
                · exact (hfr0.2 o3 (List.mem_cons_of_mem o ho3)).1 hx
                · exact (hfr0.2 o3 (List.mem_cons_of_mem o ho3)).2 hx
                · exact hndc.1 (hx ▸ List.mem_map_of_mem Order.id ho3)
              · intro hx
                rcases hI1.2 _ hx with hx | hx
                · exact (hfr0.2 o3 (List.mem_cons_of_mem o ho3)).2 hx
                · exact hndc.1 (hx ▸ List.mem_map_of_mem Order.id ho3))
          refine ⟨hA2, zeroRespect_trans hZ1 hZ2, ⟨?_, ?_⟩, trivial, hP2⟩
          · intro x hx
            rcases hI2.1 x hx with hx | hx | hx
            · rcases hI1.1 x hx with hx | hx | hx
              · exact Or.inl hx
              · exact Or.inr (Or.inl hx)
              · exact Or.inr (Or.inr (by rw [hx]; simp))
            · rcases hI1.2 x hx with hx | hx
              · exact Or.inr (Or.inl hx)
              · exact Or.inr (Or.inr (by rw [hx]; simp))
            · exact Or.inr (Or.inr (by simp only [List.map_cons]; exact List.mem_cons_of_mem _ hx))
          · intro x hx
            rcases hI2.2 x hx with hx | hx
            · rcases hI1.2 x hx with hx | hx
              · exact Or.inl hx
              · exact Or.inr (by rw [hx]; simp)
            · exact Or.inr (by simp only [List.map_cons]; exact List.mem_cons_of_mem _ hx)
    | .matchLevels st inc prices =>
      have hswx0 : SWX st none := hswx
      have hfr0 : inc.id ∉ bookIds st ∧ inc.id ∉ stopIds st := hfr
      simp only [Call.state, Call.exc]
      cases prices with
      | nil =>
        rw [runF_matchLevels] at h
        unfold matchLevelsBody at h
        cases h
        exact ⟨hswx0, zeroRespect_refl _, ⟨fun x hx => Or.inl hx, fun x hx => hx⟩,
          ⟨rfl, rfl, rfl, rfl⟩, fun t ht => absurd ht (by simp)⟩
      | cons key rest =>
        rw [runF_matchLevels] at h
        unfold matchLevelsBody at h
        dsimp only at h
        split at h
        · cases h
          exact ⟨hswx0, zeroRespect_refl _, ⟨fun x hx => Or.inl hx, fun x hx => hx⟩,
            ⟨rfl, rfl, rfl, rfl⟩, fun t ht => absurd ht (by simp)⟩
        · rename_i hincrem
          split at h
          · cases h
          · rename_i pok hpok
            split at h
            · cases h
              exact ⟨hswx0, zeroRespect_refl _, ⟨fun x hx => Or.inl hx, fun x hx => hx⟩,
                ⟨rfl, rfl, rfl, rfl⟩, fun t ht => absurd ht (by simp)⟩
            · rename_i hpokne
              have hpokt : pok = true := by
                cases pok
                · exact absurd rfl hpokne
                · rfl
              subst hpokt
              cases hmi : runF m (.matchInner st inc key 0) with
              | error e => rw [hmi] at h; cases h
              | ok r1 =>
                obtain ⟨tr1, inc1, st1⟩ := r1
                rw [hmi] at h
                try dsimp only at h
                obtain ⟨hA1, hZ1, hI1, hInc1, hP1⟩ := ih _ _ _ _ hmi
                  (by exact SWX_weaken hswx0) (by exact hfr0)
                cases hcl : levelCleanupE st1 inc.side.flip key with
                | error e => rw [hcl] at h; cases h
                | ok st2 =>
                  rw [hcl] at h
                  try dsimp only at h
                  obtain ⟨hA2, hB2, hS2, hM2⟩ :=
                    levelCleanupE_preserves st1 inc.side.flip key st2 hcl (by exact hA1)
                  cases hml2 : runF m (.matchLevels st2 inc1 rest) with
                  | error e => rw [hml2] at h; cases h
                  | ok r2 =>
                    obtain ⟨tr2, inc2, st3⟩ := r2
                    rw [hml2] at h
                    cases h
                    obtain ⟨hA3, hZ3, hI3, hInc3, hP3⟩ := ih _ _ _ _ hml2 (by exact hA2)
                      (by
                        constructor
                        · intro hx
                          rw [hInc1.1, hB2] at hx
                          rcases hI1.1 _ hx with hx | hx
                          · exact hfr0.1 hx
                          · exact hfr0.2 hx
                        · intro hx
                          rw [hInc1.1, hS2] at hx
                          exact hfr0.2 (hI1.2 _ hx))
                    have hZ12 : zeroRespect st1 st2 :=
                      fun s p y hm hz => ⟨s, p, y, hM2 s p y hm, rfl, hz⟩
                    refine ⟨hA3, zeroRespect_trans (zeroRespect_trans hZ1 hZ12) hZ3,
                      ⟨?_, ?_⟩, ?_, ?_⟩
                    · intro x hx
                      rcases hI3.1 x hx with hx | hx
                      · rw [hB2] at hx
                        exact hI1.1 x hx
                      · rw [hS2] at hx
                        exact Or.inr (hI1.2 x hx)
                    · intro x hx
                      have hx1 := hI3.2 x hx
                      rw [hS2] at hx1
                      exact hI1.2 x hx1
                    · exact ⟨hInc3.1.trans hInc1.1, hInc3.2.1.trans hInc1.2.1,
                        hInc3.2.2.1.trans hInc1.2.2.1, hInc3.2.2.2.trans hInc1.2.2.2⟩
                    · intro t ht
                      rcases List.mem_append.mp ht with ht | ht
                      · have hkey := hP1 t ht
                        refine ⟨by rw [hkey]; exact List.mem_cons_self key rest, ?_⟩
                        intro hnm w hw
                        rw [if_neg (by
                          intro hor
                          rcases hor with h1 | h1 | h1
                          · exact hnm.1 h1
                          · exact hnm.2.1 h1
                          · exact hnm.2.2 h1)] at hpok
                        cases hside : inc.side
                        · rw [hside, if_pos rfl] at hpok
                          obtain ⟨v, w0, hkv, hpw, hle⟩ := cmpLe_ok_true _ _ hpok
                          refine ⟨v, by rw [hkey]; exact hkv, fun _ => ?_, fun hc => ?_⟩
                          · rw [hw] at hpw
                            injection hpw with hww
                            omega
                          · cases hc
                        · rw [hside, if_neg (by decide)] at hpok
                          obtain ⟨v, w0, hkv, hpw, hge⟩ := cmpGe_ok_true _ _ hpok
                          refine ⟨v, by rw [hkey]; exact hkv, fun hc => ?_, fun _ => ?_⟩
                          · cases hc
                          · rw [hw] at hpw
                            injection hpw with hww
                            omega
                      · obtain ⟨hmem, hbound⟩ := hP3 t ht
                        refine ⟨List.mem_cons_of_mem key hmem, ?_⟩
                        intro hnm w hw
                        obtain ⟨v, hv, hbb, hbs⟩ := hbound
                          ⟨by rw [hInc1.2.2.2]; exact hnm.1,
                            by rw [hInc1.2.2.2]; exact hnm.2.1,
                            by rw [hInc1.2.2.2]; exact hnm.2.2⟩ w
                          (by rw [hInc1.2.1]; exact hw)
                        exact ⟨v, hv, fun h2 => hbb (by rw [hInc1.2.2.1]; exact h2),
                          fun h2 => hbs (by rw [hInc1.2.2.1]; exact h2)⟩
    | .matchInner st inc key i =>
      have hswx0 : SWX st (some (inc.side.flip, key)) := hswx
      have hfr0 : inc.id ∉ bookIds st ∧ inc.id ∉ stopIds st := hfr
      simp only [Call.state, Call.exc]
      rw [runF_matchInner] at h
      unfold matchInnerBody at h
      dsimp only at h
      split at h
      · cases h
      · rename_i q hlk
        split at h
        · rename_i hilen
          split at h
          · cases h
            exact ⟨hswx0, zeroRespect_refl _, ⟨fun x hx => Or.inl hx, fun x hx => hx⟩,
              ⟨rfl, rfl, rfl, rfl⟩, fun t ht => absurd ht (by simp)⟩
          · rename_i hincrem
            split at h
            · exact ih (.matchInner st inc key (i + 1)) _ _ _ h hswx hfr
            · rename_i hrlive
              have hrpr : (q.get ⟨i, hilen⟩).price = key :=
                ((SWX_forall hswx0).2.2.1 inc.side.flip (key, q)
                  (alookup_mem _ key q hlk)).2 _ (List.getElem_mem hilen)
              split at h
              · cases h
              · rename_i rT1 rT2 st4 heqT
                obtain ⟨hA3, hB3, hS3, hqa1, hqa2, hqa3⟩ :=
                  tradeUpd_preserves st inc.side.flip key q i
                    ((q.get ⟨i, hilen⟩).fill (min inc.remaining (q.get ⟨i, hilen⟩).remaining))
                    { buy_order_id := if inc.side = .BUY then inc.id else (q.get ⟨i, hilen⟩).id
                    , sell_order_id := if inc.side = .BUY then (q.get ⟨i, hilen⟩).id else inc.id
                    , price := (q.get ⟨i, hilen⟩).price
                    , quantity := min inc.remaining (q.get ⟨i, hilen⟩).remaining
                    , timestamp := st.seq }
                    hilen hswx0 hlk rfl (by rw [fill_price]; exact hrpr)
                obtain ⟨hA4, hZ4, hI4, _, _⟩ := ih _ _ _ _ heqT (by exact hA3) trivial
                simp only [Call.state] at hZ4
                have hwf4 : wfIds st4 := (SWX_forall hA4).2.2.2
                split at h
                · cases h
                · rename_i q4 hlk4
                  split at h
                  · cases h
                  · rename_i r4 hfind
                    obtain ⟨hr4m, hr4id⟩ := findId_eq_some q4 _ r4 hfind
                    have hq4nd : (q4.map Order.id).Nodup :=
                      queue_ids_nodup_of_lookup hwf4 hlk4
                    have hr4q : r4 ∈ queueAt st4 inc.side.flip key :=
                      (mem_queueAt st4 inc.side.flip key r4).mpr ⟨q4, hlk4, hr4m⟩
                    have hfresh4 : inc.id ∉ bookIds st4 ∧ inc.id ∉ stopIds st4 := by
                      constructor
                      · intro hx
                        rcases hI4.1 _ hx with hx | hx
                        · rw [hB3] at hx
                          exact hfr0.1 hx
                        · rw [hS3] at hx
                          exact hfr0.2 hx
                      · intro hx
                        have hx1 := hI4.2 _ hx
                        rw [hS3] at hx1
                        exact hfr0.2 hx1
                    split at h
                    · rename_i hr4z
                      split at h
                      · cases h
                      · rename_i trR incR stR heqR
                        cases h
                        obtain ⟨hA5, hM5, hS5, hqb1, hqb2, hqb3⟩ :=
                          eraseUpd_preserves st4 inc.side.flip key q4 ((q.get ⟨i, hilen⟩).id)
                            (by exact hA4) hlk4
                        obtain ⟨hAR, hZR, hIR, hIncR, hPR⟩ := ih _ _ _ _ heqR
                          (by exact hA5)
                          (by
                            constructor
                            · intro hx
                              exact hfresh4.1 (hM5 _ hx)
                            · intro hx
                              rw [hS5] at hx
                              exact hfresh4.2 hx)
                        simp only [Call.state] at hZR
                        refine ⟨by exact hAR, ?_, ⟨?_, ?_⟩, by exact hIncR, ?_⟩
                        · intro s p y hy hz
                          obtain ⟨s5, p5, y5, hm5, hid5, hz5⟩ := hZR s p y hy hz
                          have hmain : y5 ∈ queueAt st4 s5 p5 ∧ y5.id ≠ (q.get ⟨i, hilen⟩).id := by
                            by_cases hs5 : s5 = inc.side.flip
                            · subst hs5
                              by_cases hp5 : p5 = key
                              · subst hp5
                                rw [hqb1] at hm5
                                exact ⟨(mem_queueAt st4 inc.side.flip p5 y5).mpr
                                    ⟨q4, hlk4, mem_eraseFirstId _ _ _ hm5⟩,
                                  mem_eraseFirstId_id_ne _ q4 hq4nd y5 hm5⟩
                              · rw [hqb2 p5 hp5] at hm5
                                refine ⟨hm5, ?_⟩
                                intro hidr
                                obtain ⟨_, _, hpeq⟩ := queueAt_id_unique hwf4 inc.side.flip p5 y5
                                  hm5 inc.side.flip key r4 hr4q (by rw [hidr, hr4id])
                                exact hp5 hpeq
                            · rw [hqb3 s5 p5 hs5] at hm5
                              refine ⟨hm5, ?_⟩
                              intro hidr
                              obtain ⟨_, hseq, _⟩ := queueAt_id_unique hwf4 s5 p5 y5
                                hm5 inc.side.flip key r4 hr4q (by rw [hidr, hr4id])
                              exact hs5 hseq
                          obtain ⟨s3, p3, y3, hm3, hid3, hz3⟩ :=
                            hZ4 s5 p5 y5 hmain.1 hz5
                          have hy3ne : y3.id ≠ (q.get ⟨i, hilen⟩).id := by
                            rw [hid3]
                            exact hmain.2
                          by_cases hs3 : s3 = inc.side.flip
                          · subst hs3
                            by_cases hp3 : p3 = key
                            · subst hp3
                              rw [hqa1] at hm3
                              rcases List.mem_or_eq_of_mem_set hm3 with hm3 | rfl
                              · refine ⟨inc.side.flip, p3, y3, ?_, hid3.trans hid5, hz3⟩
                                unfold queueAt
                                rw [hlk]
                                exact hm3
                              · exact absurd rfl hy3ne
                            · rw [hqa2 p3 hp3] at hm3
                              exact ⟨inc.side.flip, p3, y3, hm3, hid3.trans hid5, hz3⟩
                          · rw [hqa3 s3 p3 hs3] at hm3
                            exact ⟨s3, p3, y3, hm3, hid3.trans hid5, hz3⟩
                        · intro x hx
                          rcases hIR.1 x hx with hx | hx
                          · have hx4 := hM5 _ hx
                            rcases hI4.1 _ hx4 with hx4 | hx4
                            · rw [hB3] at hx4
                              exact Or.inl hx4
                            · rw [hS3] at hx4
                              exact Or.inr hx4
                          · rw [hS5] at hx
                            have hx1 := hI4.2 _ hx
                            rw [hS3] at hx1
                            exact Or.inr hx1
                        · intro x hx
                          have hx5 := hIR.2 x hx
                          rw [hS5] at hx5
                          have hx1 := hI4.2 _ hx5
                          rw [hS3] at hx1
                          exact hx1
                        · intro t2 ht2
                          rcases List.mem_cons.mp ht2 with rfl | ht2
                          · exact hrpr
                          · exact hPR t2 ht2
                    · rename_i hr4nz
                      split at h
                      · cases h
                      · rename_i trR incR stR heqR
                        cases h
                        obtain ⟨hAR, hZR, hIR, hIncR, hPR⟩ := ih _ _ _ _ heqR
                          (by exact SWX_weaken hA4) (by exact hfresh4)
                        simp only [Call.state] at hZR
                        refine ⟨by exact hAR, ?_, ⟨?_, ?_⟩, by exact hIncR, ?_⟩
                        · intro s p y hy hz
                          obtain ⟨s4, p4, y4, hm4, hid4, hz4⟩ := hZR s p y hy hz
                          have hy4ne : y4.id ≠ (q.get ⟨i, hilen⟩).id := by
                            intro hidr
                            obtain ⟨hey, _, _⟩ := queueAt_id_unique hwf4 s4 p4 y4 hm4
                              inc.side.flip key r4 hr4q (by rw [hidr, hr4id])
                            subst hey
                            have := remaining_nonneg y4
                            omega
                          obtain ⟨s3, p3, y3, hm3, hid3, hz3⟩ := hZ4 s4 p4 y4 hm4 hz4
                          have hy3ne : y3.id ≠ (q.get ⟨i, hilen⟩).id := by
                            rw [hid3]
                            exact hy4ne
                          by_cases hs3 : s3 = inc.side.flip
                          · subst hs3
                            by_cases hp3 : p3 = key
                            · subst hp3
                              rw [hqa1] at hm3
                              rcases List.mem_or_eq_of_mem_set hm3 with hm3 | rfl
                              · refine ⟨inc.side.flip, p3, y3, ?_, hid3.trans hid4, hz3⟩
                                unfold queueAt
                                rw [hlk]
                                exact hm3
                              · exact absurd rfl hy3ne
                            · rw [hqa2 p3 hp3] at hm3
                              exact ⟨inc.side.flip, p3, y3, hm3, hid3.trans hid4, hz3⟩
                          · rw [hqa3 s3 p3 hs3] at hm3
                            exact ⟨s3, p3, y3, hm3, hid3.trans hid4, hz3⟩
                        · intro x hx
                          rcases hIR.1 x hx with hx | hx
                          · rcases hI4.1 _ hx with hx | hx
                            · rw [hB3] at hx
                              exact Or.inl hx
                            · rw [hS3] at hx
                              exact Or.inr hx
                          · have hx1 := hI4.2 _ hx
                            rw [hS3] at hx1
                            exact Or.inr hx1
                        · intro x hx
                          have hx4 := hIR.2 x hx
                          have hx1 := hI4.2 _ hx4
                          rw [hS3] at hx1
                          exact hx1
                        · intro t2 ht2
                          rcases List.mem_cons.mp ht2 with rfl | ht2
                          · exact hrpr
                          · exact hPR t2 ht2
        · rename_i hilen
          cases h
          exact ⟨hswx0, zeroRespect_refl _, ⟨fun x hx => Or.inl hx, fun x hx => hx⟩,
            ⟨rfl, rfl, rfl, rfl⟩, fun t ht => absurd ht (by simp)⟩

theorem wfPos_queueAt {st : OrderBook} (hp : wfPos st) :
    ∀ s p o, o ∈ queueAt st s p → 0 < o.remaining := by
  intro s p o hm
  obtain ⟨q, hl, ho⟩ := (mem_queueAt st s p o).mp hm
  have hmem := alookup_mem _ p q hl
  cases s
  · exact hp.1 (p, q) hmem o ho
  · exact hp.2 (p, q) hmem o ho

theorem wfPos_of_zeroRespect {st st' : OrderBook} (hZ : zeroRespect st st')
    (hp : wfPos st) (hk' : ∀ s, sideKeysWF st' s) : wfPos st' := by
  constructor
  · intro kv hkv o3 ho3
    by_contra hle
    have hle2 : o3.remaining ≤ 0 := by omega
    have hm : o3 ∈ queueAt st' .BUY kv.1 := (mem_queueAt st' .BUY kv.1 o3).mpr
      ⟨kv.2, alookup_of_mem_nodup _ (hk' .BUY).1 kv hkv, ho3⟩
    obtain ⟨s0, p0, o0, hm0, _, hz0⟩ := hZ .BUY kv.1 o3 hm hle2
    have := wfPos_queueAt hp s0 p0 o0 hm0
    omega
  · intro kv hkv o3 ho3
    by_contra hle
    have hle2 : o3.remaining ≤ 0 := by omega
    have hm : o3 ∈ queueAt st' .SELL kv.1 := (mem_queueAt st' .SELL kv.1 o3).mpr
      ⟨kv.2, alookup_of_mem_nodup _ (hk' .SELL).1 kv hkv, ho3⟩
    obtain ⟨s0, p0, o0, hm0, _, hz0⟩ := hZ .SELL kv.1 o3 hm hle2
    have := wfPos_queueAt hp s0 p0 o0 hm0
    omega

theorem BookInv_of_SWX_pos {st : OrderBook} (h : SWX st none) (hp : wfPos st) :
    BookInv st := by
  obtain ⟨hk, hs, hq, _⟩ := SWX_forall h
  refine ⟨fun p => ⟨fun hpm => ?_, fun hex => ?_⟩, fun p => ⟨fun hpm => ?_, fun hex => ?_⟩, hp⟩
  · obtain ⟨q, hq0⟩ := Option.isSome_iff_exists.mp ((hs .BUY).1 p hpm)
    refine ⟨q, hq0, fun he => ?_⟩
    exact absurd ((hq .BUY (p, q) (alookup_mem _ p q hq0)).1 he) (by simp)
  · obtain ⟨q, hq0, _⟩ := hex
    exact (hs .BUY).2 (p, q) (alookup_mem _ p q hq0)
  · obtain ⟨q, hq0⟩ := Option.isSome_iff_exists.mp ((hs .SELL).1 p hpm)
    refine ⟨q, hq0, fun he => ?_⟩
    exact absurd ((hq .SELL (p, q) (alookup_mem _ p q hq0)).1 he) (by simp)
  · obtain ⟨q, hq0, _⟩ := hex
    exact (hs .SELL).2 (p, q) (alookup_mem _ p q hq0)

theorem removeFirst_mem_nodup : ∀ (l : List (Option Int)) (x : Option Int), l.Nodup →
    ∀ y, y ∈ removeFirst x l ↔ y ∈ l ∧ y ≠ x := by
  intro l
  induction l with
  | nil => intro x _ y; simp [removeFirst]
  | cons a as ih =>
    intro x hnd y
    obtain ⟨hna, hnd2⟩ := List.nodup_cons.mp hnd
    unfold removeFirst
    split
    · rename_i hax
      subst hax
      constructor
      · intro hy
        exact ⟨List.mem_cons_of_mem a hy, fun he => hna (he ▸ hy)⟩
      · intro ⟨hy, hne⟩
        rcases List.mem_cons.mp hy with rfl | hy
        · exact absurd rfl hne
        · exact hy
    · rename_i hax
      rw [List.mem_cons, ih x hnd2 y, List.mem_cons]
      constructor
      · intro hy
        rcases hy with rfl | ⟨hy, hne⟩
        · exact ⟨Or.inl rfl, fun he => hax he⟩
        · exact ⟨Or.inr hy, hne⟩
      · intro ⟨hy, hne⟩
        rcases hy with rfl | hy
        · exact Or.inl rfl
        · exact Or.inr ⟨hy, hne⟩

/-- C9: after every completed engine operation — a submission (with all its
stop cascades) or a removal — each side's price list names a price exactly when
that side's queue at the price is non-empty, and every queued order has
positive remaining quantity.  Submissions moreover re-establish the full
structural invariant. -/
theorem C9_book_side_invariant :
    (∀ (fuel : Nat) (st : OrderBook) (o : Order) (tr : List Trade) (st' : OrderBook),
      SWX st none → wfPos st → o.id ∉ bookIds st → o.id ∉ stopIds st →
      submit_order fuel st o = .ok (tr, st') → BookInv st' ∧ SWX st' none) ∧
    (∀ (st : OrderBook) (oid : Nat) (st' : OrderBook),
      SWX st none → wfPos st → cancel st oid = .ok st' → BookInv st') := by
  constructor
  · intro fuel st o tr st' hswx hpos hf1 hf2 h
    unfold submit_order at h
    cases hr : runF fuel (.submit st o) with
    | error e => rw [hr] at h; cases h
    | ok r =>
      obtain ⟨tr0, o2r, st1⟩ := r
      rw [hr] at h
      cases h
      obtain ⟨hA, hZ, _, _, _⟩ := enginePost fuel (.submit st o) tr o2r st' hr
        (by exact hswx) (by exact ⟨hf1, hf2⟩)
      have hA' : SWX st' none := hA
      have hZ' : zeroRespect st st' := hZ
      have hpos' : wfPos st' := wfPos_of_zeroRespect hZ' hpos (SWX_forall hA').1
      exact ⟨BookInv_of_SWX_pos hA' hpos', hA'⟩
  · intro st oid st' hswx hpos h
    obtain ⟨hk, hs, hq, hid⟩ := SWX_forall hswx
    have hBI := BookInv_of_SWX_pos hswx hpos
    unfold cancel at h
    split at h
    · rename_i o hfo
      obtain ⟨kv, hkv, ho, hoid⟩ := findInQueues_eq_some st.buys oid o hfo
      have hkb : (List.map Prod.fst st.buys).Nodup := (hk .BUY).1
      have halk : alookup st.buys kv.1 = some kv.2 :=
        alookup_of_mem_nodup _ hkb kv hkv
      have hop : o.price = kv.1 := (hq .BUY kv hkv).2 o ho
      have halk2 : alookup st.buys o.price = some kv.2 := by rw [hop]; exact halk
      have hkvne : kv.2 ≠ [] := List.ne_nil_of_mem ho
      dsimp only at h
      rw [halk2] at h
      simp only [Option.getD_some] at h
      split at h
      · rename_i hempty
        cases h
        refine ⟨fun p => ⟨fun hpm => ?_, fun hex => ?_⟩, hBI.2.1, ?_, ?_⟩
        · obtain ⟨hpbp, hpne⟩ := (removeFirst_mem_nodup _ _ (hk .BUY).2 p).mp hpm
          obtain ⟨q0, hq0, hqne⟩ := (hBI.1 p).mp hpbp
          exact ⟨q0, by rw [alookup_adel_ne _ _ _ (fun he => hpne he.symm)]; exact hq0, hqne⟩
        · obtain ⟨q', hl', hne'⟩ := hex
          have hpne : p ≠ o.price := by
            intro he
            subst he
            rw [alookup_adel_self st.buys o.price hkb] at hl'
            cases hl'
          rw [alookup_adel_ne _ _ _ (fun he => hpne he.symm)] at hl'
          exact (removeFirst_mem_nodup _ _ (hk .BUY).2 p).mpr
            ⟨(hBI.1 p).mpr ⟨q', hl', hne'⟩, hpne⟩
        · intro kv' hkv' o3 ho3
          exact hpos.1 kv' ((adel_sublist _ _).subset hkv') o3 ho3
        · exact hpos.2
      · rename_i hnempty
        cases h
        have hq2ne : kv.2.filter (fun x => x.id ≠ oid) ≠ [] := by
          intro he
          exact hnempty (by rw [he]; rfl)
        refine ⟨fun p => ⟨fun hpm => ?_, fun hex => ?_⟩, hBI.2.1, ?_, ?_⟩
        · by_cases hpk : p = o.price
          · subst hpk
            exact ⟨_, alookup_aset_self _ _ _, hq2ne⟩
          · obtain ⟨q0, hq0, hqne⟩ := (hBI.1 p).mp hpm
            exact ⟨q0, by
              rw [alookup_aset_ne _ _ _ _ (fun he => hpk he.symm)]
              exact hq0, hqne⟩
        · by_cases hpk : p = o.price
          · subst hpk
            exact (hBI.1 _).mpr ⟨kv.2, halk2, hkvne⟩
          · obtain ⟨q', hl', hne'⟩ := hex
            rw [alookup_aset_ne _ _ _ _ (fun he => hpk he.symm)] at hl'
            exact (hBI.1 p).mpr ⟨q', hl', hne'⟩
        · intro kv' hkv' o3 ho3
          rcases mem_aset _ _ _ _ hkv' with rfl | hkv'
          · exact hpos.1 kv hkv o3 (List.mem_of_mem_filter ho3)
          · exact hpos.1 kv' hkv' o3 ho3
        · exact hpos.2
    · rename_i hfo
      split at h
      · rename_i o hfo2
        obtain ⟨kv, hkv, ho, hoid⟩ := findInQueues_eq_some st.sells oid o hfo2
        have hks : (List.map Prod.fst st.sells).Nodup := (hk .SELL).1
        have halk : alookup st.sells kv.1 = some kv.2 :=
          alookup_of_mem_nodup _ hks kv hkv
        have hop : o.price = kv.1 := (hq .SELL kv hkv).2 o ho
        have halk2 : alookup st.sells o.price = some kv.2 := by rw [hop]; exact halk
        have hkvne : kv.2 ≠ [] := List.ne_nil_of_mem ho
        dsimp only at h
        rw [halk2] at h
        simp only [Option.getD_some] at h
        split at h
        · rename_i hempty
          cases h
          refine ⟨hBI.1, fun p => ⟨fun hpm => ?_, fun hex => ?_⟩, ?_, ?_⟩
          · obtain ⟨hpbp, hpne⟩ := (removeFirst_mem_nodup _ _ (hk .SELL).2 p).mp hpm
            obtain ⟨q0, hq0, hqne⟩ := (hBI.2.1 p).mp hpbp
            exact ⟨q0, by rw [alookup_adel_ne _ _ _ (fun he => hpne he.symm)]; exact hq0, hqne⟩
          · obtain ⟨q', hl', hne'⟩ := hex
            have hpne : p ≠ o.price := by
              intro he
              subst he
              rw [alookup_adel_self st.sells o.price hks] at hl'
              cases hl'
            rw [alookup_adel_ne _ _ _ (fun he => hpne he.symm)] at hl'
            exact (removeFirst_mem_nodup _ _ (hk .SELL).2 p).mpr
              ⟨(hBI.2.1 p).mpr ⟨q', hl', hne'⟩, hpne⟩
          · exact hpos.1
          · intro kv' hkv' o3 ho3
            exact hpos.2 kv' ((adel_sublist _ _).subset hkv') o3 ho3
        · rename_i hnempty
          cases h
          have hq2ne : kv.2.filter (fun x => x.id ≠ oid) ≠ [] := by
            intro he
            exact hnempty (by rw [he]; rfl)
          refine ⟨hBI.1, fun p => ⟨fun hpm => ?_, fun hex => ?_⟩, ?_, ?_⟩
          · by_cases hpk : p = o.price
            · subst hpk
              exact ⟨_, alookup_aset_self _ _ _, hq2ne⟩
            · obtain ⟨q0, hq0, hqne⟩ := (hBI.2.1 p).mp hpm
              exact ⟨q0, by
                rw [alookup_aset_ne _ _ _ _ (fun he => hpk he.symm)]
                exact hq0, hqne⟩
          · by_cases hpk : p = o.price
            · subst hpk
              exact (hBI.2.1 _).mpr ⟨kv.2, halk2, hkvne⟩
            · obtain ⟨q', hl', hne'⟩ := hex
              rw [alookup_aset_ne _ _ _ _ (fun he => hpk he.symm)] at hl'
              exact (hBI.2.1 p).mpr ⟨q', hl', hne'⟩
          · exact hpos.1
          · intro kv' hkv' o3 ho3
            rcases mem_aset _ _ _ _ hkv' with rfl | hkv'
            · exact hpos.2 kv hkv o3 (List.mem_of_mem_filter ho3)
            · exact hpos.2 kv' hkv' o3 ho3
      · rename_i hfo2
        split at h
        · cases h
          exact ⟨hBI.1, hBI.2.1, hBI.2.2⟩
        · cases h

/-- C7: every trade returned for an incoming Limit order executes at a price
drawn from the opposing side's price list as it stood at submission (the
resting side's level), and that price never exceeds a Buy's limit nor
undercuts a Sell's limit. -/
theorem C7_limit_price_bounds :
    ∀ (fuel : Nat) (st : OrderBook) (o : Order) (p : Int) (tr : List Trade)
      (st' : OrderBook),
      SWX st none → o.id ∉ bookIds st → o.id ∉ stopIds st →
      o.type = .LIMIT → o.price = some p →
      submit_order fuel st o = .ok (tr, st') →
      ∀ t ∈ tr, ∃ v, t.price = some v ∧ t.price ∈ sidePriceList st o.side.flip ∧
        (o.side = .BUY → v ≤ p) ∧ (o.side = .SELL → p ≤ v) := by
  intro fuel st o p tr st' hswx hf1 hf2 hty hpr h t ht
  unfold submit_order at h
  cases hr : runF fuel (.submit st o) with
  | error e => rw [hr] at h; cases h
  | ok r =>
    obtain ⟨tr0, o2r, st1⟩ := r
    rw [hr] at h
    cases h
    obtain ⟨_, _, _, _, hP⟩ := enginePost fuel (.submit st o) tr o2r st' hr
      (by exact hswx) (by exact ⟨hf1, hf2⟩)
    have hP' : pricePost (.submit st o) tr := hP
    obtain ⟨hmem, hbound⟩ := hP' ⟨by rw [hty]; decide, by rw [hty]; decide,
      by rw [hty]; decide⟩ t ht
    obtain ⟨v, hv, hb, hsl⟩ := hbound p hpr
    exact ⟨v, hv, hmem, hb, hsl⟩

/-- Witness for C9 at concrete inputs: submitting a Limit Buy into the empty
book and then cancelling it, each step preserving the book-side invariant. -/
theorem C9_book_side_invariant_witness :
    (BookInv c9After ∧ SWX c9After none) ∧ BookInv OrderBook.empty :=
  ⟨C9_book_side_invariant.1 10 OrderBook.empty c9Order [] c9After
      (by decide) (by decide) (by decide) (by decide) (by decide),
    C9_book_side_invariant.2 c9After 901 OrderBook.empty
      (by decide) (by decide) (by decide)⟩

/-- Witness for C7 at a concrete input: a Limit Buy 40@105 against a resting
Sell 30@100 trades at 100, within its limit and at a listed opposing level. -/
theorem C7_limit_price_bounds_witness :
    ∃ v, c7T.price = some v ∧ c7T.price ∈ sidePriceList fokBook c7Buy.side.flip ∧
      (c7Buy.side = .BUY → v ≤ 105) ∧ (c7Buy.side = .SELL → 105 ≤ v) :=
  C7_limit_price_bounds 30 fokBook c7Buy 105 [c7T] c7After (by decide) (by decide)
    (by decide) (by decide) (by decide) (by decide) c7T (by decide)

theorem FillOf_refl (x : Order) : FillOf x x :=
  ⟨rfl, rfl, rfl, rfl, rfl, le_refl _⟩

theorem FillOf_trans {x y z : Order} (h1 : FillOf x y) (h2 : FillOf y z) :
    FillOf x z :=
  ⟨h2.1.trans h1.1, h2.2.1.trans h1.2.1, h2.2.2.1.trans h1.2.2.1,
    h2.2.2.2.1.trans h1.2.2.2.1, h2.2.2.2.2.1.trans h1.2.2.2.2.1,
    h1.2.2.2.2.2.trans h2.2.2.2.2.2⟩

theorem FillOf_fill (o : Order) (qty : Int) (h : 0 ≤ qty) :
    FillOf o (o.fill qty) := by
  refine ⟨rfl, rfl, rfl, rfl, rfl, ?_⟩
  show o.filled ≤ o.filled + min qty o.remaining
  have h2 : (0 : Int) ≤ min qty o.remaining := le_min h (remaining_nonneg o)
  omega

theorem QRes_refl (q : List Order) : QRes q q := ⟨0, Or.inl rfl⟩

theorem QRes_of_eq {q q' : List Order} (h : q = q') : QRes q q' := ⟨0, Or.inl h⟩

theorem QRes_cons_left {t q' : List Order} (x : Order) (h : QRes t q') :
    QRes (x :: t) q' := by
  obtain ⟨m, hm⟩ := h
  exact ⟨m + 1, hm⟩

theorem QRes_trans {a b c : List Order} (h1 : QRes a b) (h2 : QRes b c) :
    QRes a c := by
  obtain ⟨m1, h1⟩ := h1
  obtain ⟨m2, h2⟩ := h2
  rcases h1 with h1 | ⟨x, xs, y, ha, hb, hf⟩
  · rcases h2 with h2 | ⟨x2, xs2, y2, hb2, hc2, hf2⟩
    · exact ⟨m1 + m2, Or.inl (by rw [← List.drop_drop, h1, h2])⟩
    · exact ⟨m1 + m2,
        Or.inr ⟨x2, xs2, y2, by rw [← List.drop_drop, h1, hb2], hc2, hf2⟩⟩
  · subst hb
    have hx : a.drop (m1 + 1) = xs := by rw [← List.drop_drop, ha]; rfl
    cases m2 with
    | zero =>
      rcases h2 with h2 | ⟨x2, xs2, y2, hb2, hc2, hf2⟩
      · have h2e : y :: xs = c := h2
        exact ⟨m1, Or.inr ⟨x, xs, y, ha, h2e.symm, hf⟩⟩
      · have hb2e : y :: xs = x2 :: xs2 := hb2
        injection hb2e with he1 he2
        subst he2
        rw [← he1] at hf2
        exact ⟨m1, Or.inr ⟨x, xs, y2, ha, hc2, FillOf_trans hf hf2⟩⟩
    | succ k =>
      have hdropa : a.drop (m1 + 1 + k) = xs.drop k := by
        rw [← List.drop_drop, hx]
      rcases h2 with h2 | ⟨x2, xs2, y2, hb2, hc2, hf2⟩
      · have h2e : xs.drop k = c := h2
        exact ⟨m1 + 1 + k, Or.inl (hdropa.trans h2e)⟩
      · have hb2e : xs.drop k = x2 :: xs2 := hb2
        exact ⟨m1 + 1 + k,
          Or.inr ⟨x2, xs2, y2, hdropa.trans hb2e, hc2, hf2⟩⟩

/-! Positional lemmas for queue slot updates. -/

theorem get_mem_of_lt (q : List Order) (i : Nat) (h : i < q.length) :
    q.get ⟨i, h⟩ ∈ q := by
  rw [List.get_eq_getElem]
  exact List.getElem_mem h

theorem get_cons_drop_eq (q : List Order) (i : Nat) (h : i < q.length) :
    q.get ⟨i, h⟩ :: q.drop (i + 1) = q.drop i := by
  rw [List.get_eq_getElem]
  exact List.getElem_cons_drop q i h

theorem findId_set : ∀ (q : List Order) (i : Nat) (hi : i < q.length) (r2 : Order),
    (q.map Order.id).Nodup → r2.id = (q.get ⟨i, hi⟩).id →
    findId (q.get ⟨i, hi⟩).id (q.set i r2) = some r2 := by
  intro q
  induction q with
  | nil => intro i hi; simp at hi
  | cons a as ih =>
    intro i hi r2 hnd hid
    rw [List.map_cons, List.nodup_cons] at hnd
    cases i with
    | zero =>
      show findId a.id (r2 :: as) = some r2
      unfold findId
      have hida : r2.id = a.id := hid
      rw [if_pos hida]
    | succ j =>
      have hj : j < as.length := Nat.lt_of_succ_lt_succ hi
      have hid2 : r2.id = (as.get ⟨j, hj⟩).id := hid
      have hne : a.id ≠ (as.get ⟨j, hj⟩).id := fun he =>
        hnd.1 (by rw [he]; exact List.mem_map_of_mem Order.id (get_mem_of_lt as j hj))
      show findId (as.get ⟨j, hj⟩).id (a :: as.set j r2) = some r2
      unfold findId
      rw [if_neg hne]
      exact ih j hj r2 hnd.2 hid2

theorem eraseFirstId_set : ∀ (q : List Order) (i : Nat) (hi : i < q.length) (r2 : Order),
    (q.map Order.id).Nodup → r2.id = (q.get ⟨i, hi⟩).id →
    eraseFirstId (q.get ⟨i, hi⟩).id (q.set i r2) = q.take i ++ q.drop (i + 1) := by
  intro q
  induction q with
  | nil => intro i hi; simp at hi
  | cons a as ih =>
    intro i hi r2 hnd hid
    rw [List.map_cons, List.nodup_cons] at hnd
    cases i with
    | zero =>
      show eraseFirstId a.id (r2 :: as) = as
      unfold eraseFirstId
      have hida : r2.id = a.id := hid
      rw [if_pos hida]
    | succ j =>
      have hj : j < as.length := Nat.lt_of_succ_lt_succ hi
      have hid2 : r2.id = (as.get ⟨j, hj⟩).id := hid
      have hne : a.id ≠ (as.get ⟨j, hj⟩).id := fun he =>
        hnd.1 (by rw [he]; exact List.mem_map_of_mem Order.id (get_mem_of_lt as j hj))
      show eraseFirstId (as.get ⟨j, hj⟩).id (a :: as.set j r2) =
        a :: (as.take j ++ as.drop (j + 1))
      unfold eraseFirstId
      rw [if_neg hne, ih j hj r2 hnd.2 hid2]

/-! Unconditional `queueAt` characterizations of the two match-step updates. -/

theorem queueAt_tradeUpd_self (st : OrderBook) (s : Side) (key : Option Int)
    (q : List Order) (i : Nat) (r2 : Order) (t : Trade) :
    queueAt (tradeUpd st s key q i r2 t) s key = q.set i r2 := by
  unfold queueAt
  rw [sideQueues_tradeUpd_self, alookup_aset_self]
  rfl

theorem queueAt_tradeUpd_ne_p (st : OrderBook) (s : Side) {key p : Option Int}
    (q : List Order) (i : Nat) (r2 : Order) (t : Trade) (hp : key ≠ p) :
    queueAt (tradeUpd st s key q i r2 t) s p = queueAt st s p := by
  unfold queueAt
  rw [sideQueues_tradeUpd_self, alookup_aset_ne _ _ _ _ hp]

theorem queueAt_tradeUpd_ne_s (st : OrderBook) {s s' : Side} (key : Option Int)
    (q : List Order) (i : Nat) (r2 : Order) (t : Trade) (hs : s' ≠ s) (p : Option Int) :
    queueAt (tradeUpd st s key q i r2 t) s' p = queueAt st s' p := by
  unfold queueAt
  rw [sideQueues_tradeUpd_ne _ _ _ _ _ _ hs]

theorem queueAt_eraseUpd_self (st : OrderBook) (s : Side) (key : Option Int)
    (q4 : List Order) (rid : Nat) :
    queueAt (eraseUpd st s key q4 rid) s key = eraseFirstId rid q4 := by
  unfold queueAt
  rw [sideQueues_eraseUpd_self, alookup_aset_self]
  rfl

theorem queueAt_eraseUpd_ne_p (st : OrderBook) (s : Side) {key p : Option Int}
    (q4 : List Order) (rid : Nat) (hp : key ≠ p) :
    queueAt (eraseUpd st s key q4 rid) s p = queueAt st s p := by
  unfold queueAt
  rw [sideQueues_eraseUpd_self, alookup_aset_ne _ _ _ _ hp]

theorem queueAt_eraseUpd_ne_s (st : OrderBook) {s s' : Side} (key : Option Int)
    (q4 : List Order) (rid : Nat) (hs : s' ≠ s) (p : Option Int) :
    queueAt (eraseUpd st s key q4 rid) s' p = queueAt st s' p := by
  unfold queueAt
  rw [sideQueues_eraseUpd_ne _ _ _ _ hs]

/-- Level cleanup never changes any queue content: it only deletes a key whose
queue is already empty (and `queueAt` of a missing key is `[]` as well). -/
theorem levelCleanupE_queueAt (st : OrderBook) (s : Side) (key : Option Int)
    (st2 : OrderBook) (hk : keysNodup st)
    (h : levelCleanupE st s key = .ok st2) :
    (∀ s' p, queueAt st2 s' p = queueAt st s' p) ∧
      st2.stop_orders = st.stop_orders ∧ keysNodup st2 := by
  unfold levelCleanupE at h
  cases hlk : alookup (sideQueues st s) key with
  | none => rw [hlk] at h; cases h
  | some q =>
    rw [hlk] at h
    dsimp only at h
    by_cases hq : q.isEmpty = true
    · rw [if_pos hq] at h
      cases hrm : removeFirstE key (sidePriceList st s) with
      | error e => rw [hrm] at h; cases h
      | ok pl =>
        rw [hrm] at h
        injection h with h
        subst h
        have hqkey : q = [] := List.isEmpty_iff.mp hq
        refine ⟨?_, ?_, ?_⟩
        · intro s' p
          unfold queueAt
          rw [sideQueues_setSidePriceList]
          by_cases hs : s' = s
          · subst hs
            rw [sideQueues_setSideQueues_self]
            by_cases hp : p = key
            · subst hp
              rw [alookup_adel_self _ _ (hk s'), hlk, hqkey]
              rfl
            · rw [alookup_adel_ne _ _ _ (fun he => hp he.symm)]
          · rw [sideQueues_setSideQueues_ne _ _ hs]
        · rw [setSidePriceList_stops, setSideQueues_stops]
        · intro s0
          rw [sideQueues_setSidePriceList]
          by_cases hs : s0 = s
          · subst hs
            rw [sideQueues_setSideQueues_self]
            exact (hk s0).sublist ((adel_sublist _ _).map Prod.fst)
          · rw [sideQueues_setSideQueues_ne _ _ hs]
            exact hk s0
    · rw [if_neg hq] at h
      injection h with h
      subst h
      exact ⟨fun s' p => rfl, rfl, hk⟩

/-- With no parked stops, triggering is a no-op. -/
theorem triggerStops_stopless (m : Nat) (st : OrderBook) (p : Option Int)
    (r : RunResult) (h0 : st.stop_orders = [])
    (h : runF m (.triggerStops st p) = .ok r) : r = ([], Order.dummy, st) := by
  cases m with
  | zero => cases h
  | succ n =>
    rw [runF_triggerStops] at h
    unfold triggerBody at h
    rw [h0] at h
    have hpart : triggerPartitionE p [] = .ok ([], []) := rfl
    rw [hpart] at h
    dsimp only at h
    have hst : { st with stop_orders := ([] : List Order) } = st := by rw [← h0]
    rw [hst] at h
    cases n with
    | zero => cases h
    | succ n2 =>
      rw [runF_triggerLoop] at h
      unfold triggerLoopBody at h
      injection h with h
      exact h.symm

/-- An exhausted aggressor makes the inner match loop exit immediately. -/
theorem matchInner_zero_inv (m : Nat) (st : OrderBook) (inc : Order)
    (key : Option Int) (i : Nat) (r : RunResult) (hz : inc.remaining ≤ 0)
    (h : runF m (.matchInner st inc key i) = .ok r) : r = ([], inc, st) := by
  cases m with
  | zero => cases h
  | succ n =>
    rw [runF_matchInner] at h
    unfold matchInnerBody at h
    dsimp only at h
    cases hlk : alookup (sideQueues st inc.side.flip) key with
    | none => rw [hlk] at h; cases h
    | some q =>
      rw [hlk] at h
      dsimp only at h
      by_cases hq : i < q.length
      · rw [dif_pos hq, if_pos hz] at h
        injection h with h
        exact h.symm
      · rw [dif_neg hq] at h
        injection h with h
        exact h.symm

/-- If filling the resting side of a trade leaves it alive, the aggressor is
exhausted (the traded quantity was the aggressor's whole remainder). -/
theorem fill_exhaust (a b : Order) (ha : 0 < a.remaining) (hb : 0 < b.remaining)
    (h2 : ¬ (b.fill (a.remaining ⊓ b.remaining)).remaining = 0) :
    (a.fill (a.remaining ⊓ b.remaining)).remaining ≤ 0 := by
  simp only [Order.fill, Order.remaining] at *
  omega

theorem MIC_exit (st : OrderBook) (inc : Order) (key : Option Int) (i : Nat)
    (hsl : SL st) : MIC st inc key i inc st :=
  ⟨hsl, rfl, fun _ _ _ => rfl,
    ⟨(queueAt st inc.side.flip key).drop i, (List.take_append_drop i _).symm, QRes_refl _⟩⟩

/-- The stopless FIFO induction over the interpreter: on a book with no parked
stops, live queues, per-queue id uniqueness and unique dict keys, the match
loops consume each opposing price level strictly from the front. -/
theorem stoplessFIFO : ∀ (n : Nat) (c : Call) (tr : List Trade) (o2 : Order)
    (st' : OrderBook), runF n c = .ok (tr, o2, st') →
    (∀ st inc key i, c = .matchInner st inc key i → SL st → MIC st inc key i o2 st') ∧
    (∀ st inc prices, c = .matchLevels st inc prices → SL st → MLC st inc o2 st') := by
  intro n
  induction n with
  | zero => intro c tr o2 st' h; cases h
  | succ m ih =>
    intro c tr o2 st' h
    match c with
    | .submit st o => exact ⟨fun _ _ _ _ hc _ => (nomatch hc), fun _ _ _ hc _ => (nomatch hc)⟩
    | .triggerStops st last =>
      exact ⟨fun _ _ _ _ hc _ => (nomatch hc), fun _ _ _ hc _ => (nomatch hc)⟩
    | .triggerLoop st pend =>
      exact ⟨fun _ _ _ _ hc _ => (nomatch hc), fun _ _ _ hc _ => (nomatch hc)⟩
    | .matchLevels st inc prices =>
      refine ⟨fun _ _ _ _ hc _ => (nomatch hc), fun st0 inc0 prices0 hc hsl => ?_⟩
      injection hc with he1 he2 he3
      subst he1; subst he2; subst he3
      rw [runF_matchLevels] at h
      unfold matchLevelsBody at h
      dsimp only at h
      split at h
      · cases h
        exact ⟨hsl, rfl, fun s p _ => rfl, fun p => QRes_refl _⟩
      · rename_i key rest
        split at h
        · cases h
          exact ⟨hsl, rfl, fun s p _ => rfl, fun p => QRes_refl _⟩
        · split at h
          · cases h
          · rename_i pok hpok
            split at h
            · cases h
              exact ⟨hsl, rfl, fun s p _ => rfl, fun p => QRes_refl _⟩
            · split at h
              · cases h
              · rename_i tr1 inc1 st1 heq1
                split at h
                · cases h
                · rename_i st2 heq2
                  split at h
                  · cases h
                  · rename_i tr2 inc2 st3 heq3
                    cases h
                    obtain ⟨hsl1, hside1, hB1, q2, hq2eq, hq2res⟩ :=
                      (ih _ _ _ _ heq1).1 st inc key 0 rfl hsl
                    obtain ⟨hCq, hCs, hCk⟩ :=
                      levelCleanupE_queueAt st1 inc.side.flip key st2 hsl1.2.2.2 heq2
                    have hsl2 : SL st2 :=
                      ⟨hCs.trans hsl1.1,
                        fun s p o hm => hsl1.2.1 s p o (by rw [← hCq s p]; exact hm),
                        fun s p => by rw [hCq s p]; exact hsl1.2.2.1 s p, hCk⟩
                    obtain ⟨hsl3, hside3, hB3, hC3⟩ :=
                      (ih _ _ _ _ heq3).2 st2 inc1 rest rfl hsl2
                    refine ⟨hsl3, hside3.trans hside1, ?_, ?_⟩
                    · intro s p hs
                      rw [hB3 s p (by rw [hside1]; exact hs), hCq s p,
                        hB1 s p (Or.inl hs)]
                    · intro p
                      refine QRes_trans
                        (?_ : QRes (queueAt st inc.side.flip p) (queueAt st2 inc.side.flip p)) ?_
                      · rw [hCq]
                        by_cases hp : p = key
                        · subst hp
                          have hq2eq2 : queueAt st1 inc.side.flip p = q2 := hq2eq
                          have hq2res2 : QRes (queueAt st inc.side.flip p) q2 := hq2res
                          rw [hq2eq2]
                          exact hq2res2
                        · exact QRes_of_eq (hB1 _ _ (Or.inr hp)).symm
                      · have hf : inc1.side.flip = inc.side.flip := by rw [hside1]
                        rw [← hf]
                        exact hC3 p
    | .matchInner st inc key i =>
      refine ⟨fun st0 inc0 key0 i0 hc hsl => ?_, fun _ _ _ hc _ => (nomatch hc)⟩
      injection hc with he1 he2 he3 he4
      subst he1; subst he2; subst he3; subst he4
      rw [runF_matchInner] at h
      unfold matchInnerBody at h
      dsimp only at h
      split at h
      · cases h
      · rename_i q hlk
        have hq0 : queueAt st inc.side.flip key = q := by
          unfold queueAt; rw [hlk]; rfl
        have hndq : (q.map Order.id).Nodup := by
          have h1 := hsl.2.2.1 inc.side.flip key
          rw [hq0] at h1
          exact h1
        split at h
        · rename_i hilen
          split at h
          · cases h
            exact MIC_exit _ _ _ _ hsl
          · rename_i hincpos
            split at h
            · rename_i hrdead
              exfalso
              have hmem : q.get ⟨i, hilen⟩ ∈ queueAt st inc.side.flip key := by
                rw [hq0]; exact get_mem_of_lt q i hilen
              exact absurd (hsl.2.1 _ _ _ hmem) (not_lt.mpr hrdead)
            · rename_i hrlive
              split at h
              · cases h
              · rename_i rT1 rT2 st4 heqT
                have hT := triggerStops_stopless m _ _ _
                  (by rw [tradeUpd_stops]; exact hsl.1) heqT
                cases hT
                split at h
                · cases h
                · rename_i q4 hlk4
                  rw [sideQueues_tradeUpd_self, alookup_aset_self] at hlk4
                  injection hlk4 with hq4
                  subst hq4
                  split at h
                  · cases h
                  · rename_i r4 hfind
                    rw [findId_set q i hilen ((q.get ⟨i, hilen⟩).fill
                      (inc.remaining ⊓ (q.get ⟨i, hilen⟩).remaining)) hndq rfl] at hfind
                    injection hfind with hr4
                    subst hr4
                    split at h
                    · rename_i hr4z
                      split at h
                      · cases h
                      · rename_i trR incR stR heqR
                        cases h
                        set r2 := (q.get ⟨i, hilen⟩).fill
                          (inc.remaining ⊓ (q.get ⟨i, hilen⟩).remaining) with hr2
                        set inc2 := inc.fill
                          (inc.remaining ⊓ (q.get ⟨i, hilen⟩).remaining) with hinc2
                        set st3 := tradeUpd st inc.side.flip key q i r2
                          { buy_order_id := if inc.side = Side.BUY then inc.id
                              else (q.get ⟨i, hilen⟩).id
                          , sell_order_id := if inc.side = Side.BUY then (q.get ⟨i, hilen⟩).id
                              else inc.id
                          , price := (q.get ⟨i, hilen⟩).price
                          , quantity := inc.remaining ⊓ (q.get ⟨i, hilen⟩).remaining
                          , timestamp := st.seq } with hst3
                        set st5 := eraseUpd st3 inc.side.flip key (q.set i r2)
                          (q.get ⟨i, hilen⟩).id with hst5
                        have hq5 : queueAt st5 inc.side.flip key =
                            q.take i ++ q.drop (i + 1) := by
                          rw [hst5, queueAt_eraseUpd_self,
                            eraseFirstId_set q i hilen r2 hndq (by rw [hr2]; rfl)]
                        have hother : ∀ s p, s ≠ inc.side.flip ∨ p ≠ key →
                            queueAt st5 s p = queueAt st s p := by
                          intro s p hor
                          by_cases hs : s = inc.side.flip
                          · subst hs
                            have hp : p ≠ key := by
                              rcases hor with h1 | h1
                              · exact absurd rfl h1
                              · exact h1
                            rw [hst5, queueAt_eraseUpd_ne_p _ _ _ _ (fun he => hp he.symm),
                              hst3, queueAt_tradeUpd_ne_p _ _ _ _ _ _ (fun he => hp he.symm)]
                          · rw [hst5, queueAt_eraseUpd_ne_s _ _ _ _ hs _,
                              hst3, queueAt_tradeUpd_ne_s _ _ _ _ _ _ hs _]
                        have hstop5 : st5.stop_orders = [] := by
                          rw [hst5, eraseUpd_stops, hst3, tradeUpd_stops]
                          exact hsl.1
                        have hpos5 : posQ st5 := by
                          intro s p o hm
                          by_cases hs : s = inc.side.flip
                          · subst hs
                            by_cases hp : p = key
                            · subst hp
                              rw [hq5] at hm
                              rcases List.mem_append.mp hm with hm | hm
                              · exact hsl.2.1 _ _ o (by rw [hq0]; exact List.take_subset i q hm)
                              · exact hsl.2.1 _ _ o (by rw [hq0]; exact List.drop_subset _ q hm)
                            · rw [hother _ _ (Or.inr hp)] at hm
                              exact hsl.2.1 _ _ o hm
                          · rw [hother _ _ (Or.inl hs)] at hm
                            exact hsl.2.1 _ _ o hm
                        have hnd5 : queuesIdNodup st5 := by
                          intro s p
                          by_cases hs : s = inc.side.flip
                          · subst hs
                            by_cases hp : p = key
                            · subst hp
                              rw [hst5, queueAt_eraseUpd_self]
                              have hsub : ((eraseFirstId (q.get ⟨i, hilen⟩).id
                                  (q.set i r2)).map Order.id).Sublist
                                  ((q.set i r2).map Order.id) :=
                                (eraseFirstId_sublist _ _).map _
                              rw [map_id_set q i r2 hilen (by rw [hr2]; rfl)] at hsub
                              exact hndq.sublist hsub
                            · rw [hother _ _ (Or.inr hp)]
                              exact hsl.2.2.1 _ _
                          · rw [hother _ _ (Or.inl hs)]
                            exact hsl.2.2.1 _ _
                        have hkn5 : keysNodup st5 := by
                          intro s0
                          by_cases hs : s0 = inc.side.flip
                          · subst hs
                            rw [hst5, sideQueues_eraseUpd_self]
                            refine aset_keys_nodup _ _ _ ?_
                            rw [hst3, sideQueues_tradeUpd_self]
                            exact aset_keys_nodup _ _ _ (hsl.2.2.2 _)
                          · rw [hst5, sideQueues_eraseUpd_ne _ _ _ _ hs,
                              hst3, sideQueues_tradeUpd_ne _ _ _ _ _ _ hs]
                            exact hsl.2.2.2 _
                        obtain ⟨hslR, hsideR, hBR, q2, hq2eq, hq2res⟩ :=
                          (ih _ _ _ _ heqR).1 st5 inc2 key i rfl ⟨hstop5, hpos5, hnd5, hkn5⟩
                        have hflip : inc2.side.flip = inc.side.flip := by
                          rw [hinc2, fill_side]
                        refine ⟨hslR, hsideR.trans (by rw [hinc2, fill_side]), ?_, ?_⟩
                        · intro s p hor
                          have hor2 : s ≠ inc2.side.flip ∨ p ≠ key := by
                            rcases hor with h1 | h1
                            · exact Or.inl (by rw [hinc2, fill_side]; exact h1)
                            · exact Or.inr h1
                          rw [hBR s p hor2]
                          exact hother s p hor
                        · rw [hflip] at hq2eq hq2res
                          rw [hq5] at hq2eq hq2res
                          have htk : ((q.take i ++ q.drop (i + 1)).take i) = q.take i :=
                            List.take_left' (by rw [List.length_take]; omega)
                          have hdp : ((q.take i ++ q.drop (i + 1)).drop i) = q.drop (i + 1) :=
                            List.drop_left' (by rw [List.length_take]; omega)
                          rw [htk] at hq2eq
                          rw [hdp] at hq2res
                          rw [hq0]
                          refine ⟨q2, hq2eq, ?_⟩
                          rw [← get_cons_drop_eq q i hilen]
                          exact QRes_cons_left _ hq2res
                    · rename_i hr4nz
                      split at h
                      · cases h
                      · rename_i trR incR stR heqR
                        cases h
                        set r2 := (q.get ⟨i, hilen⟩).fill
                          (inc.remaining ⊓ (q.get ⟨i, hilen⟩).remaining) with hr2
                        set inc2 := inc.fill
                          (inc.remaining ⊓ (q.get ⟨i, hilen⟩).remaining) with hinc2
                        set st3 := tradeUpd st inc.side.flip key q i r2
                          { buy_order_id := if inc.side = Side.BUY then inc.id
                              else (q.get ⟨i, hilen⟩).id
                          , sell_order_id := if inc.side = Side.BUY then (q.get ⟨i, hilen⟩).id
                              else inc.id
                          , price := (q.get ⟨i, hilen⟩).price
                          , quantity := inc.remaining ⊓ (q.get ⟨i, hilen⟩).remaining
                          , timestamp := st.seq } with hst3
                        have hr4nz2 : ¬ ((q.get ⟨i, hilen⟩).fill
                            (inc.remaining ⊓ (q.get ⟨i, hilen⟩).remaining)).remaining = 0 := by
                          rw [← hr2]; exact hr4nz
                        have hexh : inc2.remaining ≤ 0 := by
                          rw [hinc2]
                          exact fill_exhaust inc (q.get ⟨i, hilen⟩) (lt_of_not_le hincpos)
                            (lt_of_not_le hrlive) hr4nz2
                        have hR := matchInner_zero_inv m _ _ _ _ _ hexh heqR
                        have ho2 : o2 = inc2 := congrArg (fun z : RunResult => z.2.1) hR
                        have hstf : st' = st3 := congrArg (fun z : RunResult => z.2.2) hR
                        subst ho2
                        subst hstf
                        have hq3 : queueAt st3 inc.side.flip key = q.set i r2 := by
                          rw [hst3, queueAt_tradeUpd_self]
                        have hother3 : ∀ s p, s ≠ inc.side.flip ∨ p ≠ key →
                            queueAt st3 s p = queueAt st s p := by
                          intro s p hor
                          by_cases hs : s = inc.side.flip
                          · subst hs
                            have hp : p ≠ key := by
                              rcases hor with h1 | h1
                              · exact absurd rfl h1
                              · exact h1
                            rw [hst3, queueAt_tradeUpd_ne_p _ _ _ _ _ _ (fun he => hp he.symm)]
                          · rw [hst3, queueAt_tradeUpd_ne_s _ _ _ _ _ _ hs _]
                        have hr2pos : 0 < r2.remaining :=
                          lt_of_le_of_ne (remaining_nonneg _) (fun he => hr4nz he.symm)
                        have hsl3 : SL st3 := by
                          refine ⟨?_, ?_, ?_, ?_⟩
                          · rw [hst3, tradeUpd_stops]; exact hsl.1
                          · intro s p o hm
                            by_cases hs : s = inc.side.flip
                            · subst hs
                              by_cases hp : p = key
                              · subst hp
                                rw [hq3] at hm
                                rcases List.mem_or_eq_of_mem_set hm with hm | hm
                                · exact hsl.2.1 _ _ o (by rw [hq0]; exact hm)
                                · rw [hm]; exact hr2pos
                              · rw [hother3 _ _ (Or.inr hp)] at hm
                                exact hsl.2.1 _ _ o hm
                            · rw [hother3 _ _ (Or.inl hs)] at hm
                              exact hsl.2.1 _ _ o hm
                          · intro s p
                            by_cases hs : s = inc.side.flip
                            · subst hs
                              by_cases hp : p = key
                              · subst hp
                                rw [hq3, map_id_set q i r2 hilen (by rw [hr2]; rfl)]
                                exact hndq
                              · rw [hother3 _ _ (Or.inr hp)]
                                exact hsl.2.2.1 _ _
                            · rw [hother3 _ _ (Or.inl hs)]
                              exact hsl.2.2.1 _ _
                          · intro s0
                            by_cases hs : s0 = inc.side.flip
                            · subst hs
                              rw [hst3, sideQueues_tradeUpd_self]
                              exact aset_keys_nodup _ _ _ (hsl.2.2.2 _)
                            · rw [hst3, sideQueues_tradeUpd_ne _ _ _ _ _ _ hs]
                              exact hsl.2.2.2 _
                        refine ⟨hsl3, by rw [hinc2, fill_side], hother3, ?_⟩
                        rw [hq0]
                        refine ⟨r2 :: q.drop (i + 1), ?_, ?_⟩
                        · rw [hq3]
                          exact List.set_eq_take_cons_drop r2 hilen
                        · exact ⟨0, Or.inr ⟨q.get ⟨i, hilen⟩, q.drop (i + 1), r2,
                            (get_cons_drop_eq q i hilen).symm, rfl,
                            by rw [hr2]
                               exact FillOf_fill _ _ (le_min (le_of_lt (lt_of_not_le hincpos))
                                 (le_of_lt (lt_of_not_le hrlive)))⟩⟩
        · rename_i hilen
          cases h
          exact MIC_exit _ _ _ _ hsl

/-- Adding a limit order to its own side's book leaves every queue of the
other side untouched. -/
theorem addLimitE_queueAt_other (st2 : OrderBook) (o2 : Order) (st3 : OrderBook)
    (h : addLimitE st2 o2 = .ok st3) (s : Side) (p : Option Int) (hs : s ≠ o2.side) :
    queueAt st3 s p = queueAt st2 s p := by
  unfold addLimitE at h
  dsimp only at h
  cases hlk : alookup (sideQueues st2 o2.side) o2.price with
  | none =>
    rw [hlk] at h
    dsimp only at h
    cases hins : insortE o2.price (sidePriceList st2 o2.side) with
    | error e => rw [hins] at h; cases h
    | ok pl =>
      rw [hins] at h
      dsimp only at h
      injection h with h
      subst h
      unfold queueAt
      rw [sideQueues_ordersUpd, sideQueues_setSidePriceList,
        sideQueues_setSideQueues_ne _ _ hs]
  | some qq =>
    rw [hlk] at h
    dsimp only at h
    injection h with h
    subst h
    unfold queueAt
    rw [sideQueues_ordersUpd, sideQueues_setSideQueues_ne _ _ hs]

/-- The submit-level stopless FIFO theorem: a completed submission into a book
with no parked stops consumes every opposing price level strictly from the
front of its time queue. -/
theorem submit_stopless_fifo : ∀ (fuel : Nat) (st : OrderBook) (o : Order)
    (tr : List Trade) (st' : OrderBook), st.stop_orders = [] → SWX st none →
    wfPos st → submit_order fuel st o = .ok (tr, st') →
    ∀ p, QRes (queueAt st o.side.flip p) (queueAt st' o.side.flip p) := by
  intro fuel st o tr st' h0 hswx hpos h
  unfold submit_order at h
  cases hrun : runF fuel (.submit st o) with
  | error e => rw [hrun] at h; cases h
  | ok r =>
    obtain ⟨tr0, o2, st1⟩ := r
    rw [hrun] at h
    dsimp only at h
    injection h with h
    have hst1 : st1 = st' := congrArg Prod.snd h
    rw [← hst1]
    cases fuel with
    | zero => cases hrun
    | succ m =>
      rw [runF_submit] at hrun
      unfold submitBody at hrun
      split at hrun
      · cases hrun
      · split at hrun
        · cases hrun
          intro p
          rw [queueAt_stopsUpd]
          exact QRes_refl _
        · dsimp only at hrun
          split at hrun
          · cases hrun
          · rename_i o1 hoE
            have ho1s : o1.side = o.side := by
              split at hoE
              · split at hoE
                · cases hoE
                · split at hoE
                  · cases hoE
                  · cases hoE
                    rfl
              · cases hoE
                rfl
            split at hrun
            · cases hrun
            · rename_i prices hpr
              cases hml : runF m (.matchLevels st o1 prices) with
              | error e => rw [hml] at hrun; cases hrun
              | ok r1 =>
                obtain ⟨trM, oM, stM⟩ := r1
                rw [hml] at hrun
                dsimp only at hrun
                have hsl : SL st := by
                  refine ⟨h0, wfPos_queueAt hpos, ?_, fun s => ((SWX_forall hswx).1 s).1⟩
                  intro s p
                  unfold queueAt
                  cases hq : alookup (sideQueues st s) p with
                  | none => simp
                  | some qq =>
                    exact queue_ids_nodup_of_lookup (SWX_forall hswx).2.2.2 hq
                obtain ⟨hslM, hsideM, hBM, hCM⟩ :=
                  (stoplessFIFO m _ _ _ _ hml).2 st o1 prices rfl hsl
                have hCM2 : ∀ p, QRes (queueAt st o.side.flip p)
                    (queueAt stM o.side.flip p) := by
                  intro p
                  have hx := hCM p
                  rw [ho1s] at hx
                  exact hx
                split at hrun
                · cases hrun
                  exact hCM2
                · split at hrun
                  · cases hrun
                    exact hCM2
                  · split at hrun
                    · split at hrun
                      · cases hrun
                      · rename_i st3 hadd
                        cases hrun
                        intro p
                        rw [addLimitE_queueAt_other stM o2 st1 hadd _ p
                          (by rw [hsideM, ho1s]; cases o.side <;> decide)]
                        exact hCM2 p
                    · cases hrun
                      intro p
                      rw [queueAt_ordersUpd]
                      exact hCM2 p

/-- C6 (price-time priority): (1) generally, on a book with no parked stop
orders (well-formed and with live queues), a completed submission consumes
every opposing price level strictly from the front of its FIFO queue: the
post-state queue is a suffix of the pre-state queue with at most its first
survivor partially filled (`QRes`), so an earlier-queued (earlier-timestamped)
resting order is always consumed before any later one at the same price;
(2) concretely: empty book, Sell Limit 10@101, then Sell Limit 5@101, then
Buy Limit 12@101 yield exactly two trades 10@101 then 2@101, the aggressor
fully filled (filled = 12), and the book holding exactly one resting Sell at
101 with remaining 3. -/
theorem C6_price_time_priority :
    (∀ (fuel : Nat) (st : OrderBook) (o : Order) (tr : List Trade)
      (st' : OrderBook), st.stop_orders = [] → SWX st none → wfPos st →
      submit_order fuel st o = .ok (tr, st') →
      ∀ p, QRes (queueAt st o.side.flip p) (queueAt st' o.side.flip p)) ∧
    submit_order 20 OrderBook.empty ptSell1 = .ok ([], ptBook1) ∧
    submit_order 20 ptBook1 ptSell2 = .ok ([], ptBook) ∧
    submit_order 20 ptBook ptBuy = .ok ([ptT1, ptT2], ptAfter) ∧
    queueAt ptAfter .SELL (some 101) = [{ ptSell2 with filled := 2 }] ∧
    ({ ptSell2 with filled := 2 }).remaining = 3 := by
  refine ⟨submit_stopless_fifo, by decide, by decide, by decide, by decide, by decide⟩

/-- Witness for C6 at a concrete input: the FIFO-residue relation between the
101-level sell queue before and after the aggressor sweeps `ptBook`. -/
theorem C6_price_time_priority_witness :
    QRes (queueAt ptBook ptBuy.side.flip (some 101))
      (queueAt ptAfter ptBuy.side.flip (some 101)) :=
  C6_price_time_priority.1 20 ptBook ptBuy [ptT1, ptT2] ptAfter (by decide)
    (by decide) (by decide) (by decide) (some 101)
